import Mathlib

/-!
# pngatls: packing, trimming and the atLS metadata block

A shallow embedding of `pngatls.c`.  Values of type `png_uint_32` are natural
numbers; every `+`, `-` and `*` the C code performs in that type is written
with `add32`, `sub32`, `mul32`, which reduce modulo `2^32`.  The global
variables of the program (`padding`, `size`, `images`, `min_w`, `min_h`,
`free_rects`) are the fields of `State`.  Linked lists are Lean lists in the
same order; a pointer into the image list (`b` in `pack`) is a list position.
-/

namespace Pngatls

/-! ## Machine arithmetic -/

/-- The constant `PNG_UINT_32_MAX` of libpng, `(png_uint_32)(-1)`. -/
def PNG_UINT_32_MAX : Nat := 4294967295

/-- Addition in `png_uint_32`. -/
def add32 (a b : Nat) : Nat := (a + b) % 4294967296

/-- Subtraction in `png_uint_32` (operands below `2^32`). -/
def sub32 (a b : Nat) : Nat := (a + 4294967296 - b) % 4294967296

/-- Multiplication in `png_uint_32`. -/
def mul32 (a b : Nat) : Nat := (a * b) % 4294967296

/-- Source: `imin`. -/
def imin (a b : Nat) : Nat := if a < b then a else b

/-- Source: `imax`. -/
def imax (a b : Nat) : Nat := if a > b then a else b

/-! ## Data model -/

/-- Source: `struct image` (the `next` pointer is the list structure).  `p` is
the owned pixel buffer, one list of bytes per row; `filename` is the
identifier as a list of bytes without the terminating NUL. -/
structure Image where
  w : Nat
  h : Nat
  tl : Nat
  tt : Nat
  tr : Nat
  tb : Nat
  p : List (List Nat)
  filename : List Nat
  packed : Bool
  x0 : Nat
  y0 : Nat
deriving DecidableEq, Repr

/-- Source: `struct rect`, the region `[x0,x1) x [y0,y1)`. -/
structure Rect where
  x0 : Nat
  y0 : Nat
  x1 : Nat
  y1 : Nat
deriving DecidableEq, Repr

/-- The global variables read and written by `add_rect` and `pack`. -/
structure State where
  padding : Nat
  size : Nat
  images : List Image
  min_w : Nat
  min_h : Nat
  free_rects : List Rect
deriving DecidableEq, Repr

/-! ## Free-space set: `add_rect` -/

/-- The list walk of `add_rect` (lines 436-446).  The result is the list as
the walk leaves it and a flag telling whether the walk ran to the end (`true`)
or hit the early `return` because the candidate lies inside a member
(`false`); members that lie inside the candidate are unlinked on the way. -/
def add_rect_scan (x0 y0 x1 y1 : Nat) : List Rect → List Rect × Bool
  | [] => ([], true)
  | f :: rest =>
    if x0 ≥ f.x0 ∧ x1 ≤ f.x1 ∧ y0 ≥ f.y0 ∧ y1 ≤ f.y1 then
      (f :: rest, false)
    else if x0 ≤ f.x0 ∧ x1 ≥ f.x1 ∧ y0 ≤ f.y0 ∧ y1 ≥ f.y1 then
      add_rect_scan x0 y0 x1 y1 rest
    else
      ((add_rect_scan x0 y0 x1 y1 rest).1.cons f, (add_rect_scan x0 y0 x1 y1 rest).2)

/-- Source: `add_rect`, as a function of the globals it reads (`min_w`,
`min_h`, `padding`) and the list `free_rects` it updates. -/
def add_rect (min_w min_h padding : Nat) (fr : List Rect) (x0 y0 x1 y1 : Nat) : List Rect :=
  if x0 > x1 ∨ sub32 x1 x0 < add32 min_w padding ∨
     y0 > y1 ∨ sub32 y1 y0 < add32 min_h padding then
    fr
  else if (add_rect_scan x0 y0 x1 y1 fr).2 then
    { x0 := x0, y0 := y0, x1 := x1, y1 := y1 } :: (add_rect_scan x0 y0 x1 y1 fr).1
  else
    (add_rect_scan x0 y0 x1 y1 fr).1

/-! ## Packer: `pack` -/

/-- The local variables `b`, `bssf`, `blsf`, `bx1`, `by1` of `pack` once `b`
is non-null; `b` is the position of the image in the list. -/
structure Best where
  b : Nat
  bssf : Nat
  blsf : Nat
  bx1 : Nat
  by1 : Nat
deriving DecidableEq, Repr

/-- The replacement test of lines 475-481. -/
def better (best : Option Best) (ssf lsf x1 y1 : Nat) : Bool :=
  match best with
  | none => true
  | some c =>
    decide (c.bssf > ssf) || (decide (c.bssf = ssf) &&
      (decide (c.blsf > lsf) || (decide (c.blsf = lsf) &&
      (decide (imax c.bx1 c.by1 > imax x1 y1) ||
       (decide (imax c.bx1 c.by1 = imax x1 y1) &&
      (decide (imin c.bx1 c.by1 > imin x1 y1) ||
       (decide (imin c.bx1 c.by1 = imin x1 y1) &&
        (decide (c.bx1 < c.by1) && !decide (x1 < y1)))))))))

/-- The inner loop of `pack` (lines 467-490) for the image `i` at position
`k`: returns the image (its `x0`, `y0` are overwritten each time it becomes the
best candidate) and the updated best candidate. -/
def scan_rects (padding k : Nat) : Image → Option Best → List Rect → Image × Option Best
  | i, best, [] => (i, best)
  | i, best, f :: fs =>
    if sub32 f.x1 f.x0 < add32 i.w padding ∨ sub32 f.y1 f.y0 < add32 i.h padding then
      scan_rects padding k i best fs
    else
      let x1 := add32 (add32 f.x0 i.w) padding
      let y1 := add32 (add32 f.y0 i.h) padding
      let ssf := imin (sub32 f.x1 x1) (sub32 f.y1 y1)
      let lsf := imax (sub32 f.x1 x1) (sub32 f.y1 y1)
      if better best ssf lsf x1 y1 then
        scan_rects padding k { i with x0 := f.x0, y0 := f.y0 }
          (some { b := k, bssf := ssf, blsf := lsf, bx1 := x1, by1 := y1 }) fs
      else
        scan_rects padding k i best fs

/-- The outer loop of `pack` (lines 464-491) over the images from position `k`
on. -/
def scan_images (padding : Nat) (fr : List Rect) :
    Nat → List Image → Option Best → List Image × Option Best
  | _, [], best => ([], best)
  | k, i :: rest, best =>
    if i.packed then
      ((scan_images padding fr (k + 1) rest best).1.cons i,
       (scan_images padding fr (k + 1) rest best).2)
    else
      ((scan_images padding fr (k + 1) rest (scan_rects padding k i best fr).2).1.cons
          (scan_rects padding k i best fr).1,
       (scan_images padding fr (k + 1) rest (scan_rects padding k i best fr).2).2)

/-- Line 494, `b->packed = true`, for the image at position `k`. -/
def set_packed : Nat → List Image → List Image
  | _, [] => []
  | 0, i :: rest => { i with packed := true } :: rest
  | k + 1, i :: rest => i :: set_packed k rest

/-- The rebuild of the free list (lines 496-506): `old` is the detached former
list, `acc` the new `free_rects`; `bx0`, `by0` are `b->x0`, `b->y0`. -/
def split_rects (min_w min_h padding bx1 by1 bx0 by0 : Nat) :
    List Rect → List Rect → List Rect
  | [], acc => acc
  | f :: fs, acc =>
    let a1 := add_rect min_w min_h padding acc (imax f.x0 bx1) f.y0 f.x1 f.y1
    let a2 := add_rect min_w min_h padding a1 f.x0 (imax f.y0 by1) f.x1 f.y1
    let a3 := add_rect min_w min_h padding a2 f.x0 f.y0 (imin f.x1 bx0) f.y1
    let a4 := add_rect min_w min_h padding a3 f.x0 f.y0 f.x1 (imin f.y1 by0)
    split_rects min_w min_h padding bx1 by1 bx0 by0 fs a4

/-- The image at position `k`, or a zero image when there is none. -/
def imageAt (l : List Image) (k : Nat) : Image :=
  l.getD k { w := 0, h := 0, tl := 0, tt := 0, tr := 0, tb := 0, p := [],
             filename := [], packed := false, x0 := 0, y0 := 0 }

/-- One pass of the `for (;;)` loop of `pack` after the candidate scan found
`c`: mark the image packed and rebuild the free list. -/
def commit (st : State) (imgs : List Image) (c : Best) : State :=
  { st with
    images := set_packed c.b imgs
    free_rects := split_rects st.min_w st.min_h st.padding c.bx1 c.by1
      (imageAt imgs c.b).x0 (imageAt imgs c.b).y0 st.free_rects [] }

/-- The `for (;;)` loop of `pack` (lines 460-507), with a bound on the number
of passes; `none` means the bound was reached before the loop left. -/
def pack_loop : Nat → State → Option State
  | 0, _ => none
  | n + 1, st =>
    match (scan_images st.padding st.free_rects 0 st.images none).2 with
    | none => some { st with images := (scan_images st.padding st.free_rects 0 st.images none).1 }
    | some c => pack_loop n
        (commit st (scan_images st.padding st.free_rects 0 st.images none).1 c)

/-- Lines 456-458 of `pack`: `add_rect(0, 0, size, size)` and the clearing of
every `packed` flag. -/
def pack_init (st : State) : State :=
  { st with
    free_rects := add_rect st.min_w st.min_h st.padding st.free_rects 0 0 st.size st.size
    images := st.images.map (fun i => { i with packed := false }) }

/-- Source: `pack`.  Each pass of the loop but the last packs one more image,
so `images.length + 1` passes are enough (`pack_spec`). -/
def pack (st : State) : Option State :=
  pack_loop (st.images.length + 1) (pack_init st)

/-- An image with only its size and identifier set, as `read_png` creates it
for a whole input file (pixel data aside). -/
def sprite (name w h : Nat) : Image :=
  { w := w, h := h, tl := 0, tt := 0, tr := 0, tb := 0, p := [],
    filename := [name], packed := false, x0 := 0, y0 := 0 }

/-! ## Predicates used in the statements and invariants -/

/-- The point `(x, y)` lies in the padded box of image `i`:
`[x0, x0+w+padding) x [y0, y0+h+padding)`, in exact arithmetic. -/
def inBox (padding : Nat) (i : Image) (x y : Nat) : Prop :=
  i.x0 ≤ x ∧ x < i.x0 + i.w + padding ∧ i.y0 ≤ y ∧ y < i.y0 + i.h + padding

/-- The point `(x, y)` lies in the free rectangle `f`. -/
def inRect (f : Rect) (x y : Nat) : Prop :=
  f.x0 ≤ x ∧ x < f.x1 ∧ f.y0 ≤ y ∧ y < f.y1

/-- A free rectangle is well formed and lies within the page of side `size`. -/
def RectOK (size : Nat) (f : Rect) : Prop :=
  f.x0 ≤ f.x1 ∧ f.y0 ≤ f.y1 ∧ f.x1 ≤ size ∧ f.y1 ≤ size

/-- Every rectangle of the free list is well formed and within the page: what
`add_rect` and `pack` leave behind, and what holds of the empty list the
program starts from. -/
def FreeOK (st : State) : Prop :=
  ∀ f ∈ st.free_rects, RectOK st.size f

/-- Number of images not marked packed. -/
def unpacked (l : List Image) : Nat :=
  (l.filter (fun i => !i.packed)).length

/-- The rectangle `g` is one of the four clips of `f` that `pack` offers to
`add_rect` after a placement with far corner `(bx1, by1)` and low corner
`(bx0, by0)`, and it is not degenerate the wrong way round. -/
def Clip (bx1 by1 bx0 by0 : Nat) (f g : Rect) : Prop :=
  g.x0 ≤ g.x1 ∧ g.y0 ≤ g.y1 ∧
  (g = { x0 := imax f.x0 bx1, y0 := f.y0, x1 := f.x1, y1 := f.y1 } ∨
   g = { x0 := f.x0, y0 := imax f.y0 by1, x1 := f.x1, y1 := f.y1 } ∨
   g = { x0 := f.x0, y0 := f.y0, x1 := imin f.x1 bx0, y1 := f.y1 } ∨
   g = { x0 := f.x0, y0 := f.y0, x1 := f.x1, y1 := imin f.y1 by0 })

/-- What the scan guarantees about the best candidate `c` and the image `i` it
points to, in the code's own arithmetic: `i` was not packed, and some free
rectangle `f` passed the size test for `i`, gave `i` its origin and `c` its
far corner and its two leftover sides. -/
def Good (padding : Nat) (fr : List Rect) (i : Image) (c : Best) : Prop :=
  ∃ f ∈ fr, ¬ (sub32 f.x1 f.x0 < add32 i.w padding ∨ sub32 f.y1 f.y0 < add32 i.h padding) ∧
    i.x0 = f.x0 ∧ i.y0 = f.y0 ∧
    c.bx1 = add32 (add32 f.x0 i.w) padding ∧ c.by1 = add32 (add32 f.y0 i.h) padding ∧
    c.bssf = imin (sub32 f.x1 c.bx1) (sub32 f.y1 c.by1) ∧
    c.blsf = imax (sub32 f.x1 c.bx1) (sub32 f.y1 c.by1)

/-- The image `j` is the image `i` with possibly another origin. -/
def SameBut (i j : Image) : Prop :=
  j = { i with x0 := j.x0, y0 := j.y0 }

/-- The image `j` is the image `i` with possibly another origin and packed
flag. -/
def Placed (i j : Image) : Prop :=
  j = { i with x0 := j.x0, y0 := j.y0, packed := j.packed }

/-- The invariant of the loop of `pack`: no 32-bit sum of a sprite side and
the padding wraps, the free rectangles are well formed within the page, every
packed sprite's padded box is within the page, meets no free rectangle, and
meets no other packed sprite's padded box. -/
structure PackInv (st : State) : Prop where
  size_lt : st.size < 4294967296
  no_wrap : ∀ j, j < st.images.length →
    (imageAt st.images j).w + st.padding < 4294967296 ∧
    (imageAt st.images j).h + st.padding < 4294967296
  free_ok : FreeOK st
  box_in : ∀ j, (imageAt st.images j).packed = true →
    (imageAt st.images j).x0 + (imageAt st.images j).w + st.padding ≤ st.size ∧
    (imageAt st.images j).y0 + (imageAt st.images j).h + st.padding ≤ st.size
  box_free : ∀ j, (imageAt st.images j).packed = true → ∀ f ∈ st.free_rects, ∀ x y,
    inBox st.padding (imageAt st.images j) x y → ¬ inRect f x y
  box_box : ∀ j l, j ≠ l → (imageAt st.images j).packed = true →
    (imageAt st.images l).packed = true → ∀ x y,
    inBox st.padding (imageAt st.images j) x y → ¬ inBox st.padding (imageAt st.images l) x y

/-! ## Concrete states used as examples -/

/-- Two sprites, 2x1 and 1x2, for a page of side 4 with padding 1, before the
first call of `pack`. -/
def packExample : State :=
  { padding := 1, size := 4, images := [sprite 1 2 1, sprite 2 1 2],
    min_w := 1, min_h := 1, free_rects := [] }

/-- A single sprite of width `2^32 - 1` and height 1 with padding 1 on a page
of side 2: the sum `w + padding` wraps to 0 in `png_uint_32`. -/
def wrapExample : State :=
  { padding := 1, size := 2, images := [sprite 1 4294967295 1],
    min_w := 4294967295, min_h := 1, free_rects := [] }

/-! ## Fixed-size driver -/

/-- Source: `free_packed`, the images that stay in the list. -/
def free_packed (l : List Image) : List Image :=
  l.filter (fun i => !i.packed)

/-- The images `write_png`, `write_xml` and `write_json` visit on one page:
those marked packed, in list order. -/
def page_images (l : List Image) : List Image :=
  l.filter (fun i => i.packed)

/-- The fixed-size branch of `main` (lines 584-593): while images remain, call
`pack`, write the page, free the packed images.  The result lists the pages in
the order written; `none` means the bound on the number of passes was reached
(the C loop has no bound). -/
def fixed_loop : Nat → State → Option (List (List Image))
  | 0, _ => none
  | n + 1, st =>
    if st.images.isEmpty then some []
    else
      match pack st with
      | none => none
      | some st' =>
        (fixed_loop n { st' with images := free_packed st'.images }).map
          (fun pages => page_images st'.images :: pages)

/-- The fixed-size driver with one pass allowed per image (and one more to see
the empty list). -/
def fixed_driver (st : State) : Option (List (List Image)) :=
  fixed_loop (st.images.length + 1) st

/-- Sprites 6x2, 5x5, 1x4, 2x2 (named 1 to 4) for a page of side 7 without
padding. -/
def orderExampleA : State :=
  { padding := 0, size := 7,
    images := [sprite 1 6 2, sprite 2 5 5, sprite 3 1 4, sprite 4 2 2],
    min_w := 1, min_h := 2, free_rects := [] }

/-- The state `orderExampleA` with the last two images exchanged. -/
def orderExampleB : State :=
  { padding := 0, size := 7,
    images := [sprite 1 6 2, sprite 2 5 5, sprite 4 2 2, sprite 3 1 4],
    min_w := 1, min_h := 2, free_rects := [] }

/-- Name, packed flag and origin of every image. -/
def placements (st : State) : List (List Nat × Bool × Nat × Nat) :=
  st.images.map (fun i => (i.filename, i.packed, i.x0, i.y0))

/-- Sprites 10x10, 10x10, 15x15 (named 1 to 3) as loaded for pages of side 20
without padding. -/
def fixedExample : State :=
  { padding := 0, size := 20,
    images := [sprite 1 10 10, sprite 2 10 10, sprite 3 15 15],
    min_w := 10, min_h := 10, free_rects := [] }

/-! ## Atlas metadata codec -/

/-- The chunk name `atLS` (line 111). -/
def atLS : List Nat := [97, 116, 76, 83]

/-- libpng's `png_save_uint_32`: the four bytes of `v`, most significant
first. -/
def png_save_uint_32 (v : Nat) : List Nat :=
  [v / 16777216 % 256, v / 65536 % 256, v / 256 % 256, v % 256]

/-- libpng's `png_get_uint_32` on the bytes of `buf` from offset `off`. -/
def png_get_uint_32 (buf : List Nat) (off : Nat) : Nat :=
  buf.getD off 0 * 16777216 + buf.getD (off + 1) 0 * 65536 +
    buf.getD (off + 2) 0 * 256 + buf.getD (off + 3) 0

/-- The call `memchr(s, c, n)` with `n` the length of `s`: offset of the
first byte equal to `c`. -/
def memchr : List Nat → Nat → Option Nat
  | [], _ => none
  | b :: rest, c => if b = c then some 0 else (memchr rest c).map (fun k => k + 1)

/-- The payload `write_png` writes for a packed image (lines 273-291): the
identifier with its NUL, `x0 y0 w h`, and the four margins when one of them is
not zero. -/
def atls_payload (i : Image) : List Nat :=
  i.filename ++ [0] ++
    (png_save_uint_32 i.x0 ++ png_save_uint_32 i.y0 ++
     png_save_uint_32 i.w ++ png_save_uint_32 i.h) ++
    (if i.tl ≠ 0 ∨ i.tt ≠ 0 ∨ i.tr ≠ 0 ∨ i.tb ≠ 0 then
       png_save_uint_32 i.tl ++ png_save_uint_32 i.tt ++
       png_save_uint_32 i.tr ++ png_save_uint_32 i.tb
     else [])

/-- The image a chunk payload describes (the initialiser of lines 127-137):
`data` is the payload, `k` the offset of its first NUL. -/
def chunk_image (data : List Nat) (k : Nat) (trimmed : Bool) : Image :=
  { x0 := png_get_uint_32 data (k + 1 + 4 * 0)
    y0 := png_get_uint_32 data (k + 1 + 4 * 1)
    w := png_get_uint_32 data (k + 1 + 4 * 2)
    h := png_get_uint_32 data (k + 1 + 4 * 3)
    tl := if trimmed then png_get_uint_32 data (k + 1 + 4 * 4) else 0
    tt := if trimmed then png_get_uint_32 data (k + 1 + 4 * 5) else 0
    tr := if trimmed then png_get_uint_32 data (k + 1 + 4 * 6) else 0
    tb := if trimmed then png_get_uint_32 data (k + 1 + 4 * 7) else 0
    filename := data.take k
    p := []
    packed := false }

/-- The test of lines 138-139 on the decoded image (`true` makes the callback
return -1). -/
def restore_overflow (i : Image) : Bool :=
  decide (i.tl > sub32 PNG_UINT_32_MAX i.w) ||
  decide (i.tr > sub32 (sub32 PNG_UINT_32_MAX i.w) i.tl) ||
  decide (i.tt > sub32 PNG_UINT_32_MAX i.w) ||
  decide (i.tb > sub32 (sub32 PNG_UINT_32_MAX i.w) i.tt)

/-- Source: `read_chunk_callback`, for a chunk with the given name and
payload.  The result is the return value (0 not recognised, -1 error, 1
handled) and the image list afterwards. -/
def read_chunk_callback (images : List Image) (name data : List Nat) : Int × List Image :=
  if name.take 4 ≠ atLS then (0, images)
  else
    match memchr data 0 with
    | none => (-1, images)
    | some k =>
      let rest := data.length - (k + 1)
      let trimmed := decide (rest > 4 * 4)
      if rest ≠ 4 * 4 * (1 + if trimmed then 1 else 0) then (-1, images)
      else if restore_overflow (chunk_image data k trimmed) then (-1, images)
      else (1, images ++ [chunk_image data k trimmed])

/-- A 3x2 sprite (after trimming) with top margin `2^32 - 3`: the restored
size is 3 by `2^32 - 1`, within 32 bits. -/
def marginExample : Image :=
  { sprite 97 3 2 with tt := 4294967293, packed := true }

/-! ## Sprite trimmer (`read_png`, lines 189-199) -/

/-- The alpha byte `p[i->y0+y][(i->x0+x)*4+3]` that `row_clear` and
`col_clear` read; `p` is the decoded page, one list of bytes per row, and the
index arithmetic is that of `png_uint_32`. -/
def alpha_at (p : List (List Nat)) (i : Image) (x y : Nat) : Nat :=
  (p.getD (add32 i.y0 y) []).getD (add32 (mul32 (add32 i.x0 x) 4) 3) 0

/-- Source: `row_clear`. -/
def row_clear (p : List (List Nat)) (i : Image) (y : Nat) : Bool :=
  (List.range i.w).all (fun x => alpha_at p i x y == 0)

/-- Source: `col_clear`. -/
def col_clear (p : List (List Nat)) (i : Image) (x : Nat) : Bool :=
  (List.range i.h).all (fun y => alpha_at p i x y == 0)

/-- The check of lines 190-191 on a sub-rectangle of a `w` by `h` image
(`true` means the sub-rectangle is accepted). -/
def valid_sub (w h : Nat) (i : Image) : Bool :=
  !(decide (i.x0 > w) || decide (i.w = 0) || decide (i.w > sub32 w i.x0) ||
    decide (i.y0 > h) || decide (i.h = 0) || decide (i.h > sub32 h i.y0))

/-- Line 195: remove clear rows at the bottom; the first argument bounds the
number of passes. -/
def trim_bottom (p : List (List Nat)) : Nat → Image → Image
  | 0, i => i
  | n + 1, i =>
    if i.h > 1 ∧ row_clear p i (i.h - 1) = true then
      trim_bottom p n { i with h := i.h - 1, tb := add32 i.tb 1 }
    else i

/-- Line 196: remove clear rows at the top. -/
def trim_top (p : List (List Nat)) : Nat → Image → Image
  | 0, i => i
  | n + 1, i =>
    if i.h > 1 ∧ row_clear p i 0 = true then
      trim_top p n { i with h := i.h - 1, tt := add32 i.tt 1, y0 := add32 i.y0 1 }
    else i

/-- Line 197: remove clear columns at the right. -/
def trim_right (p : List (List Nat)) : Nat → Image → Image
  | 0, i => i
  | n + 1, i =>
    if i.w > 1 ∧ col_clear p i (i.w - 1) = true then
      trim_right p n { i with w := i.w - 1, tr := add32 i.tr 1 }
    else i

/-- Line 198: remove clear columns at the left. -/
def trim_left (p : List (List Nat)) : Nat → Image → Image
  | 0, i => i
  | n + 1, i =>
    if i.w > 1 ∧ col_clear p i 0 = true then
      trim_left p n { i with w := i.w - 1, tl := add32 i.tl 1, x0 := add32 i.x0 1 }
    else i

/-- The four trimming loops of `read_png` in their order.  Each pass of a loop
lowers `h` (or `w`) by one and needs it above 1, so `h` (or `w`) passes are
never used up (`trim_bottom_exit` and its siblings). -/
def trim_loops (p : List (List Nat)) (i : Image) : Image :=
  let i1 := trim_bottom p i.h i
  let i2 := trim_top p i1.h i1
  let i3 := trim_right p i2.w i2
  trim_left p i3.w i3

/-- The pixel `(X, Y)` of the page lies in the sub-rectangle of `i`. -/
def inSub (i : Image) (X Y : Nat) : Prop :=
  i.x0 ≤ X ∧ X < i.x0 + i.w ∧ i.y0 ≤ Y ∧ Y < i.y0 + i.h

/-- The alpha byte of pixel `(X, Y)` of the page: byte `4X + 3` of row `Y`. -/
def pixel_alpha (p : List (List Nat)) (X Y : Nat) : Nat :=
  (p.getD Y []).getD (X * 4 + 3) 0

/-- The byte the code reads for the alpha of pixel `(X, Y)`: the byte offset
is computed in `png_uint_32`. -/
def acode (p : List (List Nat)) (X Y : Nat) : Nat :=
  (p.getD Y []).getD (add32 (mul32 X 4) 3) 0

/-- The sub-rectangle of `i` is not empty and lies in a `W` by `H` image whose
sides fit 32 bits: what `valid_sub` accepts. -/
def Sub (W H : Nat) (i : Image) : Prop :=
  W < 4294967296 ∧ H < 4294967296 ∧
  i.x0 + i.w ≤ W ∧ i.y0 + i.h ≤ H ∧ 1 ≤ i.w ∧ 1 ≤ i.h

/-- The image `r` comes from `i` by removing `kl`, `kt`, `kr`, `kb` clear
columns and rows at the left, top, right and bottom. -/
structure TrimRel (p : List (List Nat)) (i r : Image) (kl kt kr kb : Nat) : Prop where
  x0 : r.x0 = i.x0 + kl
  y0 : r.y0 = i.y0 + kt
  w : r.w + kl + kr = i.w
  h : r.h + kt + kb = i.h
  w1 : 1 ≤ r.w
  h1 : 1 ≤ r.h
  tl : r.tl % 4294967296 = (i.tl + kl) % 4294967296
  tt : r.tt % 4294967296 = (i.tt + kt) % 4294967296
  tr : r.tr % 4294967296 = (i.tr + kr) % 4294967296
  tb : r.tb % 4294967296 = (i.tb + kb) % 4294967296
  tl_lt : i.tl < 4294967296 → r.tl < 4294967296
  tt_lt : i.tt < 4294967296 → r.tt < 4294967296
  tr_lt : i.tr < 4294967296 → r.tr < 4294967296
  tb_lt : i.tb < 4294967296 → r.tb < 4294967296
  clear : ∀ X Y, inSub i X Y → ¬ inSub r X Y → acode p X Y = 0
  rest : r.p = i.p ∧ r.filename = i.filename ∧ r.packed = i.packed

/-- A 3x3 page: top row transparent, an opaque pixel in the middle of the
second row, everything else transparent. -/
def trimPage : List (List Nat) :=
  [[0, 0, 0, 0, 0, 0, 0, 0, 0, 0, 0, 0],
   [0, 0, 0, 0, 9, 9, 9, 255, 0, 0, 0, 0],
   [0, 0, 0, 0, 0, 0, 0, 0, 0, 0, 0, 0]]

/-- A page one pixel wide and three high: an opaque pixel above two
transparent ones. -/
def columnPage : List (List Nat) :=
  [[9, 9, 9, 255], [0, 0, 0, 0], [0, 0, 0, 0]]

/-- The whole of `columnPage` as a sprite with bottom margin `2^32 - 2`, as an
`atLS` chunk of that page declares it: its extent `h + tt + tb` is
`2^32 + 1`. -/
def columnExample : Image :=
  { sprite 97 1 3 with tb := 4294967294 }

instance (i : Image) (X Y : Nat) : Decidable (inSub i X Y) := by
  unfold inSub; infer_instance

/-! ## Pixel compositing (`write_png`) and extraction (`read_png`) -/

/-- The call `memcpy(dst + off, src, n)` on byte rows: bytes `off .. off+n-1`
of `dst` are replaced by the first `n` bytes of `src`. -/
def memcpy_at (dst : List Nat) (off : Nat) (src : List Nat) (n : Nat) : List Nat :=
  (List.range dst.length).map
    (fun k => if off ≤ k ∧ k < off + n then src.getD (k - off) 0 else dst.getD k 0)

/-- The first `n` passes of the row loop of lines 270-271:
`memcpy(&p[i->y0+y][i->x0*4], i->p[y], 4 * i->w)` for `y = 0 .. n-1`.  The
row and byte offsets are `png_uint_32` expressions; the byte count is a
`size_t`. -/
def blit_rows (i : Image) : Nat → List (List Nat) → List (List Nat)
  | 0, pg => pg
  | n + 1, pg =>
    (blit_rows i n pg).set (add32 i.y0 n)
      (memcpy_at ((blit_rows i n pg).getD (add32 i.y0 n) []) (mul32 i.x0 4) (i.p.getD n []) (4 * i.w))

/-- The page buffer of `write_png` in pack mode (lines 264-271): `size` zeroed
rows of `4 * size` bytes, then the rows of every packed image copied in, in
list order. -/
def composite (st : State) : List (List Nat) :=
  st.images.foldl (fun pg i => if i.packed then blit_rows i i.h pg else pg)
    (List.replicate st.size (List.replicate (4 * st.size) 0))

/-- The copy of lines 206-210 of `read_png`: row `y` of the sprite is the
`4 * w` bytes of page row `y0 + y` from byte `x0 * 4` on. -/
def copy_sub (p : List (List Nat)) (i : Image) : List (List Nat) :=
  (List.range i.h).map (fun y =>
    (List.range (4 * i.w)).map (fun k => (p.getD (add32 i.y0 y) []).getD (mul32 i.x0 4 + k) 0))

/-- Byte `c` of row `r` of a page. -/
def byteAt (pg : List (List Nat)) (r c : Nat) : Nat :=
  (pg.getD r []).getD c 0

/-- The page has `R` rows of `C` bytes. -/
def Dims (pg : List (List Nat)) (R C : Nat) : Prop :=
  pg.length = R ∧ ∀ r, r < R → (pg.getD r []).length = C

/-- The owned pixel buffer of `i` has `h` rows of `4 * w` bytes. -/
def BufferOK (i : Image) : Prop :=
  i.p.length = i.h ∧ ∀ y, y < i.h → (i.p.getD y []).length = 4 * i.w

instance (i : Image) : Decidable (BufferOK i) := by
  unfold BufferOK; infer_instance

/-- Byte `c` of page row `r` belongs to the sprite rectangle of `i`. -/
def covers (i : Image) (r c : Nat) : Prop :=
  i.y0 ≤ r ∧ r < i.y0 + i.h ∧ 4 * i.x0 ≤ c ∧ c < 4 * i.x0 + 4 * i.w

/-- Two sprites with pixel data, 2x1 and 1x2, for a page of side 3 without
padding. -/
def pixelExample : State :=
  { padding := 0, size := 3,
    images := [{ sprite 1 2 1 with p := [[1, 2, 3, 4, 5, 6, 7, 8]] },
               { sprite 2 1 2 with p := [[11, 12, 13, 14], [15, 16, 17, 18]] }],
    min_w := 1, min_h := 1, free_rects := [] }

/-! ## Auto-size driver -/

/-- How the auto-size branch of `main` (lines 567-577) leaves its loop: with
every image packed (`done`, the state at the `break`), or through
`errx(1, "too big")`. -/
inductive AutoResult where
  | done (st : State)
  | too_big
deriving DecidableEq, Repr

/-- The walk of lines 570-572: `true` when no image is left unpacked. -/
def all_packed (l : List Image) : Bool :=
  l.all (fun i => i.packed)

/-- The loop of lines 568-576 from the current `size` on, with a bound on the
number of passes (`none` when the bound is reached). -/
def auto_loop : Nat → State → Option AutoResult
  | 0, _ => none
  | n + 1, st =>
    match pack st with
    | none => none
    | some st' =>
      if all_packed st'.images then some (AutoResult.done st')
      else if st'.size ≥ PNG_UINT_32_MAX / 2 then some AutoResult.too_big
      else auto_loop n { st' with size := mul32 st'.size 2 }

/-- The auto-size branch: the loop started at `size = 1`.  The sizes tried are
1, 2, 4, ... up to `2^31`, so 33 passes are never used up
(`auto_driver_outcome`). -/
def auto_driver (st : State) : Option AutoResult :=
  auto_loop 33 { st with size := 1 }

/-- One 1x1 sprite with padding `2^31` (option `-p 2147483648`), as loaded in
auto-size mode (the load-time check compares with `2^32 - 1 - padding`). -/
def autoExampleBig : State :=
  { padding := 2147483648, size := 4294967295, images := [sprite 1 1 1],
    min_w := 1, min_h := 1, free_rects := [] }

/-- Two sprites, 2x1 and 1x2, with padding 1, as loaded in auto-size mode. -/
def autoExample : State :=
  { padding := 1, size := 4294967295, images := [sprite 1 2 1, sprite 2 1 2],
    min_w := 1, min_h := 1, free_rects := [] }

/-! ## Candidate keys of the packer -/

/-- The comparison key of a (sprite, free rectangle) pair: short and long
leftover side, larger and smaller far coordinate, and whether `farX < farY`. -/
structure Key where
  ssf : Nat
  lsf : Nat
  far_max : Nat
  far_min : Nat
  tall : Bool
deriving DecidableEq, Repr

/-- Lexicographic order on keys, with `false` before `true` in the last
place. -/
def key_lt (a b : Key) : Prop :=
  a.ssf < b.ssf ∨ (a.ssf = b.ssf ∧
    (a.lsf < b.lsf ∨ (a.lsf = b.lsf ∧
      (a.far_max < b.far_max ∨ (a.far_max = b.far_max ∧
        (a.far_min < b.far_min ∨ (a.far_min = b.far_min ∧
          (a.tall = false ∧ b.tall = true))))))))

/-- The key of the pair (sprite `i`, rectangle `f`) in exact arithmetic, as
the specification words it: `farX = f.x0 + w + padding`,
`farY = f.y0 + h + padding`, `ssf`/`lsf` the smaller/larger of `f.x1 - farX`
and `f.y1 - farY`. -/
def pair_key (padding : Nat) (i : Image) (f : Rect) : Key :=
  { ssf := min (f.x1 - (f.x0 + i.w + padding)) (f.y1 - (f.y0 + i.h + padding))
    lsf := max (f.x1 - (f.x0 + i.w + padding)) (f.y1 - (f.y0 + i.h + padding))
    far_max := max (f.x0 + i.w + padding) (f.y0 + i.h + padding)
    far_min := min (f.x0 + i.w + padding) (f.y0 + i.h + padding)
    tall := decide (f.x0 + i.w + padding < f.y0 + i.h + padding) }

/-- The rectangle `f` is at least `(w + padding) x (h + padding)`, in exact
arithmetic. -/
def fits (padding : Nat) (i : Image) (f : Rect) : Prop :=
  f.x0 + i.w + padding ≤ f.x1 ∧ f.y0 + i.h + padding ≤ f.y1

/-- The size test of lines 468-469 passes for a `w` by `h` sprite and `f`. -/
def fits32 (padding w h : Nat) (f : Rect) : Prop :=
  ¬ (sub32 f.x1 f.x0 < add32 w padding ∨ sub32 f.y1 f.y0 < add32 h padding)

/-- The key lines 471-474 compute for a `w` by `h` sprite and `f`. -/
def cand_key (padding w h : Nat) (f : Rect) : Key :=
  { ssf := imin (sub32 f.x1 (add32 (add32 f.x0 w) padding))
             (sub32 f.y1 (add32 (add32 f.y0 h) padding))
    lsf := imax (sub32 f.x1 (add32 (add32 f.x0 w) padding))
             (sub32 f.y1 (add32 (add32 f.y0 h) padding))
    far_max := imax (add32 (add32 f.x0 w) padding) (add32 (add32 f.y0 h) padding)
    far_min := imin (add32 (add32 f.x0 w) padding) (add32 (add32 f.y0 h) padding)
    tall := decide (add32 (add32 f.x0 w) padding < add32 (add32 f.y0 h) padding) }

/-- The key held in `bssf`, `blsf`, `bx1`, `by1`. -/
def best_key (c : Best) : Key :=
  { ssf := c.bssf, lsf := c.blsf, far_max := imax c.bx1 c.by1, far_min := imin c.bx1 c.by1,
    tall := decide (c.bx1 < c.by1) }

/-- The best candidate is least among the keys `S` seen so far: no key seen
when there is no candidate, otherwise its key was seen and no key seen is
smaller. -/
def MinKey (best : Option Best) (S : Key → Prop) : Prop :=
  match best with
  | none => ∀ k, ¬ S k
  | some c => S (best_key c) ∧ ∀ k, S k → ¬ key_lt k (best_key c)

/-! ## Coverage of the page by the free rectangles -/

/-- The rectangle `g` lies within `f`: the test of lines 437-438. -/
def contained (g f : Rect) : Prop :=
  f.x0 ≤ g.x0 ∧ g.x1 ≤ f.x1 ∧ f.y0 ≤ g.y0 ∧ g.y1 ≤ f.y1

/-- The rectangle `r` and the padded box of `i` are side by side or one above
the other. -/
def apart (padding : Nat) (r : Rect) (i : Image) : Prop :=
  r.x1 ≤ i.x0 ∨ i.x0 + i.w + padding ≤ r.x0 ∨ r.y1 ≤ i.y0 ∨ i.y0 + i.h + padding ≤ r.y0

/-- The rectangle `r` could take a sprite: it is at least
`(min_w + padding) x (min_h + padding)`, lies in the page, and is apart from
the padded box of every packed sprite. -/
def Placeable (st : State) (r : Rect) : Prop :=
  r.x0 + (st.min_w + st.padding) ≤ r.x1 ∧ r.y0 + (st.min_h + st.padding) ≤ r.y1 ∧
  r.x1 ≤ st.size ∧ r.y1 ≤ st.size ∧
  ∀ j, (imageAt st.images j).packed = true → apart st.padding r (imageAt st.images j)

/-- Every placeable rectangle lies within a rectangle of the free list, and
the sums `min_w + padding`, `min_h + padding` do not wrap. -/
def Cover (st : State) : Prop :=
  st.min_w + st.padding < 4294967296 ∧ st.min_h + st.padding < 4294967296 ∧
  ∀ r, Placeable st r → ∃ f ∈ st.free_rects, contained r f

/-- No image that is not packed passes the size test of lines 468-469 with
any free rectangle: the condition under which the loop of `pack` leaves. -/
def NoFit (st : State) : Prop :=
  ∀ i ∈ st.images, i.packed = false → ∀ f ∈ st.free_rects, ¬ fits32 st.padding i.w i.h f

instance (padding : Nat) (i : Image) (x y : Nat) : Decidable (inBox padding i x y) := by
  unfold inBox; infer_instance

instance (f : Rect) (x y : Nat) : Decidable (inRect f x y) := by
  unfold inRect; infer_instance

/-! ## Shape of the free list -/

/-- No rectangle of the list lies within another one (two equal rectangles lie
within each other). -/
def Antichain (fr : List Rect) : Prop :=
  fr.Pairwise (fun f g => ¬ contained f g ∧ ¬ contained g f)

/-- Every free rectangle is at least `(min_w + padding) x (min_h + padding)`. -/
def Wide (st : State) : Prop :=
  ∀ f ∈ st.free_rects,
    f.x0 + (st.min_w + st.padding) ≤ f.x1 ∧ f.y0 + (st.min_h + st.padding) ≤ f.y1

/-- A free list in which the first rectangle lies within the second. -/
def nestedExample : List Rect :=
  [{ x0 := 0, y0 := 0, x1 := 1, y1 := 1 }, { x0 := 0, y0 := 0, x1 := 3, y1 := 3 }]

/-- Two rectangles of a page of side 4, neither within the other. -/
def crossExample : List Rect :=
  [{ x0 := 2, y0 := 0, x1 := 4, y1 := 4 }, { x0 := 0, y0 := 1, x1 := 4, y1 := 4 }]

/-- Two sprites, 2x1 and 1x2, for a page of side 8 with padding 1, with the
free list `crossExample` left by an earlier call.  `pack` places both sprites,
at (0,0) and (3,0), and leaves three free rectangles that overlap. -/
def pairExample : State :=
  { padding := 1, size := 8, images := [sprite 1 2 1, sprite 2 1 2],
    min_w := 1, min_h := 1, free_rects := crossExample }

/-- The candidate the first scan of `pack` finds in `pairExample`: the 2x1
sprite in the whole page. -/
def pairExampleBest : Best :=
  { b := 0, bssf := 5, blsf := 6, bx1 := 3, by1 := 2 }

/-- One 2x2 sprite loaded in auto-size mode, at the first pass (`size = 1`). -/
def smallPageExample : State :=
  { padding := 0, size := 1, images := [sprite 1 2 2], min_w := 2, min_h := 2,
    free_rects := [] }

instance (size : Nat) (f : Rect) : Decidable (RectOK size f) := by
  unfold RectOK; infer_instance

instance (g f : Rect) : Decidable (contained g f) := by
  unfold contained; infer_instance

/-- The states at the head of the `for (;;)` loop of `pack` when `pack` is
called in state `st0`: the state after lines 456-458, and the state after each
commit. -/
inductive PackReach (st0 : State) : State → Prop where
  | init : PackReach st0 (pack_init st0)
  | step (s : State) (c : Best) : PackReach st0 s →
      (scan_images s.padding s.free_rects 0 s.images none).2 = some c →
      PackReach st0 (commit s (scan_images s.padding s.free_rects 0 s.images none).1 c)

/-- The candidate the first scan of `pack` finds in `packExample`: the 2x1
sprite in the whole page. -/
def packExampleBest : Best :=
  { b := 0, bssf := 1, blsf := 2, bx1 := 3, by1 := 2 }

/-! ## Order of commits and order of metadata blocks -/

/-- The loop of `pack` instrumented with the order of its commits: the second
component lists the positions of the images in the order in which line 494
marked them packed.  The first component is the state `pack_loop` returns
(`pack_loop_order_fst`). -/
def pack_loop_order : Nat → State → Option (State × List Nat)
  | 0, _ => none
  | n + 1, st =>
    match (scan_images st.padding st.free_rects 0 st.images none).2 with
    | none =>
      some ({ st with images := (scan_images st.padding st.free_rects 0 st.images none).1 }, [])
    | some c =>
      (pack_loop_order n
        (commit st (scan_images st.padding st.free_rects 0 st.images none).1 c)).map
        (fun r => (r.1, c.b :: r.2))

/-- Source: `pack`, together with the order of its commits. -/
def pack_order (st : State) : Option (State × List Nat) :=
  pack_loop_order (st.images.length + 1) (pack_init st)

/-- The payloads of the `atLS` chunks `write_png` writes for a page, in the
order written (the loop of lines 268-292 over the image list). -/
def write_png_chunks : List Image → List (List Nat)
  | [] => []
  | i :: rest =>
    if i.packed then atls_payload i :: write_png_chunks rest else write_png_chunks rest

/-- A 1x1 sprite listed before a 4x3 sprite, for a page of side 4 without
padding. -/
def blockOrderExample : State :=
  { padding := 0, size := 4, images := [sprite 1 1 1, sprite 2 4 3],
    min_w := 1, min_h := 1, free_rects := [] }

/-- A 1x2 sprite with bottom margin `2^32 - 2`: its restored height
`h + tt + tb` is `2^32`. -/
def tallExample : Image :=
  { sprite 97 1 2 with tb := 4294967294, packed := true }

/-- The image lists `l1` and `l2` agree up to the origins of the images that
are not packed. -/
def SameImages (l1 l2 : List Image) : Prop :=
  l2.length = l1.length ∧ ∀ j, SameBut (imageAt l1 j) (imageAt l2 j) ∧
    ((imageAt l1 j).packed = true → imageAt l2 j = imageAt l1 j)

/-- The states `s` and `t` of the packer agree up to the origins of the images
that are not packed (origins the scan overwrites before it reads them). -/
def SameRun (s t : State) : Prop :=
  t.padding = s.padding ∧ t.size = s.size ∧ t.min_w = s.min_w ∧ t.min_h = s.min_h ∧
  t.free_rects = s.free_rects ∧ SameImages s.images t.images

/-! # Theorems -/

/-! ## Arithmetic lemmas -/

theorem imin_eq (a b : Nat) : imin a b = min a b := by
  unfold imin; split <;> omega

theorem imax_eq (a b : Nat) : imax a b = max a b := by
  unfold imax; split <;> omega

theorem add32_eq {a b : Nat} (h : a + b < 4294967296) : add32 a b = a + b := by
  unfold add32; exact Nat.mod_eq_of_lt h

theorem sub32_eq {a b : Nat} (hb : b ≤ a) (ha : a < 4294967296) : sub32 a b = a - b := by
  unfold sub32; omega

theorem add32_lt (a b : Nat) : add32 a b < 4294967296 := by
  unfold add32; omega

/-! ## Lemmas on list positions -/

@[simp] theorem imageAt_cons_zero (i : Image) (l : List Image) : imageAt (i :: l) 0 = i := rfl

@[simp] theorem imageAt_cons_succ (i : Image) (l : List Image) (j : Nat) :
    imageAt (i :: l) (j + 1) = imageAt l j := rfl

theorem imageAt_nil (j : Nat) : (imageAt [] j).packed = false := rfl

theorem imageAt_packed_lt {l : List Image} {j : Nat} (h : (imageAt l j).packed = true) :
    j < l.length := by
  induction l generalizing j with
  | nil => simp [imageAt] at h
  | cons i l ih =>
    cases j with
    | zero => simp
    | succ j => simp only [imageAt_cons_succ] at h; simpa using ih h

theorem imageAt_mem {l : List Image} {j : Nat} (h : j < l.length) : imageAt l j ∈ l := by
  induction l generalizing j with
  | nil => simp at h
  | cons i l ih =>
    cases j with
    | zero => simp
    | succ j =>
      simp only [imageAt_cons_succ]
      exact List.mem_cons_of_mem _ (ih (by simpa using h))

theorem set_packed_length (k : Nat) (l : List Image) : (set_packed k l).length = l.length := by
  induction l generalizing k with
  | nil => cases k <;> rfl
  | cons i l ih => cases k <;> simp [set_packed, ih]

theorem imageAt_set_packed_self {l : List Image} {k : Nat} (h : k < l.length) :
    imageAt (set_packed k l) k = { imageAt l k with packed := true } := by
  induction l generalizing k with
  | nil => simp at h
  | cons i l ih =>
    cases k with
    | zero => rfl
    | succ k => simp only [set_packed, imageAt_cons_succ]; exact ih (by simpa using h)

theorem imageAt_set_packed_ne {l : List Image} {k j : Nat} (h : j ≠ k) :
    imageAt (set_packed k l) j = imageAt l j := by
  induction l generalizing k j with
  | nil => cases k <;> rfl
  | cons i l ih =>
    cases k with
    | zero =>
      cases j with
      | zero => exact absurd rfl h
      | succ j => rfl
    | succ k =>
      cases j with
      | zero => rfl
      | succ j => simp only [set_packed, imageAt_cons_succ]; exact ih (by omega)

theorem unpacked_set_packed {l : List Image} {k : Nat} (h : k < l.length)
    (hp : (imageAt l k).packed = false) : unpacked (set_packed k l) + 1 = unpacked l := by
  induction l generalizing k with
  | nil => simp at h
  | cons i l ih =>
    cases k with
    | zero =>
      simp only [imageAt_cons_zero] at hp
      simp [set_packed, unpacked, List.filter_cons, hp]
    | succ k =>
      simp only [imageAt_cons_succ] at hp
      have := ih (by simpa using h) hp
      simp only [unpacked] at this
      simp only [set_packed, unpacked, List.filter_cons]
      split
      · simp only [List.length_cons]; omega
      · exact this

/-! ## Lemmas on `add_rect` and the rebuild of the free list -/

theorem add_rect_scan_mem {x0 y0 x1 y1 : Nat} {fr : List Rect} {g : Rect}
    (h : g ∈ (add_rect_scan x0 y0 x1 y1 fr).1) : g ∈ fr := by
  induction fr with
  | nil => simp [add_rect_scan] at h
  | cons f rest ih =>
    unfold add_rect_scan at h
    split at h
    · exact h
    · split at h
      · exact List.mem_cons_of_mem _ (ih h)
      · rcases List.mem_cons.1 h with h | h
        · exact h ▸ List.mem_cons_self _ _
        · exact List.mem_cons_of_mem _ (ih h)

theorem add_rect_mem {mw mh pad x0 y0 x1 y1 : Nat} {fr : List Rect} {g : Rect}
    (h : g ∈ add_rect mw mh pad fr x0 y0 x1 y1) :
    g ∈ fr ∨ (g = { x0 := x0, y0 := y0, x1 := x1, y1 := y1 } ∧ x0 ≤ x1 ∧ y0 ≤ y1) := by
  unfold add_rect at h
  split at h
  · exact Or.inl h
  · rename_i hc
    split at h
    · rcases List.mem_cons.1 h with h | h
      · exact Or.inr ⟨h, by omega, by omega⟩
      · exact Or.inl (add_rect_scan_mem h)
    · exact Or.inl (add_rect_scan_mem h)

theorem split_rects_mem {mw mh pad bx1 by1 bx0 by0 : Nat} {old acc : List Rect} {g : Rect}
    (h : g ∈ split_rects mw mh pad bx1 by1 bx0 by0 old acc) :
    g ∈ acc ∨ ∃ f ∈ old, Clip bx1 by1 bx0 by0 f g := by
  induction old generalizing acc with
  | nil => exact Or.inl h
  | cons f fs ih =>
    simp only [split_rects] at h
    rcases ih h with h4 | ⟨f', hf', hc⟩
    · rcases add_rect_mem h4 with h3 | ⟨e, hx, hy⟩
      · rcases add_rect_mem h3 with h2 | ⟨e, hx, hy⟩
        · rcases add_rect_mem h2 with h1 | ⟨e, hx, hy⟩
          · rcases add_rect_mem h1 with h0 | ⟨e, hx, hy⟩
            · exact Or.inl h0
            · exact Or.inr ⟨f, List.mem_cons_self _ _, by rw [e]; exact hx, by rw [e]; exact hy,
                Or.inl e⟩
          · exact Or.inr ⟨f, List.mem_cons_self _ _, by rw [e]; exact hx, by rw [e]; exact hy,
              Or.inr (Or.inl e)⟩
        · exact Or.inr ⟨f, List.mem_cons_self _ _, by rw [e]; exact hx, by rw [e]; exact hy,
            Or.inr (Or.inr (Or.inl e))⟩
      · exact Or.inr ⟨f, List.mem_cons_self _ _, by rw [e]; exact hx, by rw [e]; exact hy,
          Or.inr (Or.inr (Or.inr e))⟩
    · exact Or.inr ⟨f', List.mem_cons_of_mem _ hf', hc⟩

theorem Clip.rectOK {bx1 by1 bx0 by0 size : Nat} {f g : Rect}
    (h : Clip bx1 by1 bx0 by0 f g) (hf : RectOK size f) : RectOK size g := by
  obtain ⟨hx, hy, e | e | e | e⟩ := h <;> subst e <;>
    simp only [RectOK, imin_eq, imax_eq] at * <;> omega

theorem Clip.inside {bx1 by1 bx0 by0 : Nat} {f g : Rect}
    (h : Clip bx1 by1 bx0 by0 f g) {x y : Nat} (hg : inRect g x y) : inRect f x y := by
  obtain ⟨hx, hy, e | e | e | e⟩ := h <;> subst e <;>
    simp only [inRect, imin_eq, imax_eq] at * <;> omega

/-- A clip contains no point of the rectangle `[bx0, bx1) x [by0, by1)`. -/
theorem Clip.avoid {bx1 by1 bx0 by0 : Nat} {f g : Rect}
    (h : Clip bx1 by1 bx0 by0 f g) {x y : Nat} (hg : inRect g x y) :
    ¬ (bx0 ≤ x ∧ x < bx1 ∧ by0 ≤ y ∧ y < by1) := by
  obtain ⟨hx, hy, e | e | e | e⟩ := h <;> subst e <;>
    simp only [inRect, imin_eq, imax_eq] at * <;> omega

/-! ## Lemmas on the candidate scan -/

theorem SameBut.same_refl (i : Image) : SameBut i i := rfl

theorem scan_rects_spec (padding k : Nat) (fs : List Rect) (i : Image) (best : Option Best) :
    SameBut i (scan_rects padding k i best fs).1 ∧
    (((scan_rects padding k i best fs).2 = best ∧ (scan_rects padding k i best fs).1 = i) ∨
     ∃ c, (scan_rects padding k i best fs).2 = some c ∧ c.b = k ∧
       Good padding fs (scan_rects padding k i best fs).1 c) := by
  induction fs generalizing i best with
  | nil => exact ⟨rfl, Or.inl ⟨rfl, rfl⟩⟩
  | cons f fs ih =>
    unfold scan_rects
    split
    · obtain ⟨h1, h2⟩ := ih i best
      refine ⟨h1, ?_⟩
      rcases h2 with h2 | ⟨c, hc, hb, g, hg, hgood⟩
      · exact Or.inl h2
      · exact Or.inr ⟨c, hc, hb, g, List.mem_cons_of_mem _ hg, hgood⟩
    · rename_i hfit
      simp only []
      split
      · obtain ⟨h1, h2⟩ := ih { i with x0 := f.x0, y0 := f.y0 }
          (some { b := k, bssf := imin (sub32 f.x1 (add32 (add32 f.x0 i.w) padding))
                    (sub32 f.y1 (add32 (add32 f.y0 i.h) padding)),
                  blsf := imax (sub32 f.x1 (add32 (add32 f.x0 i.w) padding))
                    (sub32 f.y1 (add32 (add32 f.y0 i.h) padding)),
                  bx1 := add32 (add32 f.x0 i.w) padding, by1 := add32 (add32 f.y0 i.h) padding })
        refine ⟨?_, Or.inr ?_⟩
        · unfold SameBut at h1 ⊢
          rw [h1]
        · rcases h2 with ⟨h2, h3⟩ | ⟨c, hc, hb, g, hg, hgood⟩
          · refine ⟨_, h2, rfl, f, List.mem_cons_self _ _, ?_⟩
            rw [h3]
            exact ⟨hfit, rfl, rfl, rfl, rfl, rfl, rfl⟩
          · exact ⟨c, hc, hb, g, List.mem_cons_of_mem _ hg, hgood⟩
      · obtain ⟨h1, h2⟩ := ih i best
        refine ⟨h1, ?_⟩
        rcases h2 with h2 | ⟨c, hc, hb, g, hg, hgood⟩
        · exact Or.inl h2
        · exact Or.inr ⟨c, hc, hb, g, List.mem_cons_of_mem _ hg, hgood⟩

theorem scan_images_length (padding : Nat) (fr : List Rect) (k : Nat) (l : List Image)
    (best : Option Best) : (scan_images padding fr k l best).1.length = l.length := by
  induction l generalizing k best with
  | nil => rfl
  | cons i rest ih =>
    unfold scan_images
    split <;> simp [ih]

theorem scan_images_same (padding : Nat) (fr : List Rect) (k : Nat) (l : List Image)
    (best : Option Best) (j : Nat) :
    SameBut (imageAt l j) (imageAt (scan_images padding fr k l best).1 j) ∧
    ((imageAt l j).packed = true → imageAt (scan_images padding fr k l best).1 j = imageAt l j) := by
  induction l generalizing k best j with
  | nil => exact ⟨rfl, fun _ => rfl⟩
  | cons i rest ih =>
    unfold scan_images
    split
    · rename_i hp
      cases j with
      | zero => exact ⟨rfl, fun _ => rfl⟩
      | succ j => exact ih _ _ j
    · rename_i hp
      cases j with
      | zero =>
        refine ⟨(scan_rects_spec padding k fr i best).1, fun h => ?_⟩
        simp only [imageAt_cons_zero] at h
        exact absurd h hp
      | succ j => exact ih _ _ j

theorem scan_images_best (padding : Nat) (fr : List Rect) (k : Nat) (l : List Image)
    (best : Option Best) :
    (scan_images padding fr k l best).2 = best ∨
    ∃ c, (scan_images padding fr k l best).2 = some c ∧ k ≤ c.b ∧ c.b < k + l.length ∧
      (imageAt (scan_images padding fr k l best).1 (c.b - k)).packed = false ∧
      Good padding fr (imageAt (scan_images padding fr k l best).1 (c.b - k)) c := by
  induction l generalizing k best with
  | nil => exact Or.inl rfl
  | cons i rest ih =>
    unfold scan_images
    split
    · rename_i hp
      rcases ih (k + 1) best with h | ⟨c, hc, h1, h2, h3, h4⟩
      · exact Or.inl h
      · refine Or.inr ⟨c, hc, by omega, by simp only [List.length_cons]; omega, ?_⟩
        have e : c.b - k = (c.b - (k + 1)) + 1 := by omega
        rw [e]
        exact ⟨h3, h4⟩
    · rename_i hp
      rcases ih (k + 1) (scan_rects padding k i best fr).2 with h | ⟨c, hc, h1, h2, h3, h4⟩
      · rcases (scan_rects_spec padding k fr i best).2 with ⟨h5, _⟩ | ⟨c, hc, hb, hgood⟩
        · exact Or.inl (h.trans h5)
        · refine Or.inr ⟨c, h.trans hc, by omega, by simp only [List.length_cons]; omega, ?_⟩
          have e : c.b - k = 0 := by omega
          rw [e]
          simp only [imageAt_cons_zero]
          refine ⟨?_, hgood⟩
          have hs := (scan_rects_spec padding k fr i best).1
          unfold SameBut at hs
          rw [hs]
          simpa using hp
      · refine Or.inr ⟨c, hc, by omega, by simp only [List.length_cons]; omega, ?_⟩
        have e : c.b - k = (c.b - (k + 1)) + 1 := by omega
        rw [e]
        exact ⟨h3, h4⟩

theorem Placed.placed_refl (i : Image) : Placed i i := rfl

theorem SameBut.placed {i j : Image} (h : SameBut i j) : Placed i j := by
  unfold SameBut at h
  unfold Placed
  rw [h]

theorem Placed.placed_trans {i j k : Image} (h1 : Placed i j) (h2 : Placed j k) : Placed i k := by
  unfold Placed at *
  rw [h2, h1]

theorem SameBut.same_w {i j : Image} (h : SameBut i j) : j.w = i.w := by
  unfold SameBut at h; rw [h]

theorem SameBut.same_h {i j : Image} (h : SameBut i j) : j.h = i.h := by
  unfold SameBut at h; rw [h]

theorem SameBut.same_packed {i j : Image} (h : SameBut i j) : j.packed = i.packed := by
  unfold SameBut at h; rw [h]

/-- The candidate scan keeps the invariant: it only rewrites the origin of
images that are not packed. -/
theorem packInv_scan {st : State} (hinv : PackInv st) :
    PackInv { st with images := (scan_images st.padding st.free_rects 0 st.images none).1 } := by
  have hs := scan_images_same st.padding st.free_rects 0 st.images none
  have hl := scan_images_length st.padding st.free_rects 0 st.images none
  have hp : ∀ j, (imageAt (scan_images st.padding st.free_rects 0 st.images none).1 j).packed
      = true → imageAt (scan_images st.padding st.free_rects 0 st.images none).1 j
        = imageAt st.images j := by
    intro j hj
    exact (hs j).2 (by rw [← (hs j).1.same_packed]; exact hj)
  constructor
  · exact hinv.size_lt
  · intro j hj
    simp only [hl] at hj
    simp only [(hs j).1.same_w, (hs j).1.same_h]
    exact hinv.no_wrap j hj
  · exact hinv.free_ok
  · intro j hj
    simp only [hp j hj] at hj ⊢
    exact hinv.box_in j hj
  · intro j hj
    simp only [hp j hj] at hj ⊢
    exact hinv.box_free j hj
  · intro j l hne hj hl'
    simp only [hp j hj, hp l hl'] at hj hl' ⊢
    exact hinv.box_box j l hne hj hl'

/-- Committing a candidate found by the scan keeps the invariant. -/
theorem packInv_commit {st : State} (hinv : PackInv st) {c : Best}
    (hb : c.b < st.images.length)
    (hgood : Good st.padding st.free_rects (imageAt st.images c.b) c) :
    PackInv (commit st st.images c) := by
  obtain ⟨f, hf, hfit, hx0, hy0, hbx1, hby1, -, -⟩ := hgood
  obtain ⟨hfx, hfy, hfx1, hfy1⟩ := hinv.free_ok f hf
  have hsz := hinv.size_lt
  obtain ⟨hw, hh⟩ := hinv.no_wrap c.b hb
  rw [add32_eq hw, add32_eq hh, sub32_eq hfx (by omega), sub32_eq hfy (by omega)] at hfit
  have hbx : c.bx1 = f.x0 + (imageAt st.images c.b).w + st.padding := by
    have e : add32 f.x0 (imageAt st.images c.b).w = f.x0 + (imageAt st.images c.b).w :=
      add32_eq (by omega)
    rw [hbx1, e, add32_eq (by omega)]
  have hby : c.by1 = f.y0 + (imageAt st.images c.b).h + st.padding := by
    have e : add32 f.y0 (imageAt st.images c.b).h = f.y0 + (imageAt st.images c.b).h :=
      add32_eq (by omega)
    rw [hby1, e, add32_eq (by omega)]
  have hat : ∀ j, j ≠ c.b → imageAt (set_packed c.b st.images) j = imageAt st.images j :=
    fun j hj => imageAt_set_packed_ne hj
  have hself := imageAt_set_packed_self hb
  have hclip : ∀ g ∈ (commit st st.images c).free_rects,
      ∃ f' ∈ st.free_rects, Clip c.bx1 c.by1 (imageAt st.images c.b).x0
        (imageAt st.images c.b).y0 f' g := by
    intro g hg
    rcases split_rects_mem hg with h | h
    · simp at h
    · exact h
  have hboxB : ∀ x y, inBox st.padding (imageAt st.images c.b) x y → inRect f x y := by
    intro x y hxy
    simp only [inBox, inRect] at *
    omega
  constructor
  · exact hsz
  · intro j hj
    simp only [commit, set_packed_length] at hj
    by_cases e : j = c.b
    · subst e
      simp only [commit, hself]
      exact ⟨hw, hh⟩
    · simp only [commit, hat j e]
      exact hinv.no_wrap j hj
  · intro g hg
    obtain ⟨f', hf', hc⟩ := hclip g hg
    exact hc.rectOK (hinv.free_ok f' hf')
  · intro j hj
    by_cases e : j = c.b
    · subst e
      simp only [commit, hself]
      constructor <;> omega
    · simp only [commit, hat j e] at hj ⊢
      exact hinv.box_in j hj
  · intro j hj g hg x y hxy hgxy
    obtain ⟨f', hf', hc⟩ := hclip g hg
    by_cases e : j = c.b
    · subst e
      simp only [commit, hself] at hxy
      apply hc.avoid hgxy
      simp only [inBox] at hxy
      omega
    · simp only [commit, hat j e] at hj hxy
      exact hinv.box_free j hj f' hf' x y hxy (hc.inside hgxy)
  · intro j l hne hj hl x y hjxy hlxy
    by_cases e : j = c.b
    · subst e
      have e' : l ≠ c.b := fun h => hne h.symm
      simp only [commit, hself] at hjxy
      simp only [commit, hat l e'] at hl hlxy
      exact hinv.box_free l hl f hf x y hlxy (hboxB x y hjxy)
    · simp only [commit, hat j e] at hj hjxy
      by_cases e' : l = c.b
      · subst e'
        simp only [commit, hself] at hlxy
        exact hinv.box_free j hj f hf x y hjxy (hboxB x y hlxy)
      · simp only [commit, hat l e'] at hl hlxy
        exact hinv.box_box j l hne hj hl x y hjxy hlxy

/-! ## The loop of `pack` -/

theorem scan_images_unpacked (padding : Nat) (fr : List Rect) (k : Nat) (l : List Image)
    (best : Option Best) : unpacked (scan_images padding fr k l best).1 = unpacked l := by
  induction l generalizing k best with
  | nil => rfl
  | cons i rest ih =>
    unfold scan_images
    split
    · rename_i hp
      simp only [unpacked, List.filter_cons, List.cons_eq_cons] at ih ⊢
      simp only [hp, Bool.not_true, Bool.false_eq_true, ↓reduceIte]
      exact ih _ _
    · rename_i hp
      have hq : (scan_rects padding k i best fr).1.packed = false := by
        rw [(scan_rects_spec padding k fr i best).1.same_packed]; simpa using hp
      have hp' : i.packed = false := by simpa using hp
      simp only [unpacked, List.filter_cons] at ih ⊢
      simp only [hq, hp', Bool.not_false, ↓reduceIte, List.length_cons, ih]

theorem placed_set_packed (k : Nat) (l : List Image) (j : Nat) :
    Placed (imageAt l j) (imageAt (set_packed k l) j) := by
  induction l generalizing k j with
  | nil => cases k <;> exact Placed.placed_refl _
  | cons i rest ih =>
    cases k with
    | zero =>
      cases j with
      | zero => rfl
      | succ j => exact Placed.placed_refl _
    | succ k =>
      cases j with
      | zero => exact Placed.placed_refl _
      | succ j => exact ih k j

theorem unpacked_le (l : List Image) : unpacked l ≤ l.length :=
  List.length_filter_le _ _

/-- The loop of `pack` leaves within `unpacked + 1` passes, keeps the
invariant, and changes nothing but origins and packed flags. -/
theorem pack_loop_spec (n : Nat) (st : State) (hinv : PackInv st)
    (hn : unpacked st.images < n) :
    ∃ st', pack_loop n st = some st' ∧ PackInv st' ∧ st'.padding = st.padding ∧
      st'.size = st.size ∧ st'.images.length = st.images.length ∧
      ∀ j, Placed (imageAt st.images j) (imageAt st'.images j) := by
  induction n generalizing st with
  | zero => omega
  | succ n ih =>
    unfold pack_loop
    have hs := scan_images_same st.padding st.free_rects 0 st.images none
    have hl := scan_images_length st.padding st.free_rects 0 st.images none
    have hu := scan_images_unpacked st.padding st.free_rects 0 st.images none
    have hinv1 := packInv_scan hinv
    cases hc : (scan_images st.padding st.free_rects 0 st.images none).2 with
    | none =>
      exact ⟨_, rfl, hinv1, rfl, rfl, hl, fun j => (hs j).1.placed⟩
    | some c =>
      rcases scan_images_best st.padding st.free_rects 0 st.images none with h | h
      · rw [hc] at h; cases h
      · obtain ⟨c', hc', -, hb, hun, hgood⟩ := h
        rw [hc] at hc'
        cases hc'
        have hb' : c.b < (scan_images st.padding st.free_rects 0 st.images none).1.length := by
          omega
        have hun' : (imageAt (scan_images st.padding st.free_rects 0 st.images none).1
            c.b).packed = false := hun
        have hinv2 : PackInv (commit st
            (scan_images st.padding st.free_rects 0 st.images none).1 c) :=
          packInv_commit hinv1 hb' hgood
        have hcount : unpacked (set_packed c.b
            (scan_images st.padding st.free_rects 0 st.images none).1) + 1
            = unpacked (scan_images st.padding st.free_rects 0 st.images none).1 :=
          unpacked_set_packed hb' hun'
        obtain ⟨st', h1, h2, h3, h4, h5, h6⟩ := ih _ hinv2 (by
          show unpacked (set_packed c.b
            (scan_images st.padding st.free_rects 0 st.images none).1) < n
          omega)
        refine ⟨st', h1, h2, h3, h4, ?_, fun j => ?_⟩
        · rw [h5]
          show (set_packed c.b _).length = _
          rw [set_packed_length, hl]
        · exact ((hs j).1.placed.placed_trans (placed_set_packed c.b _ j)).placed_trans (h6 j)

theorem imageAt_pack_init (l : List Image) (j : Nat) :
    imageAt (l.map (fun i => { i with packed := false })) j
      = { imageAt l j with packed := false } := by
  induction l generalizing j with
  | nil => rfl
  | cons i rest ih =>
    cases j with
    | zero => rfl
    | succ j => exact ih j

/-- The state after lines 456-458 satisfies the invariant when the free list
left by earlier calls is well formed within the page and no sum of a sprite
side and the padding wraps. -/
theorem packInv_init {st : State} (hsize : st.size < 4294967296) (hfree : FreeOK st)
    (hw : ∀ i ∈ st.images, i.w + st.padding < 4294967296 ∧ i.h + st.padding < 4294967296) :
    PackInv (pack_init st) := by
  have hpk : ∀ j, (imageAt (pack_init st).images j).packed = false := by
    intro j
    simp only [pack_init, imageAt_pack_init]
  constructor
  · exact hsize
  · intro j hj
    simp only [pack_init, List.length_map] at hj
    simp only [pack_init, imageAt_pack_init]
    exact hw _ (imageAt_mem hj)
  · intro f hf
    rcases add_rect_mem hf with h | ⟨e, -, -⟩
    · exact hfree f h
    · subst e
      simp only [RectOK]
      refine ⟨Nat.zero_le _, Nat.zero_le _, ?_, ?_⟩ <;> exact Nat.le_refl _
  · intro j hj; rw [hpk j] at hj; cases hj
  · intro j hj; rw [hpk j] at hj; cases hj
  · intro j l _ hj; rw [hpk j] at hj; cases hj

/-- Source: `pack` returns, with the invariant established, for every state
the invariant's preconditions hold of. -/
theorem pack_spec (st : State) (hsize : st.size < 4294967296) (hfree : FreeOK st)
    (hw : ∀ i ∈ st.images, i.w + st.padding < 4294967296 ∧ i.h + st.padding < 4294967296) :
    ∃ st', pack st = some st' ∧ PackInv st' ∧ st'.padding = st.padding ∧
      st'.size = st.size ∧ st'.images.length = st.images.length ∧
      ∀ j, Placed (imageAt st.images j) (imageAt st'.images j) := by
  obtain ⟨st', h1, h2, h3, h4, h5, h6⟩ := pack_loop_spec (st.images.length + 1) (pack_init st)
    (packInv_init hsize hfree hw) (by
      have := unpacked_le (pack_init st).images
      simp only [pack_init, List.length_map] at this ⊢
      omega)
  refine ⟨st', h1, h2, h3, h4, ?_, fun j => ?_⟩
  · rw [h5]; simp only [pack_init, List.length_map]
  · have h := h6 j
    simp only [pack_init, imageAt_pack_init] at h
    unfold Placed at h ⊢
    rw [h]

/-! ## Placement invariants of `pack` -/

/-- C1: after `pack` returns, for every page size, padding below the size and
image list whose sprites are between 1 and `size - padding` wide and high,
the padded boxes of two distinct sprites marked packed share no point.  (The
free list left by earlier calls is well formed within the page; the sprites
keep their sizes, only origins and packed flags change.) -/
theorem pack_padded_boxes_disjoint (st : State)
    (hpad : st.padding < st.size) (hsize : st.size ≤ PNG_UINT_32_MAX) (hfree : FreeOK st)
    (hsp : ∀ i ∈ st.images, 1 ≤ i.w ∧ i.w ≤ st.size - st.padding ∧
      1 ≤ i.h ∧ i.h ≤ st.size - st.padding) :
    ∃ st', pack st = some st' ∧ st'.images.length = st.images.length ∧
      (∀ j, Placed (imageAt st.images j) (imageAt st'.images j)) ∧
      ∀ j l, j ≠ l → (imageAt st'.images j).packed = true →
        (imageAt st'.images l).packed = true →
        ∀ x y, ¬ (inBox st.padding (imageAt st'.images j) x y ∧
                  inBox st.padding (imageAt st'.images l) x y) := by
  have hs : st.size < 4294967296 := by unfold PNG_UINT_32_MAX at hsize; omega
  obtain ⟨st', h1, h2, h3, -, h5, h6⟩ := pack_spec st hs hfree (fun i hi => by
    have := hsp i hi
    omega)
  refine ⟨st', h1, h5, h6, fun j l hne hj hl x y hxy => ?_⟩
  rw [← h3] at hxy
  exact h2.box_box j l hne hj hl x y hxy.1 hxy.2

theorem pack_padded_boxes_disjoint_witness :
    (∃ st', pack pairExample = some st' ∧
      (imageAt st'.images 0).packed = true ∧ (imageAt st'.images 1).packed = true ∧
      (imageAt st'.images 0).x0 = 0 ∧ (imageAt st'.images 0).y0 = 0 ∧
      (imageAt st'.images 1).x0 = 3 ∧ (imageAt st'.images 1).y0 = 0) ∧
    pairExample.padding < pairExample.size ∧
    ∃ st', pack pairExample = some st' ∧ st'.images.length = pairExample.images.length ∧
      (∀ j, Placed (imageAt pairExample.images j) (imageAt st'.images j)) ∧
      ∀ j l, j ≠ l → (imageAt st'.images j).packed = true →
        (imageAt st'.images l).packed = true →
        ∀ x y, ¬ (inBox pairExample.padding (imageAt st'.images j) x y ∧
                  inBox pairExample.padding (imageAt st'.images l) x y) :=
  ⟨⟨_, rfl, by decide⟩, by decide,
    pack_padded_boxes_disjoint pairExample (by decide) (by decide)
      (by unfold FreeOK; decide) (by decide)⟩

/-- The bound on `w + padding` is what `pack` relies on: called on its own with
a sprite of width `2^32 - 1` and height 1, padding 1 and size 2 (a sprite
`read_png` rejects at lines 190-191 and 200, so no run of the program holds
it), `pack` would mark the sprite packed at the origin, where
`x0 + w + padding` is `2^32`. -/
theorem pack_needs_size_check :
    wrapExample.padding < wrapExample.size ∧
    ∃ st', pack wrapExample = some st' ∧
      (imageAt st'.images 0).packed = true ∧
      ¬ ((imageAt st'.images 0).x0 + (imageAt st'.images 0).w + st'.padding ≤ st'.size) :=
  ⟨by decide, _, rfl, by decide⟩

/-- C2: after `pack` returns, every sprite marked packed satisfies
`x0 + w + padding ≤ size` and `y0 + h + padding ≤ size` in exact arithmetic,
for every padding below the size and every image list the program can hold:
no `w + padding` or `h + padding` exceeds `2^32 - 1`, which the checks of
`read_png` (lines 190-191 and 200) ensure of every sprite before `pack` is
reached. -/
theorem pack_box_in_page (st : State)
    (hpad : st.padding < st.size) (hsize : st.size ≤ PNG_UINT_32_MAX) (hfree : FreeOK st)
    (hsp : ∀ i ∈ st.images, i.w + st.padding ≤ PNG_UINT_32_MAX ∧
      i.h + st.padding ≤ PNG_UINT_32_MAX) :
    ∃ st', pack st = some st' ∧ st'.images.length = st.images.length ∧
      (∀ j, Placed (imageAt st.images j) (imageAt st'.images j)) ∧
      ∀ j, (imageAt st'.images j).packed = true →
        (imageAt st'.images j).x0 + (imageAt st'.images j).w + st.padding ≤ st.size ∧
        (imageAt st'.images j).y0 + (imageAt st'.images j).h + st.padding ≤ st.size := by
  have hs : st.size < 4294967296 := by unfold PNG_UINT_32_MAX at hsize; omega
  have _ := hpad
  obtain ⟨st', h1, h2, h3, h4, h5, h6⟩ := pack_spec st hs hfree (fun i hi => by
    have := hsp i hi
    unfold PNG_UINT_32_MAX at this
    omega)
  refine ⟨st', h1, h5, h6, fun j hj => ?_⟩
  rw [← h3, ← h4]
  exact h2.box_in j hj

theorem pack_box_in_page_witness :
    (∃ st', pack packExample = some st' ∧ (imageAt st'.images 0).packed = true ∧
      (imageAt st'.images 0).x0 + (imageAt st'.images 0).w + packExample.padding = 3) ∧
    packExample.padding < packExample.size ∧
    ∃ st', pack packExample = some st' ∧ st'.images.length = packExample.images.length ∧
      (∀ j, Placed (imageAt packExample.images j) (imageAt st'.images j)) ∧
      ∀ j, (imageAt st'.images j).packed = true →
        (imageAt st'.images j).x0 + (imageAt st'.images j).w + packExample.padding
          ≤ packExample.size ∧
        (imageAt st'.images j).y0 + (imageAt st'.images j).h + packExample.padding
          ≤ packExample.size :=
  ⟨⟨_, rfl, by decide⟩, by decide, pack_box_in_page packExample (by decide) (by decide)
    (fun f hf => by simp [packExample] at hf) (by decide)⟩

/-! ## Order of the image list, and the fixed-size example -/

/-- C3 fails on the code: the image lists of `orderExampleA` and
`orderExampleB` are permutations of each other (sprites 6x2, 5x5, 1x4, 2x2,
page side 7, padding 0), yet `pack` places the 1x4 sprite at (6,0) and the 2x2
sprite at (5,4) for the first order, and for the second places the 2x2 sprite
at (5,2) and leaves the 1x4 sprite unpacked. -/
theorem pack_depends_on_order :
    orderExampleA.images.Perm orderExampleB.images ∧
    (pack orderExampleA).map placements
      = some [([1], true, 0, 0), ([2], true, 0, 2), ([3], true, 6, 0), ([4], true, 5, 4)] ∧
    (pack orderExampleB).map placements
      = some [([1], true, 0, 0), ([2], true, 0, 2), ([4], true, 5, 2), ([3], false, 0, 0)] := by
  refine ⟨?_, by decide, by decide⟩
  exact (List.Perm.swap _ _ _).cons _ |>.cons _

/-- C4 as stated fails: on sprites 10x10, 10x10, 15x15 with page side 20 and
padding 0 the fixed-size driver writes two pages, and the first page is not
the one holding the two 10x10 sprites. -/
theorem fixed_example_counterexample :
    ∃ p1 p2, fixed_driver fixedExample = some [p1, p2] ∧
      ¬ (p1.map (fun i => (i.w, i.h)) = [(10, 10), (10, 10)] ∧
         p2.map (fun i => (i.w, i.h)) = [(15, 15)]) :=
  ⟨_, _, rfl, by decide⟩

/-- C4, amended: on sprites 10x10, 10x10, 15x15 with page side 20 and padding
0 the fixed-size driver writes two pages; the first holds exactly the 15x15
sprite (at the origin), the second exactly the two 10x10 sprites (at (0,0) and
(10,0)). -/
theorem fixed_example_pages :
    fixed_driver fixedExample = some
      [[{ sprite 3 15 15 with packed := true, x0 := 0, y0 := 0 }],
       [{ sprite 1 10 10 with packed := true, x0 := 0, y0 := 0 },
        { sprite 2 10 10 with packed := true, x0 := 10, y0 := 0 }]] := by
  decide

/-! ## The metadata codec -/

theorem memchr_none {data : List Nat} {c : Nat} (h : c ∉ data) : memchr data c = none := by
  induction data with
  | nil => rfl
  | cons b rest ih =>
    simp only [List.mem_cons, not_or] at h
    simp only [memchr, if_neg (Ne.symm h.1), ih h.2, Option.map_none']

theorem memchr_append {pre post : List Nat} {c : Nat} (h : c ∉ pre) :
    memchr (pre ++ c :: post) c = some pre.length := by
  induction pre with
  | nil => simp [memchr]
  | cons b rest ih =>
    simp only [List.mem_cons, not_or] at h
    have e : memchr (rest ++ c :: post) c = some rest.length := ih h.2
    show memchr (b :: (rest ++ c :: post)) c = some (rest.length + 1)
    simp only [memchr, if_neg (Ne.symm h.1), e, Option.map_some']

/-- C6 fails on the code: the sprite `marginExample` (identifier "a", w = 3,
h = 2, top margin `2^32 - 3`, other margins 0) has a NUL-free identifier,
32-bit fields and a restored size within 32 bits, and its payload has 32
bytes after the NUL, yet `read_chunk_callback` returns -1 on the payload
`write_png` encodes for it and adds no sprite. -/
theorem atls_payload_rejected :
    0 ∉ marginExample.filename ∧
    marginExample.w + marginExample.tl + marginExample.tr ≤ PNG_UINT_32_MAX ∧
    marginExample.h + marginExample.tt + marginExample.tb ≤ PNG_UINT_32_MAX ∧
    (atls_payload marginExample).length = marginExample.filename.length + 1 + 32 ∧
    read_chunk_callback [] atLS (atls_payload marginExample) = (-1, []) := by
  decide

/-- C7: `read_chunk_callback` returns -1 and leaves the image list as it was
for every `atLS` payload without a NUL byte, and for every `atLS` payload in
which the number of bytes after the first NUL is neither 16 nor 32. -/
theorem read_chunk_callback_rejects (images : List Image) (data : List Nat)
    (h : 0 ∉ data ∨ ∃ pre post, data = pre ++ 0 :: post ∧ 0 ∉ pre ∧
      post.length ≠ 16 ∧ post.length ≠ 32) :
    read_chunk_callback images atLS data = (-1, images) := by
  unfold read_chunk_callback
  rw [if_neg (by decide)]
  rcases h with h | ⟨pre, post, e, hpre, h16, h32⟩
  · rw [memchr_none h]
  · subst e
    rw [memchr_append hpre]
    have hl : (pre ++ 0 :: post).length - (pre.length + 1) = post.length := by
      simp only [List.length_append, List.length_cons]; omega
    simp only [hl]
    by_cases ht : post.length > 4 * 4
    · simp only [ht, decide_True, if_true]
      rw [if_pos (by omega)]
    · simp only [ht, decide_False]
      rw [if_pos (by simp only [Bool.false_eq_true, if_false]; omega)]

theorem read_chunk_callback_rejects_witness :
    read_chunk_callback [] atLS [97, 0, 1, 2, 3] = (-1, []) :=
  read_chunk_callback_rejects [] [97, 0, 1, 2, 3]
    (Or.inr ⟨[97], [1, 2, 3], rfl, by decide, by decide, by decide⟩)

theorem getD_append_add (a l : List Nat) (m : Nat) :
    (a ++ l).getD (a.length + m) 0 = l.getD m 0 := by
  induction a with
  | nil => simp
  | cons x a ih =>
    have e : (x :: a).length + m = (a.length + m) + 1 := by simp only [List.length_cons]; omega
    rw [e]
    exact ih

/-- The four bytes `png_save_uint_32` writes are read back by
`png_get_uint_32` as the same 32-bit value. -/
theorem png_get_save (v : Nat) (hv : v < 4294967296) (a b : List Nat) (n : Nat)
    (hn : n = a.length) :
    png_get_uint_32 (a ++ (png_save_uint_32 v ++ b)) n = v := by
  subst hn
  unfold png_get_uint_32
  have h0 := getD_append_add a (png_save_uint_32 v ++ b) 0
  rw [Nat.add_zero] at h0
  rw [h0, getD_append_add, getD_append_add, getD_append_add]
  simp only [png_save_uint_32, List.cons_append, List.getD_cons_zero, List.getD_cons_succ]
  omega

/-- The payload `write_png` encodes has 16 bytes after the identifier's NUL
when all margins are zero and 32 bytes otherwise. -/
theorem atls_payload_length (i : Image) :
    (atls_payload i).length = i.filename.length + 1 +
      (if i.tl = 0 ∧ i.tt = 0 ∧ i.tr = 0 ∧ i.tb = 0 then 16 else 32) := by
  unfold atls_payload
  by_cases h : i.tl = 0 ∧ i.tt = 0 ∧ i.tr = 0 ∧ i.tb = 0
  · rw [if_pos h, if_neg (by omega)]
    simp [png_save_uint_32]
  · rw [if_neg h, if_pos (by omega)]
    simp [png_save_uint_32]

theorem atls_payload_memchr (i : Image) (hfn : 0 ∉ i.filename) :
    memchr (atls_payload i) 0 = some i.filename.length ∧
    (atls_payload i).take i.filename.length = i.filename := by
  have e : ∀ t1 t2 : List Nat, i.filename ++ [0] ++ t1 ++ t2 = i.filename ++ 0 :: (t1 ++ t2) := by
    intro t1 t2; simp only [List.append_assoc, List.singleton_append, List.cons_append, List.nil_append]
  unfold atls_payload
  rw [e]
  exact ⟨memchr_append hfn, by simp⟩

/-- The first four words of the payload are `x0`, `y0`, `w`, `h`. -/
theorem atls_payload_head (i : Image)
    (hx0 : i.x0 < 4294967296) (hy0 : i.y0 < 4294967296)
    (hw : i.w < 4294967296) (hh : i.h < 4294967296) :
    png_get_uint_32 (atls_payload i) (i.filename.length + 1 + 4 * 0) = i.x0 ∧
    png_get_uint_32 (atls_payload i) (i.filename.length + 1 + 4 * 1) = i.y0 ∧
    png_get_uint_32 (atls_payload i) (i.filename.length + 1 + 4 * 2) = i.w ∧
    png_get_uint_32 (atls_payload i) (i.filename.length + 1 + 4 * 3) = i.h := by
  unfold atls_payload
  generalize (if i.tl ≠ 0 ∨ i.tt ≠ 0 ∨ i.tr ≠ 0 ∨ i.tb ≠ 0 then
       png_save_uint_32 i.tl ++ png_save_uint_32 i.tt ++
       png_save_uint_32 i.tr ++ png_save_uint_32 i.tb
     else []) = t
  have hsl : ∀ v : Nat, (png_save_uint_32 v).length = 4 := fun v => rfl
  refine ⟨?_, ?_, ?_, ?_⟩
  · have e : i.filename ++ [0] ++ (png_save_uint_32 i.x0 ++ png_save_uint_32 i.y0 ++
        png_save_uint_32 i.w ++ png_save_uint_32 i.h) ++ t
        = (i.filename ++ [0]) ++ (png_save_uint_32 i.x0 ++ (png_save_uint_32 i.y0 ++
          png_save_uint_32 i.w ++ png_save_uint_32 i.h ++ t)) := by
      simp only [List.append_assoc]
    rw [e]
    exact png_get_save _ hx0 _ _ _ (by simp)
  · have e : i.filename ++ [0] ++ (png_save_uint_32 i.x0 ++ png_save_uint_32 i.y0 ++
        png_save_uint_32 i.w ++ png_save_uint_32 i.h) ++ t
        = (i.filename ++ [0] ++ png_save_uint_32 i.x0) ++ (png_save_uint_32 i.y0 ++
          (png_save_uint_32 i.w ++ png_save_uint_32 i.h ++ t)) := by
      simp only [List.append_assoc]
    rw [e]
    exact png_get_save _ hy0 _ _ _ (by simp [hsl])
  · have e : i.filename ++ [0] ++ (png_save_uint_32 i.x0 ++ png_save_uint_32 i.y0 ++
        png_save_uint_32 i.w ++ png_save_uint_32 i.h) ++ t
        = (i.filename ++ [0] ++ png_save_uint_32 i.x0 ++ png_save_uint_32 i.y0) ++
          (png_save_uint_32 i.w ++ (png_save_uint_32 i.h ++ t)) := by
      simp only [List.append_assoc]
    rw [e]
    exact png_get_save _ hw _ _ _ (by simp [hsl])
  · have e : i.filename ++ [0] ++ (png_save_uint_32 i.x0 ++ png_save_uint_32 i.y0 ++
        png_save_uint_32 i.w ++ png_save_uint_32 i.h) ++ t
        = (i.filename ++ [0] ++ png_save_uint_32 i.x0 ++ png_save_uint_32 i.y0 ++
          png_save_uint_32 i.w) ++ (png_save_uint_32 i.h ++ t) := by
      simp only [List.append_assoc]
    rw [e]
    exact png_get_save _ hh _ _ _ (by simp [hsl])

/-- When a margin is not zero the next four words are `tl`, `tt`, `tr`, `tb`. -/
theorem atls_payload_tail (i : Image) (ht : i.tl ≠ 0 ∨ i.tt ≠ 0 ∨ i.tr ≠ 0 ∨ i.tb ≠ 0)
    (htl : i.tl < 4294967296) (htt : i.tt < 4294967296)
    (htr : i.tr < 4294967296) (htb : i.tb < 4294967296) :
    png_get_uint_32 (atls_payload i) (i.filename.length + 1 + 4 * 4) = i.tl ∧
    png_get_uint_32 (atls_payload i) (i.filename.length + 1 + 4 * 5) = i.tt ∧
    png_get_uint_32 (atls_payload i) (i.filename.length + 1 + 4 * 6) = i.tr ∧
    png_get_uint_32 (atls_payload i) (i.filename.length + 1 + 4 * 7) = i.tb := by
  unfold atls_payload
  rw [if_pos ht]
  have hsl : ∀ v : Nat, (png_save_uint_32 v).length = 4 := fun v => rfl
  have ha : (i.filename ++ [0] ++ (png_save_uint_32 i.x0 ++ png_save_uint_32 i.y0 ++
      png_save_uint_32 i.w ++ png_save_uint_32 i.h)).length = i.filename.length + 1 + 16 := by
    simp [hsl]
  generalize i.filename ++ [0] ++ (png_save_uint_32 i.x0 ++ png_save_uint_32 i.y0 ++
    png_save_uint_32 i.w ++ png_save_uint_32 i.h) = a at ha
  refine ⟨?_, ?_, ?_, ?_⟩
  · have e : a ++ (png_save_uint_32 i.tl ++ png_save_uint_32 i.tt ++
        png_save_uint_32 i.tr ++ png_save_uint_32 i.tb)
        = a ++ (png_save_uint_32 i.tl ++ (png_save_uint_32 i.tt ++
          png_save_uint_32 i.tr ++ png_save_uint_32 i.tb)) := by
      simp only [List.append_assoc]
    rw [e]
    exact png_get_save _ htl _ _ _ (by omega)
  · have e : a ++ (png_save_uint_32 i.tl ++ png_save_uint_32 i.tt ++
        png_save_uint_32 i.tr ++ png_save_uint_32 i.tb)
        = (a ++ png_save_uint_32 i.tl) ++ (png_save_uint_32 i.tt ++
          (png_save_uint_32 i.tr ++ png_save_uint_32 i.tb)) := by
      simp only [List.append_assoc]
    rw [e]
    exact png_get_save _ htt _ _ _ (by simp only [List.length_append, hsl]; omega)
  · have e : a ++ (png_save_uint_32 i.tl ++ png_save_uint_32 i.tt ++
        png_save_uint_32 i.tr ++ png_save_uint_32 i.tb)
        = (a ++ png_save_uint_32 i.tl ++ png_save_uint_32 i.tt) ++
          (png_save_uint_32 i.tr ++ png_save_uint_32 i.tb) := by
      simp only [List.append_assoc]
    rw [e]
    exact png_get_save _ htr _ _ _ (by simp only [List.length_append, hsl]; omega)
  · have e : a ++ (png_save_uint_32 i.tl ++ png_save_uint_32 i.tt ++
        png_save_uint_32 i.tr ++ png_save_uint_32 i.tb)
        = (a ++ png_save_uint_32 i.tl ++ png_save_uint_32 i.tt ++ png_save_uint_32 i.tr) ++
          (png_save_uint_32 i.tb ++ []) := by
      simp only [List.append_assoc, List.append_nil]
    rw [e]
    exact png_get_save _ htb _ _ _ (by simp only [List.length_append, hsl]; omega)

/-- Decoding the payload `write_png` encodes for an image with a NUL-free
identifier and 32-bit fields gives the image back (without pixel data and
packed flag) whenever the test of lines 138-139 lets it through. -/
theorem read_chunk_callback_payload (images : List Image) (i : Image)
    (hfn : 0 ∉ i.filename)
    (hx0 : i.x0 < 4294967296) (hy0 : i.y0 < 4294967296)
    (hw : i.w < 4294967296) (hh : i.h < 4294967296)
    (htl : i.tl < 4294967296) (htt : i.tt < 4294967296)
    (htr : i.tr < 4294967296) (htb : i.tb < 4294967296)
    (hok : restore_overflow i = false) :
    read_chunk_callback images atLS (atls_payload i)
      = (1, images ++ [{ i with p := [], packed := false }]) := by
  have hlen := atls_payload_length i
  obtain ⟨hm, htk⟩ := atls_payload_memchr i hfn
  obtain ⟨f0, f1, f2, f3⟩ := atls_payload_head i hx0 hy0 hw hh
  unfold read_chunk_callback
  rw [if_neg (by decide), hm]
  by_cases h : i.tl = 0 ∧ i.tt = 0 ∧ i.tr = 0 ∧ i.tb = 0
  · rw [if_pos h] at hlen
    have hr : (atls_payload i).length - (i.filename.length + 1) = 16 := by omega
    have himg : chunk_image (atls_payload i) i.filename.length false
        = { i with p := [], packed := false } := by
      obtain ⟨e1, e2, e3, e4⟩ := h
      simp only [chunk_image, f0, f1, f2, f3, htk, Bool.false_eq_true, if_false, e1, e2, e3, e4]
    simp only [hr, Nat.lt_irrefl, decide_False, Bool.false_eq_true, if_false, himg]
    rw [if_neg (by decide), if_neg (by simpa [restore_overflow] using hok)]
  · rw [if_neg h] at hlen
    have hr : (atls_payload i).length - (i.filename.length + 1) = 32 := by omega
    obtain ⟨g0, g1, g2, g3⟩ := atls_payload_tail i (by omega) htl htt htr htb
    have himg : chunk_image (atls_payload i) i.filename.length true
        = { i with p := [], packed := false } := by
      simp only [chunk_image, f0, f1, f2, f3, g0, g1, g2, g3, htk, if_true]
    have hd : decide (32 > 4 * 4) = true := by decide
    simp only [hr, hd, if_true, himg]
    rw [if_neg (by decide), if_neg (by simpa [restore_overflow] using hok)]

/-! ## The trimming loops -/

theorem valid_sub_sub {W H : Nat} {i : Image} (hW : W < 4294967296) (hH : H < 4294967296)
    (h : valid_sub W H i = true) : Sub W H i := by
  simp only [valid_sub, Bool.not_eq_true', Bool.or_eq_false_iff, decide_eq_false_iff_not,
    not_lt] at h
  obtain ⟨⟨⟨⟨⟨h1, h2⟩, h3⟩, h4⟩, h5⟩, h6⟩ := h
  rw [sub32_eq h1 hW] at h3
  rw [sub32_eq h4 hH] at h6
  refine ⟨hW, hH, ?_, ?_, ?_, ?_⟩ <;> omega

theorem alpha_at_eq {W H : Nat} {i : Image} (p : List (List Nat)) (hs : Sub W H i)
    {x y : Nat} (hx : x < i.w) (hy : y < i.h) :
    alpha_at p i x y = acode p (i.x0 + x) (i.y0 + y) := by
  obtain ⟨hW, hH, h1, h2, -, -⟩ := hs
  unfold alpha_at acode
  rw [add32_eq (a := i.y0) (by omega), add32_eq (a := i.x0) (by omega)]

theorem row_clear_true {W H : Nat} {i : Image} (p : List (List Nat)) (hs : Sub W H i)
    {y : Nat} (hy : y < i.h) :
    row_clear p i y = true ↔
      ∀ X, i.x0 ≤ X → X < i.x0 + i.w → acode p X (i.y0 + y) = 0 := by
  simp only [row_clear, List.all_eq_true, List.mem_range, beq_iff_eq]
  constructor
  · intro h X h1 h2
    have := h (X - i.x0) (by omega)
    rw [alpha_at_eq p hs (by omega) hy] at this
    have e : i.x0 + (X - i.x0) = X := by omega
    rwa [e] at this
  · intro h x hx
    rw [alpha_at_eq p hs hx hy]
    exact h _ (by omega) (by omega)

theorem col_clear_true {W H : Nat} {i : Image} (p : List (List Nat)) (hs : Sub W H i)
    {x : Nat} (hx : x < i.w) :
    col_clear p i x = true ↔
      ∀ Y, i.y0 ≤ Y → Y < i.y0 + i.h → acode p (i.x0 + x) Y = 0 := by
  simp only [col_clear, List.all_eq_true, List.mem_range, beq_iff_eq]
  constructor
  · intro h Y h1 h2
    have := h (Y - i.y0) (by omega)
    rw [alpha_at_eq p hs hx (by omega)] at this
    have e : i.y0 + (Y - i.y0) = Y := by omega
    rwa [e] at this
  · intro h y hy
    rw [alpha_at_eq p hs hx hy]
    exact h _ (by omega) (by omega)

theorem TrimRel.trim_refl (p : List (List Nat)) {W H : Nat} {i : Image} (hs : Sub W H i) :
    TrimRel p i i 0 0 0 0 := by
  obtain ⟨-, -, -, -, h5, h6⟩ := hs
  constructor <;> first | rfl | omega | exact fun h => h | skip
  · intro X Y h1 h2; exact absurd h1 h2
  · exact ⟨rfl, rfl, rfl⟩

theorem TrimRel.trim_trans {p : List (List Nat)} {i r s : Image} {a b c d a' b' c' d' : Nat}
    (h1 : TrimRel p i r a b c d) (h2 : TrimRel p r s a' b' c' d') :
    TrimRel p i s (a + a') (b + b') (c + c') (d + d') := by
  have e1 := h1.x0; have e2 := h1.y0; have e3 := h1.w; have e4 := h1.h
  have f1 := h2.x0; have f2 := h2.y0; have f3 := h2.w; have f4 := h2.h
  have g1 := h1.tl; have g2 := h1.tt; have g3 := h1.tr; have g4 := h1.tb
  have k1 := h2.tl; have k2 := h2.tt; have k3 := h2.tr; have k4 := h2.tb
  constructor
  · omega
  · omega
  · omega
  · omega
  · exact h2.w1
  · exact h2.h1
  · omega
  · omega
  · omega
  · omega
  · exact fun h => h2.tl_lt (h1.tl_lt h)
  · exact fun h => h2.tt_lt (h1.tt_lt h)
  · exact fun h => h2.tr_lt (h1.tr_lt h)
  · exact fun h => h2.tb_lt (h1.tb_lt h)
  · intro X Y hi hs
    by_cases hr : inSub r X Y
    · exact h2.clear X Y hr hs
    · exact h1.clear X Y hi hr
  · exact ⟨h2.rest.1.trans h1.rest.1, h2.rest.2.1.trans h1.rest.2.1,
      h2.rest.2.2.trans h1.rest.2.2⟩

theorem TrimRel.trim_sub {p : List (List Nat)} {W H : Nat} {i r : Image} {a b c d : Nat}
    (h : TrimRel p i r a b c d) (hs : Sub W H i) : Sub W H r := by
  obtain ⟨hW, hH, h1, h2, -, -⟩ := hs
  have e1 := h.x0; have e2 := h.y0; have e3 := h.w; have e4 := h.h
  have e5 := h.w1; have e6 := h.h1
  refine ⟨hW, hH, ?_, ?_, ?_, ?_⟩ <;> omega

theorem trim_bottom_step {W H : Nat} {i : Image} (p : List (List Nat)) (hs : Sub W H i)
    (hc : i.h > 1 ∧ row_clear p i (i.h - 1) = true) :
    TrimRel p i { i with h := i.h - 1, tb := add32 i.tb 1 } 0 0 0 1 := by
  obtain ⟨hh, hrow⟩ := hc
  rw [row_clear_true p hs (by omega)] at hrow
  obtain ⟨-, -, -, -, h5, h6⟩ := hs
  constructor <;> first | rfl | (simp only [add32]; omega) | exact fun h => h | skip
  · intro X Y h1 h2
    simp only [inSub] at h1 h2
    have e : Y = i.y0 + (i.h - 1) := by omega
    rw [e]
    exact hrow X h1.1 h1.2.1
  · exact ⟨rfl, rfl, rfl⟩

theorem trim_top_step {W H : Nat} {i : Image} (p : List (List Nat)) (hs : Sub W H i)
    (hc : i.h > 1 ∧ row_clear p i 0 = true) :
    TrimRel p i { i with h := i.h - 1, tt := add32 i.tt 1, y0 := add32 i.y0 1 } 0 1 0 0 := by
  obtain ⟨hh, hrow⟩ := hc
  rw [row_clear_true p hs (by omega)] at hrow
  obtain ⟨-, hH, -, h4, h5, h6⟩ := hs
  have ey : add32 i.y0 1 = i.y0 + 1 := add32_eq (by omega)
  constructor <;> first | rfl | exact ey | (simp only [add32]; omega) | exact fun h => h | skip
  · intro X Y h1 h2
    simp only [inSub, ey] at h1 h2
    have e : Y = i.y0 + 0 := by omega
    rw [e]
    exact hrow X h1.1 h1.2.1
  · exact ⟨rfl, rfl, rfl⟩

theorem trim_right_step {W H : Nat} {i : Image} (p : List (List Nat)) (hs : Sub W H i)
    (hc : i.w > 1 ∧ col_clear p i (i.w - 1) = true) :
    TrimRel p i { i with w := i.w - 1, tr := add32 i.tr 1 } 0 0 1 0 := by
  obtain ⟨hh, hcol⟩ := hc
  rw [col_clear_true p hs (by omega)] at hcol
  obtain ⟨-, -, -, -, h5, h6⟩ := hs
  constructor <;> first | rfl | (simp only [add32]; omega) | exact fun h => h | skip
  · intro X Y h1 h2
    simp only [inSub] at h1 h2
    have e : X = i.x0 + (i.w - 1) := by omega
    rw [e]
    exact hcol Y h1.2.2.1 h1.2.2.2
  · exact ⟨rfl, rfl, rfl⟩

theorem trim_left_step {W H : Nat} {i : Image} (p : List (List Nat)) (hs : Sub W H i)
    (hc : i.w > 1 ∧ col_clear p i 0 = true) :
    TrimRel p i { i with w := i.w - 1, tl := add32 i.tl 1, x0 := add32 i.x0 1 } 1 0 0 0 := by
  obtain ⟨hh, hcol⟩ := hc
  rw [col_clear_true p hs (by omega)] at hcol
  obtain ⟨hW, -, h3, -, h5, h6⟩ := hs
  have ex : add32 i.x0 1 = i.x0 + 1 := add32_eq (by omega)
  constructor <;> first | rfl | exact ex | (simp only [add32]; omega) | exact fun h => h | skip
  · intro X Y h1 h2
    simp only [inSub, ex] at h1 h2
    have e : X = i.x0 + 0 := by omega
    rw [e]
    exact hcol Y h1.2.2.1 h1.2.2.2
  · exact ⟨rfl, rfl, rfl⟩

theorem trim_bottom_rel {W H : Nat} (p : List (List Nat)) (n : Nat) {i : Image}
    (hs : Sub W H i) : ∃ kb, TrimRel p i (trim_bottom p n i) 0 0 0 kb := by
  induction n generalizing i with
  | zero => exact ⟨0, TrimRel.trim_refl p hs⟩
  | succ n ih =>
    unfold trim_bottom
    split
    · rename_i hc
      have hstep := trim_bottom_step p hs hc
      obtain ⟨kb, h⟩ := ih (hstep.trim_sub hs)
      exact ⟨1 + kb, by simpa using hstep.trim_trans h⟩
    · exact ⟨0, TrimRel.trim_refl p hs⟩

theorem trim_top_rel {W H : Nat} (p : List (List Nat)) (n : Nat) {i : Image}
    (hs : Sub W H i) : ∃ kt, TrimRel p i (trim_top p n i) 0 kt 0 0 := by
  induction n generalizing i with
  | zero => exact ⟨0, TrimRel.trim_refl p hs⟩
  | succ n ih =>
    unfold trim_top
    split
    · rename_i hc
      have hstep := trim_top_step p hs hc
      obtain ⟨kt, h⟩ := ih (hstep.trim_sub hs)
      exact ⟨1 + kt, by simpa using hstep.trim_trans h⟩
    · exact ⟨0, TrimRel.trim_refl p hs⟩

theorem trim_right_rel {W H : Nat} (p : List (List Nat)) (n : Nat) {i : Image}
    (hs : Sub W H i) : ∃ kr, TrimRel p i (trim_right p n i) 0 0 kr 0 := by
  induction n generalizing i with
  | zero => exact ⟨0, TrimRel.trim_refl p hs⟩
  | succ n ih =>
    unfold trim_right
    split
    · rename_i hc
      have hstep := trim_right_step p hs hc
      obtain ⟨kr, h⟩ := ih (hstep.trim_sub hs)
      exact ⟨1 + kr, by simpa using hstep.trim_trans h⟩
    · exact ⟨0, TrimRel.trim_refl p hs⟩

theorem trim_left_rel {W H : Nat} (p : List (List Nat)) (n : Nat) {i : Image}
    (hs : Sub W H i) : ∃ kl, TrimRel p i (trim_left p n i) kl 0 0 0 := by
  induction n generalizing i with
  | zero => exact ⟨0, TrimRel.trim_refl p hs⟩
  | succ n ih =>
    unfold trim_left
    split
    · rename_i hc
      have hstep := trim_left_step p hs hc
      obtain ⟨kl, h⟩ := ih (hstep.trim_sub hs)
      exact ⟨1 + kl, by simpa using hstep.trim_trans h⟩
    · exact ⟨0, TrimRel.trim_refl p hs⟩

/-- With `h` passes allowed the bottom loop leaves because its condition is
false, not because the bound is reached. -/
theorem trim_bottom_exit (p : List (List Nat)) (n : Nat) (i : Image) (hn : i.h ≤ n) :
    ¬ ((trim_bottom p n i).h > 1 ∧
       row_clear p (trim_bottom p n i) ((trim_bottom p n i).h - 1) = true) := by
  induction n generalizing i with
  | zero => simp only [trim_bottom]; omega
  | succ n ih =>
    unfold trim_bottom
    split
    · rename_i hc
      exact ih _ (by show i.h - 1 ≤ n; omega)
    · rename_i hc; exact hc

theorem trim_top_exit (p : List (List Nat)) (n : Nat) (i : Image) (hn : i.h ≤ n) :
    ¬ ((trim_top p n i).h > 1 ∧ row_clear p (trim_top p n i) 0 = true) := by
  induction n generalizing i with
  | zero => simp only [trim_top]; omega
  | succ n ih =>
    unfold trim_top
    split
    · rename_i hc
      exact ih _ (by show i.h - 1 ≤ n; omega)
    · rename_i hc; exact hc

theorem trim_right_exit (p : List (List Nat)) (n : Nat) (i : Image) (hn : i.w ≤ n) :
    ¬ ((trim_right p n i).w > 1 ∧
       col_clear p (trim_right p n i) ((trim_right p n i).w - 1) = true) := by
  induction n generalizing i with
  | zero => simp only [trim_right]; omega
  | succ n ih =>
    unfold trim_right
    split
    · rename_i hc
      exact ih _ (by show i.w - 1 ≤ n; omega)
    · rename_i hc; exact hc

theorem trim_left_exit (p : List (List Nat)) (n : Nat) (i : Image) (hn : i.w ≤ n) :
    ¬ ((trim_left p n i).w > 1 ∧ col_clear p (trim_left p n i) 0 = true) := by
  induction n generalizing i with
  | zero => simp only [trim_left]; omega
  | succ n ih =>
    unfold trim_left
    split
    · rename_i hc
      exact ih _ (by show i.w - 1 ≤ n; omega)
    · rename_i hc; exact hc

theorem trim_bottom_stuck (p : List (List Nat)) (n : Nat) (i : Image)
    (h : ¬ (i.h > 1 ∧ row_clear p i (i.h - 1) = true)) : trim_bottom p n i = i := by
  cases n with
  | zero => rfl
  | succ n => unfold trim_bottom; rw [if_neg h]

theorem trim_top_stuck (p : List (List Nat)) (n : Nat) (i : Image)
    (h : ¬ (i.h > 1 ∧ row_clear p i 0 = true)) : trim_top p n i = i := by
  cases n with
  | zero => rfl
  | succ n => unfold trim_top; rw [if_neg h]

theorem trim_right_stuck (p : List (List Nat)) (n : Nat) (i : Image)
    (h : ¬ (i.w > 1 ∧ col_clear p i (i.w - 1) = true)) : trim_right p n i = i := by
  cases n with
  | zero => rfl
  | succ n => unfold trim_right; rw [if_neg h]

theorem trim_left_stuck (p : List (List Nat)) (n : Nat) (i : Image)
    (h : ¬ (i.w > 1 ∧ col_clear p i 0 = true)) : trim_left p n i = i := by
  cases n with
  | zero => rfl
  | succ n => unfold trim_left; rw [if_neg h]

/-- A bottom row that is not clear stays the bottom row, and stays not clear,
when only clear rows and columns are removed elsewhere. -/
theorem stuck_bottom_keep {W H : Nat} {p : List (List Nat)} {i r : Image} {kl kt kr : Nat}
    (hs : Sub W H i) (hrel : TrimRel p i r kl kt kr 0)
    (h : ¬ (i.h > 1 ∧ row_clear p i (i.h - 1) = true)) :
    ¬ (r.h > 1 ∧ row_clear p r (r.h - 1) = true) := by
  rintro ⟨hr1, hrc⟩
  have hsr := hrel.trim_sub hs
  have e1 := hrel.x0; have e2 := hrel.y0; have e3 := hrel.w; have e4 := hrel.h
  rw [row_clear_true p hsr (by omega)] at hrc
  apply h
  refine ⟨by omega, ?_⟩
  rw [row_clear_true p hs (by omega)]
  intro X hX1 hX2
  by_cases hin : inSub r X (i.y0 + (i.h - 1))
  · have := hrc X hin.1 hin.2.1
    have e : r.y0 + (r.h - 1) = i.y0 + (i.h - 1) := by omega
    rwa [e] at this
  · exact hrel.clear X _ ⟨hX1, hX2, by omega, by omega⟩ hin

theorem stuck_top_keep {W H : Nat} {p : List (List Nat)} {i r : Image} {kl kr kb : Nat}
    (hs : Sub W H i) (hrel : TrimRel p i r kl 0 kr kb)
    (h : ¬ (i.h > 1 ∧ row_clear p i 0 = true)) :
    ¬ (r.h > 1 ∧ row_clear p r 0 = true) := by
  rintro ⟨hr1, hrc⟩
  have hsr := hrel.trim_sub hs
  have e1 := hrel.x0; have e2 := hrel.y0; have e3 := hrel.w; have e4 := hrel.h
  rw [row_clear_true p hsr (by omega)] at hrc
  apply h
  refine ⟨by omega, ?_⟩
  rw [row_clear_true p hs (by omega)]
  intro X hX1 hX2
  by_cases hin : inSub r X (i.y0 + 0)
  · have := hrc X hin.1 hin.2.1
    have e : r.y0 + 0 = i.y0 + 0 := by omega
    rwa [e] at this
  · exact hrel.clear X _ ⟨hX1, hX2, by omega, by omega⟩ hin

theorem stuck_right_keep {W H : Nat} {p : List (List Nat)} {i r : Image} {kl kt kb : Nat}
    (hs : Sub W H i) (hrel : TrimRel p i r kl kt 0 kb)
    (h : ¬ (i.w > 1 ∧ col_clear p i (i.w - 1) = true)) :
    ¬ (r.w > 1 ∧ col_clear p r (r.w - 1) = true) := by
  rintro ⟨hr1, hrc⟩
  have hsr := hrel.trim_sub hs
  have e1 := hrel.x0; have e2 := hrel.y0; have e3 := hrel.w; have e4 := hrel.h
  rw [col_clear_true p hsr (by omega)] at hrc
  apply h
  refine ⟨by omega, ?_⟩
  rw [col_clear_true p hs (by omega)]
  intro Y hY1 hY2
  by_cases hin : inSub r (i.x0 + (i.w - 1)) Y
  · have := hrc Y hin.2.2.1 hin.2.2.2
    have e : r.x0 + (r.w - 1) = i.x0 + (i.w - 1) := by omega
    rwa [e] at this
  · exact hrel.clear _ Y ⟨by omega, by omega, hY1, hY2⟩ hin

/-- The four loops together remove clear rows and columns only. -/
theorem trim_loops_rel {W H : Nat} (p : List (List Nat)) {i : Image} (hs : Sub W H i) :
    ∃ kl kt kr kb, TrimRel p i (trim_loops p i) kl kt kr kb := by
  obtain ⟨kb, h1⟩ := trim_bottom_rel p i.h hs
  obtain ⟨kt, h2⟩ := trim_top_rel p (trim_bottom p i.h i).h (h1.trim_sub hs)
  obtain ⟨kr, h3⟩ := trim_right_rel p (trim_top p (trim_bottom p i.h i).h
    (trim_bottom p i.h i)).w (h2.trim_sub (h1.trim_sub hs))
  obtain ⟨kl, h4⟩ := trim_left_rel p (trim_right p (trim_top p (trim_bottom p i.h i).h
    (trim_bottom p i.h i)).w (trim_top p (trim_bottom p i.h i).h (trim_bottom p i.h i))).w
    (h3.trim_sub (h2.trim_sub (h1.trim_sub hs)))
  exact ⟨kl, kt, kr, kb, by simpa [trim_loops] using ((h1.trim_trans h2).trim_trans h3).trim_trans h4⟩

/-- After the four loops none of the four loop conditions holds. -/
theorem trim_loops_stuck {W H : Nat} (p : List (List Nat)) {i : Image} (hs : Sub W H i) :
    ¬ ((trim_loops p i).h > 1 ∧ row_clear p (trim_loops p i) ((trim_loops p i).h - 1) = true) ∧
    ¬ ((trim_loops p i).h > 1 ∧ row_clear p (trim_loops p i) 0 = true) ∧
    ¬ ((trim_loops p i).w > 1 ∧ col_clear p (trim_loops p i) ((trim_loops p i).w - 1) = true) ∧
    ¬ ((trim_loops p i).w > 1 ∧ col_clear p (trim_loops p i) 0 = true) := by
  obtain ⟨kb, h1⟩ := trim_bottom_rel p i.h hs
  have s1 := h1.trim_sub hs
  obtain ⟨kt, h2⟩ := trim_top_rel p (trim_bottom p i.h i).h s1
  have s2 := h2.trim_sub s1
  obtain ⟨kr, h3⟩ := trim_right_rel p (trim_top p (trim_bottom p i.h i).h
    (trim_bottom p i.h i)).w s2
  have s3 := h3.trim_sub s2
  obtain ⟨kl, h4⟩ := trim_left_rel p (trim_right p (trim_top p (trim_bottom p i.h i).h
    (trim_bottom p i.h i)).w (trim_top p (trim_bottom p i.h i).h (trim_bottom p i.h i))).w s3
  have b1 := trim_bottom_exit p i.h i (Nat.le_refl _)
  have t2 := trim_top_exit p _ (trim_bottom p i.h i) (Nat.le_refl _)
  have r3 := trim_right_exit p _ (trim_top p (trim_bottom p i.h i).h (trim_bottom p i.h i))
    (Nat.le_refl _)
  have l4 := trim_left_exit p _ (trim_right p (trim_top p (trim_bottom p i.h i).h
    (trim_bottom p i.h i)).w (trim_top p (trim_bottom p i.h i).h (trim_bottom p i.h i)))
    (Nat.le_refl _)
  have b4 := stuck_bottom_keep s3 h4 (stuck_bottom_keep s2 h3 (stuck_bottom_keep s1 h2 b1))
  have t4 := stuck_top_keep s3 h4 (stuck_top_keep s2 h3 t2)
  have r4 := stuck_right_keep s3 h4 r3
  exact ⟨b4, t4, r4, l4⟩

theorem trim_loops_idem {W H : Nat} (p : List (List Nat)) {i : Image} (hs : Sub W H i) :
    trim_loops p (trim_loops p i) = trim_loops p i := by
  obtain ⟨b, t, r, l⟩ := trim_loops_stuck p hs
  generalize trim_loops p i = j at b t r l
  unfold trim_loops
  simp only [trim_bottom_stuck p _ j b, trim_top_stuck p _ j t, trim_right_stuck p _ j r,
    trim_left_stuck p _ j l]

/-- C8: trimming is idempotent.  For every page buffer and every sub-rectangle
that the check of lines 190-191 accepts, running the four trimming loops on the
trimmed sprite (same buffer) returns it unchanged: none of `w`, `h`, `x0`,
`y0`, `tl`, `tt`, `tr`, `tb` changes. -/
theorem trim_idempotent (p : List (List Nat)) (W H : Nat) (i : Image)
    (hW : W ≤ PNG_UINT_32_MAX) (hH : H ≤ PNG_UINT_32_MAX) (hv : valid_sub W H i = true) :
    trim_loops p (trim_loops p i) = trim_loops p i := by
  unfold PNG_UINT_32_MAX at hW hH
  exact trim_loops_idem p (valid_sub_sub (by omega) (by omega) hv)

theorem trim_idempotent_witness :
    trim_loops trimPage (trim_loops trimPage (sprite 1 3 3))
      = trim_loops trimPage (sprite 1 3 3) :=
  trim_idempotent trimPage 3 3 (sprite 1 3 3) (by decide) (by decide) (by decide)

/-- What the trimming loops keep of the extent.  For every page buffer and
accepted sub-rectangle, after the loops `w` and `h` are at least 1; the sums
`w+tl+tr` and `h+tt+tb` as the code computes them (in `png_uint_32`) are what
they were, and the origin has moved by the growth of the left and top margins
(`x0' + tl = x0 + tl'`, `y0' + tt = y0 + tt'`); when the extent before
trimming fits 32 bits, the same holds in exact arithmetic, the margins only
grow, and `x0' - x0 = tl' - tl`, `y0' - y0 = tt' - tt`.  The extent fits 32
bits for every whole image (margins 0) and for every chunk the guard of lines
138-139 is meant to accept. -/
theorem trim_preserves_extent (p : List (List Nat)) (W H : Nat) (i : Image)
    (hW : W ≤ PNG_UINT_32_MAX) (hH : H ≤ PNG_UINT_32_MAX) (hv : valid_sub W H i = true) :
    1 ≤ (trim_loops p i).w ∧ 1 ≤ (trim_loops p i).h ∧
    add32 (add32 (trim_loops p i).w (trim_loops p i).tl) (trim_loops p i).tr
      = add32 (add32 i.w i.tl) i.tr ∧
    add32 (add32 (trim_loops p i).h (trim_loops p i).tt) (trim_loops p i).tb
      = add32 (add32 i.h i.tt) i.tb ∧
    add32 (trim_loops p i).x0 i.tl = add32 i.x0 (trim_loops p i).tl ∧
    add32 (trim_loops p i).y0 i.tt = add32 i.y0 (trim_loops p i).tt ∧
    (i.w + i.tl + i.tr ≤ PNG_UINT_32_MAX →
      (trim_loops p i).w + (trim_loops p i).tl + (trim_loops p i).tr = i.w + i.tl + i.tr ∧
      i.x0 ≤ (trim_loops p i).x0 ∧ i.tl ≤ (trim_loops p i).tl ∧
      (trim_loops p i).x0 - i.x0 = (trim_loops p i).tl - i.tl) ∧
    (i.h + i.tt + i.tb ≤ PNG_UINT_32_MAX →
      (trim_loops p i).h + (trim_loops p i).tt + (trim_loops p i).tb = i.h + i.tt + i.tb ∧
      i.y0 ≤ (trim_loops p i).y0 ∧ i.tt ≤ (trim_loops p i).tt ∧
      (trim_loops p i).y0 - i.y0 = (trim_loops p i).tt - i.tt) := by
  unfold PNG_UINT_32_MAX at *
  obtain ⟨kl, kt, kr, kb, h⟩ := trim_loops_rel p (valid_sub_sub (by omega) (by omega) hv)
  generalize trim_loops p i = r at h
  have e1 := h.x0; have e2 := h.y0; have e3 := h.w; have e4 := h.h
  have e5 := h.w1; have e6 := h.h1
  have g1 := h.tl; have g2 := h.tt; have g3 := h.tr; have g4 := h.tb
  have k1 := h.tl_lt; have k2 := h.tt_lt; have k3 := h.tr_lt; have k4 := h.tb_lt
  simp only [add32]
  refine ⟨e5, e6, by omega, by omega, by omega, by omega, fun hx => ?_, fun hy => ?_⟩
  · have := k1 (by omega)
    have := k3 (by omega)
    omega
  · have := k2 (by omega)
    have := k4 (by omega)
    omega

theorem trim_preserves_extent_witness :
    1 ≤ (trim_loops trimPage (sprite 1 3 3)).w ∧ 1 ≤ (trim_loops trimPage (sprite 1 3 3)).h ∧
    add32 (add32 (trim_loops trimPage (sprite 1 3 3)).w (trim_loops trimPage (sprite 1 3 3)).tl)
        (trim_loops trimPage (sprite 1 3 3)).tr
      = add32 (add32 (sprite 1 3 3).w (sprite 1 3 3).tl) (sprite 1 3 3).tr ∧
    add32 (add32 (trim_loops trimPage (sprite 1 3 3)).h (trim_loops trimPage (sprite 1 3 3)).tt)
        (trim_loops trimPage (sprite 1 3 3)).tb
      = add32 (add32 (sprite 1 3 3).h (sprite 1 3 3).tt) (sprite 1 3 3).tb ∧
    add32 (trim_loops trimPage (sprite 1 3 3)).x0 (sprite 1 3 3).tl
      = add32 (sprite 1 3 3).x0 (trim_loops trimPage (sprite 1 3 3)).tl ∧
    add32 (trim_loops trimPage (sprite 1 3 3)).y0 (sprite 1 3 3).tt
      = add32 (sprite 1 3 3).y0 (trim_loops trimPage (sprite 1 3 3)).tt ∧
    ((sprite 1 3 3).w + (sprite 1 3 3).tl + (sprite 1 3 3).tr ≤ PNG_UINT_32_MAX →
      (trim_loops trimPage (sprite 1 3 3)).w + (trim_loops trimPage (sprite 1 3 3)).tl
          + (trim_loops trimPage (sprite 1 3 3)).tr
        = (sprite 1 3 3).w + (sprite 1 3 3).tl + (sprite 1 3 3).tr ∧
      (sprite 1 3 3).x0 ≤ (trim_loops trimPage (sprite 1 3 3)).x0 ∧
      (sprite 1 3 3).tl ≤ (trim_loops trimPage (sprite 1 3 3)).tl ∧
      (trim_loops trimPage (sprite 1 3 3)).x0 - (sprite 1 3 3).x0
        = (trim_loops trimPage (sprite 1 3 3)).tl - (sprite 1 3 3).tl) ∧
    ((sprite 1 3 3).h + (sprite 1 3 3).tt + (sprite 1 3 3).tb ≤ PNG_UINT_32_MAX →
      (trim_loops trimPage (sprite 1 3 3)).h + (trim_loops trimPage (sprite 1 3 3)).tt
          + (trim_loops trimPage (sprite 1 3 3)).tb
        = (sprite 1 3 3).h + (sprite 1 3 3).tt + (sprite 1 3 3).tb ∧
      (sprite 1 3 3).y0 ≤ (trim_loops trimPage (sprite 1 3 3)).y0 ∧
      (sprite 1 3 3).tt ≤ (trim_loops trimPage (sprite 1 3 3)).tt ∧
      (trim_loops trimPage (sprite 1 3 3)).y0 - (sprite 1 3 3).y0
        = (trim_loops trimPage (sprite 1 3 3)).tt - (sprite 1 3 3).tt) :=
  trim_preserves_extent trimPage 3 3 (sprite 1 3 3) (by decide) (by decide) (by decide)

/-- C9 fails on the code: the chunk that declares the whole 1x3 page
`columnPage` with bottom margin `2^32 - 2` is accepted by
`read_chunk_callback` (line 139 tests `tb` against the width) and by the check
of lines 190-191; its extent `h + tt + tb` is `2^32 + 1`.  The trimming loops
remove the two transparent rows and the margin wraps to 0, so that afterwards
`h + tt + tb` is 1. -/
theorem trim_changes_extent :
    read_chunk_callback [] atLS (atls_payload columnExample) = (1, [columnExample]) ∧
    valid_sub 1 3 columnExample = true ∧
    trim_loops columnPage columnExample = { columnExample with h := 1, tb := 0 } ∧
    columnExample.h + columnExample.tt + columnExample.tb = 4294967297 ∧
    (trim_loops columnPage columnExample).h + (trim_loops columnPage columnExample).tt
      + (trim_loops columnPage columnExample).tb = 1 := by
  decide

theorem acode_eq_pixel_alpha (p : List (List Nat)) {W X : Nat} (hW : 4 * W ≤ 4294967296)
    (hX : X < W) (Y : Nat) : acode p X Y = pixel_alpha p X Y := by
  unfold acode pixel_alpha
  have e : mul32 X 4 = X * 4 := by unfold mul32; omega
  rw [e, add32_eq (by omega)]

/-- C10: trimming removes transparent pixels only.  For every page buffer
whose rows are addressed without wrap by a 32-bit byte offset (`4 * W ≤ 2^32`,
which libpng's limit on image width ensures) and every accepted sub-rectangle,
every pixel inside the sub-rectangle before the loops and outside it after
them has alpha byte 0. -/
theorem trim_removes_transparent_only (p : List (List Nat)) (W H : Nat) (i : Image)
    (hW : 4 * W ≤ 4294967296) (hH : H ≤ PNG_UINT_32_MAX) (hv : valid_sub W H i = true)
    (X Y : Nat) (hin : inSub i X Y) (hout : ¬ inSub (trim_loops p i) X Y) :
    pixel_alpha p X Y = 0 := by
  unfold PNG_UINT_32_MAX at hH
  have hs := valid_sub_sub (W := W) (H := H) (by omega) (by omega) hv
  obtain ⟨kl, kt, kr, kb, h⟩ := trim_loops_rel p hs
  have hX : X < W := by
    obtain ⟨-, -, h3, -, -, -⟩ := hs
    simp only [inSub] at hin
    omega
  rw [← acode_eq_pixel_alpha p hW hX Y]
  exact h.clear X Y hin hout

theorem trim_removes_transparent_only_witness : pixel_alpha trimPage 0 2 = 0 :=
  trim_removes_transparent_only trimPage 3 3 (sprite 1 3 3) (by decide) (by decide)
    (by decide) 0 2 (by simp [inSub, sprite]) (by decide)

/-! ## Compositing and extraction -/

theorem memcpy_at_length (dst : List Nat) (off : Nat) (src : List Nat) (n : Nat) :
    (memcpy_at dst off src n).length = dst.length := by
  simp [memcpy_at]

theorem memcpy_at_getD (dst : List Nat) (off : Nat) (src : List Nat) (n k : Nat)
    (hk : k < dst.length) :
    (memcpy_at dst off src n).getD k 0
      = if off ≤ k ∧ k < off + n then src.getD (k - off) 0 else dst.getD k 0 := by
  have hl : k < (memcpy_at dst off src n).length := by rw [memcpy_at_length]; exact hk
  rw [List.getD_eq_getElem _ _ hl]
  simp [memcpy_at]

theorem getD_set_rows (pg : List (List Nat)) (a r : Nat) (v : List Nat) :
    (pg.set a v).getD r [] = if r = a ∧ a < pg.length then v else pg.getD r [] := by
  simp only [List.getD_eq_getElem?_getD, List.getElem?_set]
  by_cases h : a = r
  · subst h
    by_cases h2 : a < pg.length
    · simp [h2]
    · simp [h2, List.getElem?_eq_none (Nat.le_of_not_lt h2)]
  · have h' : ¬ r = a := fun e => h e.symm
    simp [h, h']

/-- What the first `n` row copies of an image do to a page of `R` rows of `C`
bytes, when the rows touched exist and the offsets do not wrap. -/
theorem blit_rows_spec (i : Image) (n : Nat) {pg : List (List Nat)} {R C : Nat}
    (hd : Dims pg R C) (hn : i.y0 + n ≤ R) (hR : R < 4294967296)
    (hx : 4 * i.x0 < 4294967296) :
    Dims (blit_rows i n pg) R C ∧
    ∀ r c, byteAt (blit_rows i n pg) r c
      = if i.y0 ≤ r ∧ r < i.y0 + n ∧ 4 * i.x0 ≤ c ∧ c < 4 * i.x0 + 4 * i.w ∧ c < C then
          (i.p.getD (r - i.y0) []).getD (c - 4 * i.x0) 0
        else byteAt pg r c := by
  induction n with
  | zero =>
    refine ⟨hd, fun r c => ?_⟩
    rw [if_neg (by omega)]
    rfl
  | succ n ih =>
    obtain ⟨hd', hb⟩ := ih (by omega)
    have ey : add32 i.y0 n = i.y0 + n := add32_eq (by omega)
    have ex : mul32 i.x0 4 = 4 * i.x0 := by unfold mul32; omega
    have hrow : ((blit_rows i n pg).getD (i.y0 + n) []).length = C := hd'.2 _ (by omega)
    simp only [blit_rows, ey, ex]
    constructor
    · refine ⟨by rw [List.length_set]; exact hd'.1, fun r hr => ?_⟩
      rw [getD_set_rows]
      split
      · rw [memcpy_at_length]; exact hrow
      · exact hd'.2 r hr
    · intro r c
      unfold byteAt
      rw [getD_set_rows]
      by_cases hr : r = i.y0 + n
      · subst hr
        rw [if_pos ⟨rfl, by rw [hd'.1]; omega⟩]
        by_cases hc : c < C
        · rw [memcpy_at_getD _ _ _ _ _ (by rw [hrow]; exact hc)]
          by_cases hw : 4 * i.x0 ≤ c ∧ c < 4 * i.x0 + 4 * i.w
          · rw [if_pos hw, if_pos ⟨by omega, by omega, hw.1, hw.2, hc⟩]
            have e : i.y0 + n - i.y0 = n := by omega
            rw [e]
          · rw [if_neg hw]
            have := hb (i.y0 + n) c
            unfold byteAt at this
            rw [this, if_neg (by omega), if_neg (by omega)]
        · have h1 : (memcpy_at ((blit_rows i n pg).getD (i.y0 + n) []) (4 * i.x0)
              (i.p.getD n []) (4 * i.w)).getD c 0 = 0 := by
            rw [List.getD_eq_default]
            rw [memcpy_at_length, hrow]; omega
          have h2 : (pg.getD (i.y0 + n) []).getD c 0 = 0 := by
            rw [List.getD_eq_default]
            rw [hd.2 _ (by omega)]; omega
          rw [h1, if_neg (by omega), h2]
      · rw [if_neg (by omega)]
        have := hb r c
        unfold byteAt at this
        rw [this]
        by_cases hin : i.y0 ≤ r ∧ r < i.y0 + n ∧ 4 * i.x0 ≤ c ∧ c < 4 * i.x0 + 4 * i.w ∧ c < C
        · rw [if_pos hin, if_pos ⟨hin.1, by omega, hin.2.2⟩]
        · rw [if_neg hin, if_neg (by omega)]

theorem blit_packed_dims {l : List Image} {R : Nat}
    (hin : ∀ k, (imageAt l k).packed = true →
      (imageAt l k).y0 + (imageAt l k).h ≤ R ∧ 4 * (imageAt l k).x0 < 4294967296)
    {a : Image} {rest : List Image} (e : l = a :: rest) :
    (a.packed = true → a.y0 + a.h ≤ R ∧ 4 * a.x0 < 4294967296) ∧
    ∀ k, (imageAt rest k).packed = true →
      (imageAt rest k).y0 + (imageAt rest k).h ≤ R ∧ 4 * (imageAt rest k).x0 < 4294967296 := by
  subst e
  exact ⟨fun h => hin 0 h, fun k h => hin (k + 1) h⟩

/-- Copying in packed images keeps the page's shape. -/
theorem composite_dims (l : List Image) {pg : List (List Nat)} {R C : Nat} (hR : R < 4294967296)
    (hin : ∀ k, (imageAt l k).packed = true →
      (imageAt l k).y0 + (imageAt l k).h ≤ R ∧ 4 * (imageAt l k).x0 < 4294967296)
    (hd : Dims pg R C) :
    Dims (l.foldl (fun pg i => if i.packed then blit_rows i i.h pg else pg) pg) R C := by
  induction l generalizing pg with
  | nil => exact hd
  | cons a rest ih =>
    obtain ⟨ha, hrest⟩ := blit_packed_dims hin rfl
    simp only [List.foldl_cons]
    apply ih hrest
    split
    · rename_i hp
      exact (blit_rows_spec a a.h hd (ha hp).1 hR (ha hp).2).1
    · exact hd

/-- A byte no packed image covers keeps its value through the compositing. -/
theorem composite_miss (l : List Image) {pg : List (List Nat)} {R C : Nat} (hR : R < 4294967296)
    (hin : ∀ k, (imageAt l k).packed = true →
      (imageAt l k).y0 + (imageAt l k).h ≤ R ∧ 4 * (imageAt l k).x0 < 4294967296)
    (hd : Dims pg R C) (r c : Nat)
    (hmiss : ∀ k, (imageAt l k).packed = true → ¬ covers (imageAt l k) r c) :
    byteAt (l.foldl (fun pg i => if i.packed then blit_rows i i.h pg else pg) pg) r c
      = byteAt pg r c := by
  induction l generalizing pg with
  | nil => rfl
  | cons a rest ih =>
    obtain ⟨ha, hrest⟩ := blit_packed_dims hin rfl
    simp only [List.foldl_cons]
    by_cases hp : a.packed = true
    · rw [if_pos hp]
      have hs := blit_rows_spec a a.h hd (ha hp).1 hR (ha hp).2
      rw [ih hrest hs.1 (fun k hk => hmiss (k + 1) hk), hs.2 r c]
      have hm := hmiss 0 hp
      simp only [imageAt_cons_zero, covers] at hm
      rw [if_neg (by omega)]
    · rw [if_neg hp]
      exact ih hrest hd (fun k hk => hmiss (k + 1) hk)

/-- A byte covered by the packed image at position `j` and by no other packed
image holds that image's byte after the compositing. -/
theorem composite_hit (l : List Image) (j : Nat) {pg : List (List Nat)} {R C : Nat}
    (hR : R < 4294967296)
    (hin : ∀ k, (imageAt l k).packed = true →
      (imageAt l k).y0 + (imageAt l k).h ≤ R ∧ 4 * (imageAt l k).x0 < 4294967296)
    (hd : Dims pg R C) (r c : Nat) (hc : c < C)
    (hj : (imageAt l j).packed = true) (hcov : covers (imageAt l j) r c)
    (hmiss : ∀ k, k ≠ j → (imageAt l k).packed = true → ¬ covers (imageAt l k) r c) :
    byteAt (l.foldl (fun pg i => if i.packed then blit_rows i i.h pg else pg) pg) r c
      = ((imageAt l j).p.getD (r - (imageAt l j).y0) []).getD (c - 4 * (imageAt l j).x0) 0 := by
  induction l generalizing pg j with
  | nil => simp [imageAt] at hj
  | cons a rest ih =>
    obtain ⟨ha, hrest⟩ := blit_packed_dims hin rfl
    simp only [List.foldl_cons]
    cases j with
    | zero =>
      simp only [imageAt_cons_zero] at hj hcov ⊢
      rw [if_pos hj]
      have hs := blit_rows_spec a a.h hd (ha hj).1 hR (ha hj).2
      rw [composite_miss rest hR hrest hs.1 r c (fun k hk => hmiss (k + 1) (by omega) hk),
        hs.2 r c]
      simp only [covers] at hcov
      rw [if_pos ⟨hcov.1, hcov.2.1, hcov.2.2.1, hcov.2.2.2, hc⟩]
    | succ j =>
      simp only [imageAt_cons_succ] at hj hcov ⊢
      apply ih j hrest _ hj hcov (fun k hk hp => hmiss (k + 1) (by omega) hp)
      split
      · rename_i hp
        exact (blit_rows_spec a a.h hd (ha hp).1 hR (ha hp).2).1
      · exact hd

theorem dims_blank (size : Nat) :
    Dims (List.replicate size (List.replicate (4 * size) 0)) size (4 * size) := by
  refine ⟨List.length_replicate _ _, fun r hr => ?_⟩
  rw [List.getD_eq_getElem _ _ (by rw [List.length_replicate]; exact hr)]
  simp

/-- Copying a sub-rectangle out of a page gives back a buffer whose bytes the
page holds at the sub-rectangle's place. -/
theorem copy_sub_eq (pg : List (List Nat)) (i : Image) (hb : BufferOK i)
    (hy : i.y0 + i.h < 4294967296) (hx : 4 * i.x0 < 4294967296)
    (h : ∀ y k, y < i.h → k < 4 * i.w →
      byteAt pg (i.y0 + y) (4 * i.x0 + k) = (i.p.getD y []).getD k 0) :
    copy_sub pg i = i.p := by
  have ex : mul32 i.x0 4 = 4 * i.x0 := by unfold mul32; omega
  apply List.ext_getElem
  · simp [copy_sub, hb.1]
  · intro y h1 h2
    have hyh : y < i.h := by rw [← hb.1]; exact h2
    have hrow := hb.2 y hyh
    rw [List.getD_eq_getElem _ _ h2] at hrow
    apply List.ext_getElem
    · simp [copy_sub, hrow]
    · intro k h3 h4
      have hk : k < 4 * i.w := by rw [← hrow]; exact h4
      have := h y k hyh hk
      rw [List.getD_eq_getElem _ _ h2, List.getD_eq_getElem _ _ h4] at this
      simp only [copy_sub, List.getElem_map, List.getElem_range, ex,
        add32_eq (a := i.y0) (b := y) (by omega)]
      exact this

theorem Placed.placed_w {i j : Image} (h : Placed i j) : j.w = i.w := by
  unfold Placed at h; rw [h]

theorem Placed.placed_h {i j : Image} (h : Placed i j) : j.h = i.h := by
  unfold Placed at h; rw [h]

theorem Placed.placed_p {i j : Image} (h : Placed i j) : j.p = i.p := by
  unfold Placed at h; rw [h]

/-- C5: pixel round trip.  For a page of side at most `2^30` (so that the
32-bit byte offset `x0 * 4` does not wrap; libpng's limit on image sides
ensures it), sprites between 1 and `size - padding` wide and high whose pixel
buffers have `h` rows of `4 * w` bytes: `pack` returns, and for every sprite
it marks packed, copying the sub-rectangle `(x0, y0, w, h)` out of the page
`write_png` composites, the way `read_png` does, gives a buffer equal to the
sprite's pixel buffer, which is the buffer it had before `pack`.  The copy is
given the sprite's record without its pixel buffer (`p := []`): what it
returns is read from the page. -/
theorem pixel_round_trip (st : State)
    (hpad : st.padding < st.size) (hsize : 4 * st.size ≤ 4294967296) (hfree : FreeOK st)
    (hsp : ∀ i ∈ st.images, 1 ≤ i.w ∧ i.w ≤ st.size - st.padding ∧
      1 ≤ i.h ∧ i.h ≤ st.size - st.padding)
    (hbuf : ∀ i ∈ st.images, BufferOK i) :
    ∃ st', pack st = some st' ∧
      ∀ j, (imageAt st'.images j).packed = true →
        (imageAt st'.images j).p = (imageAt st.images j).p ∧
        copy_sub (composite st') { imageAt st'.images j with p := [] }
          = (imageAt st.images j).p := by
  obtain ⟨st', h1, h2, h3, h4, h5, h6⟩ := pack_spec st (by omega) hfree (fun i hi => by
    have := hsp i hi
    omega)
  refine ⟨st', h1, fun j hj => ⟨(h6 j).placed_p, ?_⟩⟩
  rw [← (h6 j).placed_p]
  show copy_sub (composite st') (imageAt st'.images j) = (imageAt st'.images j).p
  have hfacts : ∀ k, (imageAt st'.images k).packed = true →
      1 ≤ (imageAt st'.images k).w ∧ BufferOK (imageAt st'.images k) ∧
      (imageAt st'.images k).x0 + (imageAt st'.images k).w ≤ st'.size ∧
      (imageAt st'.images k).y0 + (imageAt st'.images k).h ≤ st'.size := by
    intro k hk
    have hlt : k < st.images.length := by rw [← h5]; exact imageAt_packed_lt hk
    have hmem := imageAt_mem hlt
    have hb := hbuf _ hmem
    have hs := hsp _ hmem
    have hbox := h2.box_in k hk
    refine ⟨by rw [(h6 k).placed_w]; exact hs.1, ?_, by omega, by omega⟩
    unfold BufferOK at hb ⊢
    rw [(h6 k).placed_w, (h6 k).placed_h, (h6 k).placed_p]
    exact hb
  have hR : st'.size < 4294967296 := by omega
  have hin : ∀ k, (imageAt st'.images k).packed = true →
      (imageAt st'.images k).y0 + (imageAt st'.images k).h ≤ st'.size ∧
      4 * (imageAt st'.images k).x0 < 4294967296 := by
    intro k hk
    obtain ⟨f1, -, f3, f4⟩ := hfacts k hk
    exact ⟨f4, by omega⟩
  obtain ⟨g1, g2, g3, g4⟩ := hfacts j hj
  apply copy_sub_eq _ _ g2 (by omega) (hin j hj).2
  intro y k hy hk
  unfold composite
  rw [composite_hit st'.images j hR hin (dims_blank st'.size) _ _ (by omega) hj
    ⟨by omega, by omega, by omega, by omega⟩]
  · have e1 : (imageAt st'.images j).y0 + y - (imageAt st'.images j).y0 = y := by omega
    have e2 : 4 * (imageAt st'.images j).x0 + k - 4 * (imageAt st'.images j).x0 = k := by omega
    rw [e1, e2]
  · intro l hne hl hcov
    simp only [covers] at hcov
    refine h2.box_box j l (fun e => hne e.symm) hj hl
      ((4 * (imageAt st'.images j).x0 + k) / 4) ((imageAt st'.images j).y0 + y) ?_ ?_
    · simp only [inBox]; omega
    · simp only [inBox]; omega

theorem pixel_round_trip_witness :
    (∃ st', pack pixelExample = some st' ∧
      (imageAt st'.images 0).packed = true ∧ (imageAt st'.images 1).packed = true ∧
      composite st' = [[1, 2, 3, 4, 5, 6, 7, 8, 11, 12, 13, 14],
                       [0, 0, 0, 0, 0, 0, 0, 0, 15, 16, 17, 18],
                       [0, 0, 0, 0, 0, 0, 0, 0, 0, 0, 0, 0]]) ∧
    ∃ st', pack pixelExample = some st' ∧
      ∀ j, (imageAt st'.images j).packed = true →
        (imageAt st'.images j).p = (imageAt pixelExample.images j).p ∧
        copy_sub (composite st') { imageAt st'.images j with p := [] }
          = (imageAt pixelExample.images j).p :=
  ⟨⟨_, rfl, by decide⟩,
   pixel_round_trip pixelExample (by decide) (by decide)
    (fun f hf => by simp [pixelExample] at hf) (by decide)
    (by decide)⟩

/-! ## The auto-size driver -/

theorem mem_imageAt {l : List Image} {i : Image} (h : i ∈ l) :
    ∃ j, j < l.length ∧ imageAt l j = i := by
  induction l with
  | nil => cases h
  | cons a rest ih =>
    rcases List.mem_cons.1 h with e | h'
    · exact ⟨0, by simp, by rw [e]; rfl⟩
    · obtain ⟨j, hj, e⟩ := ih h'
      exact ⟨j + 1, by simpa using hj, e⟩

theorem all_packed_imageAt {l : List Image} (h : all_packed l = true) (j : Nat)
    (hj : j < l.length) : (imageAt l j).packed = true := by
  simp only [all_packed, List.all_eq_true] at h
  exact h _ (imageAt_mem hj)

/-- The auto-size loop from a page of side `2^k`: it leaves within `32 - k`
passes, with "too big" or with every sprite packed within a page of side a
power of two. -/
theorem auto_loop_spec (n k : Nat) (st : State) (hk : k ≤ 31) (hn : 32 ≤ n + k)
    (hsize : st.size = 2 ^ k) (hfree : FreeOK st)
    (hw : ∀ i ∈ st.images, i.w + st.padding < 4294967296 ∧ i.h + st.padding < 4294967296) :
    auto_loop n st = some AutoResult.too_big ∨
    ∃ st' m, auto_loop n st = some (AutoResult.done st') ∧ m ≤ 31 ∧ st'.size = 2 ^ m ∧
      st'.padding = st.padding ∧ st'.images.length = st.images.length ∧
      (∀ j, Placed (imageAt st.images j) (imageAt st'.images j)) ∧
      ∀ j, j < st'.images.length → (imageAt st'.images j).packed = true ∧
        (imageAt st'.images j).x0 + (imageAt st'.images j).w + st'.padding ≤ st'.size ∧
        (imageAt st'.images j).y0 + (imageAt st'.images j).h + st'.padding ≤ st'.size := by
  induction n generalizing k st with
  | zero => omega
  | succ n ih =>
    have hpow : (2 : Nat) ^ k ≤ 2 ^ 31 := Nat.pow_le_pow_right (by decide) hk
    have hlt : st.size < 4294967296 := by rw [hsize]; omega
    obtain ⟨st', h1, h2, h3, h4, h5, h6⟩ := pack_spec st hlt hfree hw
    unfold auto_loop
    rw [h1]
    simp only []
    split
    · rename_i hall
      refine Or.inr ⟨st', k, rfl, hk, by rw [h4, hsize], h3, h5, h6, fun j hj => ?_⟩
      have hp := all_packed_imageAt hall j hj
      exact ⟨hp, h2.box_in j hp⟩
    · split
      · exact Or.inl rfl
      · rename_i hbig
        have hk30 : k ≤ 30 := by
          by_contra hc
          have e : k = 31 := by omega
          rw [h4, hsize, e] at hbig
          exact hbig (by decide)
        have hpow2 : (2 : Nat) ^ (k + 1) ≤ 2 ^ 31 :=
          Nat.pow_le_pow_right (by decide) (by omega)
        have hnew : mul32 st'.size 2 = 2 ^ (k + 1) := by
          rw [h4, hsize]
          unfold mul32
          rw [← Nat.pow_succ]
          exact Nat.mod_eq_of_lt (by omega)
        have hle : st'.size ≤ mul32 st'.size 2 := by
          rw [hnew, h4, hsize, Nat.pow_succ]; omega
        rcases ih (k + 1) { st' with size := mul32 st'.size 2 } (by omega) (by omega) hnew
            (fun f hf => by
              obtain ⟨a, b, c, d⟩ := h2.free_ok f hf
              exact ⟨a, b, Nat.le_trans c hle, Nat.le_trans d hle⟩)
            (fun i hi => by
              obtain ⟨j, hj, e⟩ := mem_imageAt hi
              have hj' : j < st.images.length := by rw [← h5]; exact hj
              have := hw _ (imageAt_mem hj')
              have e' : i = imageAt st'.images j := e.symm
              rw [e', (h6 j).placed_w, (h6 j).placed_h]
              show _ + st'.padding < _ ∧ _ + st'.padding < _
              rw [h3]
              exact this) with h | ⟨s, m, g1, g2, g3, g4, g5, g6, g7⟩
        · exact Or.inl h
        · refine Or.inr ⟨s, m, g1, g2, g3, g4.trans h3, g5.trans h5,
            fun j => (h6 j).placed_trans (g6 j), g7⟩

/-- C11 as stated fails: the sprite set of `autoExampleBig` (one 1x1 sprite,
padding `2^31`) passes the load-time check of auto-size mode, yet the doubling
loop ends in `errx(1, "too big")` after the pass at side `2^31` without any
sprite packed. -/
theorem auto_driver_counterexample :
    (∀ i ∈ autoExampleBig.images, 1 ≤ i.w ∧ i.w ≤ PNG_UINT_32_MAX - autoExampleBig.padding ∧
      1 ≤ i.h ∧ i.h ≤ PNG_UINT_32_MAX - autoExampleBig.padding) ∧
    auto_driver autoExampleBig = some AutoResult.too_big := by
  decide

/-! ## The candidate scan finds a least key -/

theorem key_lt_irrefl (a : Key) : ¬ key_lt a a := by
  obtain ⟨a1, a2, a3, a4, a5⟩ := a
  cases a5 <;> simp [key_lt]

theorem key_lt_trans {a b c : Key} (h1 : key_lt a b) (h2 : key_lt b c) : key_lt a c := by
  obtain ⟨a1, a2, a3, a4, a5⟩ := a
  obtain ⟨b1, b2, b3, b4, b5⟩ := b
  obtain ⟨c1, c2, c3, c4, c5⟩ := c
  cases a5 <;> cases b5 <;> cases c5 <;> simp only [key_lt, and_true, and_false, or_false,
    Bool.false_eq_true, Bool.true_eq_false, and_self] at h1 h2 ⊢ <;> omega

theorem better_iff (c : Best) (ssf lsf x1 y1 : Nat) :
    better (some c) ssf lsf x1 y1 = true ↔
      key_lt { ssf := ssf, lsf := lsf, far_max := imax x1 y1, far_min := imin x1 y1,
               tall := decide (x1 < y1) } (best_key c) := by
  simp only [better, key_lt, best_key, Bool.or_eq_true, Bool.and_eq_true, decide_eq_true_eq,
    Bool.not_eq_true', decide_eq_false_iff_not, gt_iff_lt]
  constructor
  · intro h
    rcases h with h | ⟨e1, h | ⟨e2, h | ⟨e3, h | ⟨e4, h5, h6⟩⟩⟩⟩
    · exact Or.inl h
    · exact Or.inr ⟨e1.symm, Or.inl h⟩
    · exact Or.inr ⟨e1.symm, Or.inr ⟨e2.symm, Or.inl h⟩⟩
    · exact Or.inr ⟨e1.symm, Or.inr ⟨e2.symm, Or.inr ⟨e3.symm, Or.inl h⟩⟩⟩
    · exact Or.inr ⟨e1.symm, Or.inr ⟨e2.symm, Or.inr ⟨e3.symm, Or.inr ⟨e4.symm, h6, h5⟩⟩⟩⟩
  · intro h
    rcases h with h | ⟨e1, h | ⟨e2, h | ⟨e3, h | ⟨e4, h5, h6⟩⟩⟩⟩
    · exact Or.inl h
    · exact Or.inr ⟨e1.symm, Or.inl h⟩
    · exact Or.inr ⟨e1.symm, Or.inr ⟨e2.symm, Or.inl h⟩⟩
    · exact Or.inr ⟨e1.symm, Or.inr ⟨e2.symm, Or.inr ⟨e3.symm, Or.inl h⟩⟩⟩
    · exact Or.inr ⟨e1.symm, Or.inr ⟨e2.symm, Or.inr ⟨e3.symm, Or.inr ⟨e4.symm, h6, h5⟩⟩⟩⟩

theorem MinKey.congr_keys {best : Option Best} {S T : Key → Prop} (h : ∀ k, S k ↔ T k)
    (hm : MinKey best S) : MinKey best T := by
  cases best with
  | none => exact fun k hk => hm k ((h k).2 hk)
  | some c => exact ⟨(h _).1 hm.1, fun k hk => hm.2 k ((h k).2 hk)⟩

/-- Offering one more candidate key to the replacement test keeps the best
candidate least. -/
theorem MinKey.offer {best : Option Best} {S : Key → Prop} (hm : MinKey best S)
    (pos ssf lsf x1 y1 : Nat) :
    MinKey
      (if better best ssf lsf x1 y1 then
        some { b := pos, bssf := ssf, blsf := lsf, bx1 := x1, by1 := y1 } else best)
      (fun k => S k ∨ k = { ssf := ssf, lsf := lsf, far_max := imax x1 y1,
                            far_min := imin x1 y1, tall := decide (x1 < y1) }) := by
  cases best with
  | none =>
    simp only [better, if_true]
    refine ⟨Or.inr rfl, fun k hk => ?_⟩
    rcases hk with hk | hk
    · exact absurd hk (hm k)
    · rw [hk]; exact key_lt_irrefl _
  | some c =>
    by_cases hb : better (some c) ssf lsf x1 y1 = true
    · rw [if_pos hb]
      have hlt := (better_iff c ssf lsf x1 y1).1 hb
      refine ⟨Or.inr rfl, fun k hk => ?_⟩
      rcases hk with hk | hk
      · exact fun h => hm.2 k hk (key_lt_trans h hlt)
      · rw [hk]; exact key_lt_irrefl _
    · rw [if_neg hb]
      refine ⟨Or.inl hm.1, fun k hk => ?_⟩
      rcases hk with hk | hk
      · exact hm.2 k hk
      · rw [hk]; exact fun h => hb ((better_iff c ssf lsf x1 y1).2 h)
theorem scan_rects_min (padding k w h : Nat) (fs : List Rect) (i : Image) (best : Option Best)
    (S : Key → Prop) (hw : i.w = w) (hh : i.h = h) (hm : MinKey best S) :
    MinKey (scan_rects padding k i best fs).2
      (fun key => S key ∨ ∃ f ∈ fs, fits32 padding w h f ∧ key = cand_key padding w h f) := by
  induction fs generalizing i best S with
  | nil =>
    exact hm.congr_keys (fun key => ⟨Or.inl, fun hk => by
      rcases hk with hk | ⟨f, hf, -⟩
      · exact hk
      · cases hf⟩)
  | cons f fs ih =>
    subst hw hh
    unfold scan_rects
    split
    · rename_i hno
      refine (ih i best S rfl rfl hm).congr_keys (fun key => ⟨fun hk => ?_, fun hk => ?_⟩)
      · rcases hk with hk | ⟨g, hg, h1, h2⟩
        · exact Or.inl hk
        · exact Or.inr ⟨g, List.mem_cons_of_mem _ hg, h1, h2⟩
      · rcases hk with hk | ⟨g, hg, h1, h2⟩
        · exact Or.inl hk
        · rcases List.mem_cons.1 hg with e | hg'
          · rw [e] at h1; exact absurd hno h1
          · exact Or.inr ⟨g, hg', h1, h2⟩
    · rename_i hfit
      have hoff := hm.offer k
        (imin (sub32 f.x1 (add32 (add32 f.x0 i.w) padding))
          (sub32 f.y1 (add32 (add32 f.y0 i.h) padding)))
        (imax (sub32 f.x1 (add32 (add32 f.x0 i.w) padding))
          (sub32 f.y1 (add32 (add32 f.y0 i.h) padding)))
        (add32 (add32 f.x0 i.w) padding) (add32 (add32 f.y0 i.h) padding)
      have hcongr : ∀ key : Key,
          ((S key ∨ key = cand_key padding i.w i.h f) ∨
            ∃ g ∈ fs, fits32 padding i.w i.h g ∧ key = cand_key padding i.w i.h g) ↔
          (S key ∨ ∃ g ∈ f :: fs, fits32 padding i.w i.h g ∧
            key = cand_key padding i.w i.h g) := by
        intro key
        constructor
        · intro hk
          rcases hk with (hk | hk) | ⟨g, hg, h1, h2⟩
          · exact Or.inl hk
          · exact Or.inr ⟨f, List.mem_cons_self _ _, hfit, hk⟩
          · exact Or.inr ⟨g, List.mem_cons_of_mem _ hg, h1, h2⟩
        · intro hk
          rcases hk with hk | ⟨g, hg, h1, h2⟩
          · exact Or.inl (Or.inl hk)
          · rcases List.mem_cons.1 hg with e | hg'
            · rw [e] at h2; exact Or.inl (Or.inr h2)
            · exact Or.inr ⟨g, hg', h1, h2⟩
      simp only []
      split
      · rename_i hb
        rw [if_pos hb] at hoff
        exact (ih { i with x0 := f.x0, y0 := f.y0 } _ _ rfl rfl hoff).congr_keys hcongr
      · rename_i hb
        rw [if_neg hb] at hoff
        exact (ih i _ _ rfl rfl hoff).congr_keys hcongr

theorem scan_images_min (padding : Nat) (fr : List Rect) (k : Nat) (l : List Image)
    (best : Option Best) (S : Key → Prop) (hm : MinKey best S) :
    MinKey (scan_images padding fr k l best).2
      (fun key => S key ∨ ∃ i ∈ l, i.packed = false ∧ ∃ f ∈ fr,
        fits32 padding i.w i.h f ∧ key = cand_key padding i.w i.h f) := by
  induction l generalizing k best S with
  | nil =>
    exact hm.congr_keys (fun key => ⟨Or.inl, fun hk => by
      rcases hk with hk | ⟨i, hi, -⟩
      · exact hk
      · cases hi⟩)
  | cons a rest ih =>
    unfold scan_images
    split
    · rename_i hp
      refine (ih (k + 1) best S hm).congr_keys (fun key => ⟨fun hk => ?_, fun hk => ?_⟩)
      · rcases hk with hk | ⟨i, hi, h1, h2⟩
        · exact Or.inl hk
        · exact Or.inr ⟨i, List.mem_cons_of_mem _ hi, h1, h2⟩
      · rcases hk with hk | ⟨i, hi, h1, h2⟩
        · exact Or.inl hk
        · rcases List.mem_cons.1 hi with e | hi'
          · rw [e, hp] at h1; cases h1
          · exact Or.inr ⟨i, hi', h1, h2⟩
    · rename_i hp
      have hp' : a.packed = false := by simpa using hp
      have h1 := scan_rects_min padding k a.w a.h fr a best S rfl rfl hm
      refine (ih (k + 1) _ _ h1).congr_keys (fun key => ⟨fun hk => ?_, fun hk => ?_⟩)
      · rcases hk with (hk | ⟨f, hf, h2, h3⟩) | ⟨i, hi, h2, h3⟩
        · exact Or.inl hk
        · exact Or.inr ⟨a, List.mem_cons_self _ _, hp', f, hf, h2, h3⟩
        · exact Or.inr ⟨i, List.mem_cons_of_mem _ hi, h2, h3⟩
      · rcases hk with hk | ⟨i, hi, h2, h3⟩
        · exact Or.inl (Or.inl hk)
        · rcases List.mem_cons.1 hi with e | hi'
          · rw [e] at h2 h3
            obtain ⟨f, hf, h4, h5⟩ := h3
            exact Or.inl (Or.inr ⟨f, hf, h4, h5⟩)
          · exact Or.inr ⟨i, hi', h2, h3⟩

/-- When the scan of `pack` ends without a candidate, no image that is not
packed passes the size test with any free rectangle. -/
theorem scan_none_no_fit {padding : Nat} {fr : List Rect} {l : List Image}
    (h : (scan_images padding fr 0 l none).2 = none) :
    ∀ i ∈ l, i.packed = false → ∀ f ∈ fr, ¬ fits32 padding i.w i.h f := by
  have hm := scan_images_min padding fr 0 l none (fun _ => False) (fun _ hk => hk)
  rw [h] at hm
  intro i hi hp f hf hfit
  exact hm (cand_key padding i.w i.h f) (Or.inr ⟨i, hi, hp, f, hf, hfit, rfl⟩)

/-- When the scan of `pack` ends with a candidate, no pair passing the size
test has a smaller key. -/
theorem scan_some_min {padding : Nat} {fr : List Rect} {l : List Image} {c : Best}
    (h : (scan_images padding fr 0 l none).2 = some c) :
    ∀ i ∈ l, i.packed = false → ∀ f ∈ fr, fits32 padding i.w i.h f →
      ¬ key_lt (cand_key padding i.w i.h f) (best_key c) := by
  have hm := scan_images_min padding fr 0 l none (fun _ => False) (fun _ hk => hk)
  rw [h] at hm
  intro i hi hp f hf hfit
  exact hm.2 _ (Or.inr ⟨i, hi, hp, f, hf, hfit, rfl⟩)

/-! ## Progress of `pack` and termination of the fixed-size driver -/

theorem add_rect_scan_inside {x0 y0 x1 y1 : Nat} {fr : List Rect}
    (h : (add_rect_scan x0 y0 x1 y1 fr).2 = false) :
    ∃ f ∈ (add_rect_scan x0 y0 x1 y1 fr).1,
      x0 ≥ f.x0 ∧ x1 ≤ f.x1 ∧ y0 ≥ f.y0 ∧ y1 ≤ f.y1 := by
  induction fr with
  | nil => simp [add_rect_scan] at h
  | cons f rest ih =>
    unfold add_rect_scan at h ⊢
    split
    · rename_i hc
      exact ⟨f, List.mem_cons_self _ _, hc⟩
    · rename_i hc
      rw [if_neg hc] at h
      split
      · rename_i hd
        rw [if_pos hd] at h
        exact ih h
      · rename_i hd
        rw [if_neg hd] at h
        obtain ⟨g, hg, hin⟩ := ih h
        exact ⟨g, List.mem_cons_of_mem _ hg, hin⟩

/-- After lines 456-458 the free list holds the whole page, when the page is
large enough for the smallest sprite and the earlier free rectangles lie
within the page. -/
theorem pack_init_full {st : State} (hsize : st.size < 4294967296) (hfree : FreeOK st)
    (hmw : st.min_w + st.padding ≤ st.size) (hmh : st.min_h + st.padding ≤ st.size) :
    ({ x0 := 0, y0 := 0, x1 := st.size, y1 := st.size } : Rect) ∈ (pack_init st).free_rects := by
  have e1 : sub32 st.size 0 = st.size := sub32_eq (Nat.zero_le _) hsize
  have e2 : add32 st.min_w st.padding = st.min_w + st.padding := add32_eq (by omega)
  have e3 : add32 st.min_h st.padding = st.min_h + st.padding := add32_eq (by omega)
  show _ ∈ add_rect st.min_w st.min_h st.padding st.free_rects 0 0 st.size st.size
  unfold add_rect
  rw [if_neg (by rw [e1, e2, e3]; omega)]
  split
  · exact List.mem_cons_self _ _
  · rename_i hflag
    obtain ⟨f, hf, h1, h2, h3, h4⟩ := add_rect_scan_inside (by simpa using hflag)
    obtain ⟨-, -, h5, h6⟩ := hfree f (add_rect_scan_mem hf)
    have e : f = { x0 := 0, y0 := 0, x1 := st.size, y1 := st.size } := by
      obtain ⟨a, b, c, d⟩ := f
      simp only [Rect.mk.injEq] at *
      omega
    rw [← e]
    exact hf

theorem pack_loop_mono (n : Nat) (st st' : State) (h : pack_loop n st = some st') (j : Nat)
    (hj : (imageAt st.images j).packed = true) : (imageAt st'.images j).packed = true := by
  induction n generalizing st with
  | zero => simp [pack_loop] at h
  | succ n ih =>
    have hs := scan_images_same st.padding st.free_rects 0 st.images none j
    have hj1 : (imageAt (scan_images st.padding st.free_rects 0 st.images none).1 j).packed
        = true := by rw [hs.2 hj]; exact hj
    unfold pack_loop at h
    cases hc : (scan_images st.padding st.free_rects 0 st.images none).2 with
    | none =>
      simp only [hc, Option.some.injEq] at h
      rw [← h]
      exact hj1
    | some c =>
      simp only [hc] at h
      apply ih _ h
      show (imageAt (set_packed c.b _) j).packed = true
      by_cases e : j = c.b
      · have hlt : c.b < (scan_images st.padding st.free_rects 0 st.images none).1.length := by
          rw [← e]; exact imageAt_packed_lt hj1
        rw [e, imageAt_set_packed_self hlt]
      · rw [imageAt_set_packed_ne e]; exact hj1

theorem pack_loop_globals (n : Nat) (st st' : State) (h : pack_loop n st = some st') :
    st'.min_w = st.min_w ∧ st'.min_h = st.min_h := by
  induction n generalizing st with
  | zero => simp [pack_loop] at h
  | succ n ih =>
    unfold pack_loop at h
    cases hc : (scan_images st.padding st.free_rects 0 st.images none).2 with
    | none =>
      simp only [hc, Option.some.injEq] at h
      rw [← h]
      exact ⟨rfl, rfl⟩
    | some c =>
      simp only [hc] at h
      exact ih (commit st (scan_images st.padding st.free_rects 0 st.images none).1 c) h

/-- Source: `pack` marks at least one image packed when the list is not empty,
every sprite fits the page with its padding, and the page holds the smallest
sprite recorded in `min_w`, `min_h`. -/
theorem pack_progress (st : State) (hne : st.images ≠ [])
    (hsize : st.size < 4294967296) (hfree : FreeOK st)
    (hmw : st.min_w + st.padding ≤ st.size) (hmh : st.min_h + st.padding ≤ st.size)
    (hsp : ∀ i ∈ st.images, i.w + st.padding ≤ st.size ∧ i.h + st.padding ≤ st.size) :
    ∃ st', pack st = some st' ∧ ∃ j, j < st'.images.length ∧
      (imageAt st'.images j).packed = true := by
  have hw : ∀ i ∈ st.images, i.w + st.padding < 4294967296 ∧ i.h + st.padding < 4294967296 :=
    fun i hi => by have := hsp i hi; omega
  obtain ⟨st', h1, -, -, -, h5, -⟩ := pack_spec st hsize hfree hw
  refine ⟨st', h1, ?_⟩
  have hfull := pack_init_full hsize hfree hmw hmh
  unfold pack at h1
  unfold pack_loop at h1
  cases hc : (scan_images (pack_init st).padding (pack_init st).free_rects 0
      (pack_init st).images none).2 with
  | none =>
    exfalso
    obtain ⟨a, rest, e⟩ := List.exists_cons_of_ne_nil hne
    have ha : a ∈ st.images := by rw [e]; exact List.mem_cons_self _ _
    have hmem : ({ a with packed := false } : Image) ∈ (pack_init st).images :=
      List.mem_map.2 ⟨a, ha, rfl⟩
    refine scan_none_no_fit hc _ hmem rfl _ hfull ?_
    have := hsp a ha
    show ¬ (sub32 st.size 0 < add32 a.w st.padding ∨ sub32 st.size 0 < add32 a.h st.padding)
    rw [sub32_eq (Nat.zero_le _) hsize, add32_eq (by omega), add32_eq (by omega)]
    omega
  | some c =>
    simp only [hc] at h1
    rcases scan_images_best (pack_init st).padding (pack_init st).free_rects 0
        (pack_init st).images none with h | ⟨c', hc', -, hb, -, -⟩
    · rw [hc] at h; cases h
    · rw [hc] at hc'
      cases hc'
      have hl := scan_images_length (pack_init st).padding (pack_init st).free_rects 0
        (pack_init st).images none
      have hb' : c.b < (scan_images (pack_init st).padding (pack_init st).free_rects 0
          (pack_init st).images none).1.length := by omega
      refine ⟨c.b, ?_, pack_loop_mono _ _ _ h1 c.b ?_⟩
      · rw [h5]
        have : (pack_init st).images.length = st.images.length := by
          simp only [pack_init, List.length_map]
        omega
      · show (imageAt (set_packed c.b _) c.b).packed = true
        rw [imageAt_set_packed_self hb']
/-- The page loop of the fixed-size driver: with more passes allowed than
images, it ends, and every page it writes holds at least one image. -/
theorem fixed_loop_spec (n : Nat) (st : State) (hn : st.images.length < n)
    (hsize : st.size < 4294967296) (hfree : FreeOK st)
    (hmw : st.min_w + st.padding ≤ st.size) (hmh : st.min_h + st.padding ≤ st.size)
    (hsp : ∀ i ∈ st.images, i.w + st.padding ≤ st.size ∧ i.h + st.padding ≤ st.size) :
    ∃ pages, fixed_loop n st = some pages ∧ pages.length ≤ st.images.length ∧
      ∀ pg ∈ pages, pg ≠ [] := by
  induction n generalizing st with
  | zero => omega
  | succ n ih =>
    unfold fixed_loop
    by_cases hemp : st.images.isEmpty = true
    · rw [if_pos hemp]
      exact ⟨[], rfl, Nat.zero_le _, fun pg hpg => by cases hpg⟩
    · rw [if_neg hemp]
      have hne : st.images ≠ [] := fun e => hemp (by rw [e]; rfl)
      have hw : ∀ i ∈ st.images,
          i.w + st.padding < 4294967296 ∧ i.h + st.padding < 4294967296 :=
        fun i hi => by have := hsp i hi; omega
      obtain ⟨st', h1, h2, h3, h4, h5, h6⟩ := pack_spec st hsize hfree hw
      obtain ⟨st2, g1, j, hj, hpj⟩ := pack_progress st hne hsize hfree hmw hmh hsp
      rw [h1] at g1
      cases g1
      obtain ⟨m1, m2⟩ := pack_loop_globals _ _ _ h1
      have m1' : st'.min_w = st.min_w := m1
      have m2' : st'.min_h = st.min_h := m2
      have hpk : imageAt st'.images j ∈ st'.images := imageAt_mem hj
      have hlen : (free_packed st'.images).length < st'.images.length := by
        unfold free_packed
        rw [List.length_filter_lt_length_iff_exists]
        exact ⟨_, hpk, by simp [hpj]⟩
      obtain ⟨pages, p1, p2, p3⟩ := ih { st' with images := free_packed st'.images }
        (by show (free_packed st'.images).length < n; omega)
        (by show st'.size < _; rw [h4]; exact hsize)
        (fun f hf => h2.free_ok f hf)
        (by show st'.min_w + st'.padding ≤ st'.size; rw [m1', h3, h4]; exact hmw)
        (by show st'.min_h + st'.padding ≤ st'.size; rw [m2', h3, h4]; exact hmh)
        (fun i hi => by
          have hi' : i ∈ st'.images := (List.mem_filter.1 hi).1
          obtain ⟨k, hk, e⟩ := mem_imageAt hi'
          have hk' : k < st.images.length := by rw [← h5]; exact hk
          have := hsp _ (imageAt_mem hk')
          show i.w + st'.padding ≤ st'.size ∧ i.h + st'.padding ≤ st'.size
          rw [← e, (h6 k).placed_w, (h6 k).placed_h, h3, h4]
          exact this)
      rw [h1]
      refine ⟨page_images st'.images :: pages, by simp only [p1, Option.map_some'], ?_, ?_⟩
      · have e : ({ st' with images := free_packed st'.images } : State).images.length
            = (free_packed st'.images).length := rfl
        simp only [List.length_cons]
        omega
      · intro pg hpg
        rcases List.mem_cons.1 hpg with e | hpg'
        · rw [e]
          intro hnil
          have : imageAt st'.images j ∈ page_images st'.images :=
            List.mem_filter.2 ⟨hpk, hpj⟩
          rw [hnil] at this
          cases this
        · exact p3 pg hpg'

/-- C12: fixed-size progress.  When the image list is not empty and every
sprite satisfies `w ≤ size - padding` and `h ≤ size - padding` (and so do the
running minima `min_w`, `min_h`, which the same load-time check bounds), a
call of `pack` returns with at least one sprite marked packed; and the page
loop of the fixed-size driver terminates, writing at most as many pages as
there are sprites, each holding at least one sprite. -/
theorem fixed_size_progress (st : State) (hne : st.images ≠ [])
    (hpad : st.padding < st.size) (hsize : st.size ≤ PNG_UINT_32_MAX) (hfree : FreeOK st)
    (hmin : st.min_w ≤ st.size - st.padding ∧ st.min_h ≤ st.size - st.padding)
    (hsp : ∀ i ∈ st.images, i.w ≤ st.size - st.padding ∧ i.h ≤ st.size - st.padding) :
    (∃ st', pack st = some st' ∧ ∃ j, j < st'.images.length ∧
      (imageAt st'.images j).packed = true) ∧
    ∃ pages, fixed_driver st = some pages ∧ pages.length ≤ st.images.length ∧
      ∀ pg ∈ pages, pg ≠ [] := by
  unfold PNG_UINT_32_MAX at hsize
  have hsp' : ∀ i ∈ st.images, i.w + st.padding ≤ st.size ∧ i.h + st.padding ≤ st.size :=
    fun i hi => by have := hsp i hi; omega
  exact ⟨pack_progress st hne (by omega) hfree (by omega) (by omega) hsp',
    fixed_loop_spec _ st (Nat.lt_succ_self _) (by omega) hfree (by omega) (by omega) hsp'⟩

theorem fixed_size_progress_witness :
    (∃ st', pack fixedExample = some st' ∧ ∃ j, j < st'.images.length ∧
      (imageAt st'.images j).packed = true) ∧
    ∃ pages, fixed_driver fixedExample = some pages ∧
      pages.length ≤ fixedExample.images.length ∧ ∀ pg ∈ pages, pg ≠ [] :=
  fixed_size_progress fixedExample (by decide) (by decide) (by decide)
    (fun f hf => by simp [fixedExample] at hf) (by decide) (by decide)

/-! ## The free rectangles cover every placeable rectangle -/

theorem contained_trans {a b c : Rect} (h1 : contained a b) (h2 : contained b c) :
    contained a c := by
  simp only [contained] at *
  omega

/-- A member of the free list stays, or lies within the candidate. -/
theorem add_rect_scan_keep {x0 y0 x1 y1 : Nat} {fr : List Rect} {f : Rect} (hf : f ∈ fr) :
    f ∈ (add_rect_scan x0 y0 x1 y1 fr).1 ∨
      contained f { x0 := x0, y0 := y0, x1 := x1, y1 := y1 } := by
  induction fr with
  | nil => cases hf
  | cons g rest ih =>
    unfold add_rect_scan
    split
    · exact Or.inl hf
    · split
      · rename_i hd
        rcases List.mem_cons.1 hf with e | hf'
        · rw [e]; exact Or.inr ⟨hd.1, hd.2.1, hd.2.2.1, hd.2.2.2⟩
        · exact ih hf'
      · rcases List.mem_cons.1 hf with e | hf'
        · rw [e]; exact Or.inl (List.mem_cons_self _ _)
        · rcases ih hf' with h | h
          · exact Or.inl (List.mem_cons_of_mem _ h)
          · exact Or.inr h

/-- What lay within a member of the free list still does after `add_rect`. -/
theorem add_rect_cover_old {mw mh pad x0 y0 x1 y1 : Nat} {fr : List Rect} {r : Rect}
    (h : ∃ f ∈ fr, contained r f) :
    ∃ f ∈ add_rect mw mh pad fr x0 y0 x1 y1, contained r f := by
  obtain ⟨f, hf, hr⟩ := h
  unfold add_rect
  split
  · exact ⟨f, hf, hr⟩
  · rcases @add_rect_scan_keep x0 y0 x1 y1 _ _ hf with hk | hk
    · split
      · exact ⟨f, List.mem_cons_of_mem _ hk, hr⟩
      · exact ⟨f, hk, hr⟩
    · split
      · exact ⟨_, List.mem_cons_self _ _, contained_trans hr hk⟩
      · rename_i hflag
        obtain ⟨g, hg, hin⟩ := add_rect_scan_inside (by simpa using hflag)
        exact ⟨g, hg, contained_trans (contained_trans hr hk) ⟨hin.1, hin.2.1, hin.2.2.1,
          hin.2.2.2⟩⟩

/-- A rectangle large enough for the smallest sprite that lies within the
candidate lies within a member of the free list after `add_rect`. -/
theorem add_rect_cover_new {mw mh pad x0 y0 x1 y1 : Nat} {fr : List Rect} {r : Rect}
    (hmw : mw + pad < 4294967296) (hmh : mh + pad < 4294967296)
    (hx : x1 < 4294967296) (hy : y1 < 4294967296)
    (hrw : r.x0 + (mw + pad) ≤ r.x1) (hrh : r.y0 + (mh + pad) ≤ r.y1)
    (hin : contained r { x0 := x0, y0 := y0, x1 := x1, y1 := y1 }) :
    ∃ f ∈ add_rect mw mh pad fr x0 y0 x1 y1, contained r f := by
  simp only [contained] at hin
  unfold add_rect
  rw [if_neg (by
    rw [add32_eq hmw, add32_eq hmh, sub32_eq (by omega) hx, sub32_eq (by omega) hy]
    omega)]
  split
  · exact ⟨_, List.mem_cons_self _ _, hin⟩
  · rename_i hflag
    obtain ⟨g, hg, h1, h2, h3, h4⟩ := add_rect_scan_inside (by simpa using hflag)
    refine ⟨g, hg, ?_⟩
    simp only [contained]
    omega

/-- The rebuild of the free list after a placement with padded box
`[bx0, bx1) x [by0, by1)`: a rectangle large enough for the smallest sprite
that lay within an old free rectangle and is apart from the box lies within a
new free rectangle. -/
theorem split_rects_cover {mw mh pad bx1 by1 bx0 by0 : Nat} {r : Rect}
    (hmw : mw + pad < 4294967296) (hmh : mh + pad < 4294967296)
    (hrw : r.x0 + (mw + pad) ≤ r.x1) (hrh : r.y0 + (mh + pad) ≤ r.y1)
    (hap : r.x1 ≤ bx0 ∨ bx1 ≤ r.x0 ∨ r.y1 ≤ by0 ∨ by1 ≤ r.y0)
    (old acc : List Rect) (hold : ∀ f ∈ old, f.x1 < 4294967296 ∧ f.y1 < 4294967296)
    (h : (∃ f ∈ acc, contained r f) ∨ ∃ f ∈ old, contained r f) :
    ∃ f ∈ split_rects mw mh pad bx1 by1 bx0 by0 old acc, contained r f := by
  induction old generalizing acc with
  | nil =>
    rcases h with h | ⟨f, hf, -⟩
    · exact h
    · cases hf
  | cons f fs ih =>
    simp only [split_rects]
    apply ih _ (fun g hg => hold g (List.mem_cons_of_mem _ hg))
    rcases h with h | ⟨g, hg, hr⟩
    · exact Or.inl (add_rect_cover_old (add_rect_cover_old (add_rect_cover_old
        (add_rect_cover_old h))))
    · rcases List.mem_cons.1 hg with e | hg'
      · subst e
        obtain ⟨hfx, hfy⟩ := hold g (List.mem_cons_self _ _)
        have hr' := hr
        simp only [contained] at hr'
        left
        rcases hap with h1 | h2 | h3 | h4
        · exact add_rect_cover_old (add_rect_cover_new hmw hmh
            (by rw [imin_eq]; omega) hfy hrw hrh
            (by simp only [contained, imin_eq]; omega))
        · exact add_rect_cover_old (add_rect_cover_old (add_rect_cover_old
            (add_rect_cover_new hmw hmh hfx hfy hrw hrh
              (by simp only [contained, imax_eq]; omega))))
        · exact add_rect_cover_new hmw hmh hfx
            (by rw [imin_eq]; omega) hrw hrh
            (by simp only [contained, imin_eq]; omega)
        · exact add_rect_cover_old (add_rect_cover_old
            (add_rect_cover_new hmw hmh hfx hfy hrw hrh
              (by simp only [contained, imax_eq]; omega)))
      · exact Or.inr ⟨g, hg', hr⟩

/-- Induction over the loop of `pack`: a property kept by every commit holds
when the loop leaves, in the form the exit step gives it. -/
theorem pack_loop_induct (Q Qf : State → Prop)
    (hexit : ∀ st, PackInv st → Q st →
      (scan_images st.padding st.free_rects 0 st.images none).2 = none →
      Qf { st with images := (scan_images st.padding st.free_rects 0 st.images none).1 })
    (hstep : ∀ st c, PackInv st → Q st →
      (scan_images st.padding st.free_rects 0 st.images none).2 = some c →
      c.b < (scan_images st.padding st.free_rects 0 st.images none).1.length →
      (imageAt (scan_images st.padding st.free_rects 0 st.images none).1 c.b).packed = false →
      Good st.padding st.free_rects
        (imageAt (scan_images st.padding st.free_rects 0 st.images none).1 c.b) c →
      Q (commit st (scan_images st.padding st.free_rects 0 st.images none).1 c))
    (n : Nat) (st st' : State) (hinv : PackInv st) (hq : Q st)
    (h : pack_loop n st = some st') : Qf st' := by
  induction n generalizing st with
  | zero => simp [pack_loop] at h
  | succ n ih =>
    unfold pack_loop at h
    have hl := scan_images_length st.padding st.free_rects 0 st.images none
    cases hc : (scan_images st.padding st.free_rects 0 st.images none).2 with
    | none =>
      simp only [hc, Option.some.injEq] at h
      rw [← h]
      exact hexit st hinv hq hc
    | some c =>
      simp only [hc] at h
      rcases scan_images_best st.padding st.free_rects 0 st.images none with hb | hb
      · rw [hc] at hb; cases hb
      · obtain ⟨c', hc', -, hb, hun, hgood⟩ := hb
        rw [hc] at hc'
        cases hc'
        have hb' : c.b < (scan_images st.padding st.free_rects 0 st.images none).1.length := by
          omega
        have hinv2 : PackInv (commit st
            (scan_images st.padding st.free_rects 0 st.images none).1 c) :=
          packInv_commit (packInv_scan hinv) hb' hgood
        exact ih _ hinv2 (hstep st c hinv hq hc hb' hun hgood) h

theorem cover_init {st : State} (hsize : st.size < 4294967296) (hfree : FreeOK st)
    (hmw : st.min_w + st.padding < 4294967296) (hmh : st.min_h + st.padding < 4294967296) :
    Cover (pack_init st) := by
  refine ⟨hmw, hmh, fun r hr => ?_⟩
  obtain ⟨h1, h2, h3, h4, -⟩ := hr
  have h1' : r.x0 + (st.min_w + st.padding) ≤ r.x1 := h1
  have h2' : r.y0 + (st.min_h + st.padding) ≤ r.y1 := h2
  have h3' : r.x1 ≤ st.size := h3
  have h4' : r.y1 ≤ st.size := h4
  exact ⟨_, pack_init_full hsize hfree (by omega) (by omega), by
    simp only [contained]; omega⟩

theorem cover_scan {st : State} (hq : Cover st) :
    Cover { st with images := (scan_images st.padding st.free_rects 0 st.images none).1 } := by
  obtain ⟨hmw, hmh, hcov⟩ := hq
  refine ⟨hmw, hmh, fun r hr => ?_⟩
  obtain ⟨h1, h2, h3, h4, h5⟩ := hr
  apply hcov r
  refine ⟨h1, h2, h3, h4, fun j hj => ?_⟩
  have hs := scan_images_same st.padding st.free_rects 0 st.images none j
  have := h5 j (by
    show (imageAt (scan_images st.padding st.free_rects 0 st.images none).1 j).packed = true
    rw [hs.2 hj]; exact hj)
  have e : imageAt (scan_images st.padding st.free_rects 0 st.images none).1 j
      = imageAt st.images j := hs.2 hj
  have this' : apart st.padding r
      (imageAt (scan_images st.padding st.free_rects 0 st.images none).1 j) := this
  rw [e] at this'
  exact this'

theorem cover_commit {st : State} (hinv : PackInv st) (hq : Cover st) {c : Best}
    (hb : c.b < st.images.length)
    (hgood : Good st.padding st.free_rects (imageAt st.images c.b) c) :
    Cover (commit st st.images c) := by
  obtain ⟨hmw, hmh, hcov⟩ := hq
  refine ⟨hmw, hmh, fun r hr => ?_⟩
  obtain ⟨h1, h2, h3, h4, h5⟩ := hr
  have h1' : r.x0 + (st.min_w + st.padding) ≤ r.x1 := h1
  have h2' : r.y0 + (st.min_h + st.padding) ≤ r.y1 := h2
  obtain ⟨f, hf, hfit, hx0, hy0, hbx1, hby1, -, -⟩ := hgood
  obtain ⟨hfx, hfy, hfx1, hfy1⟩ := hinv.free_ok f hf
  have hsz := hinv.size_lt
  obtain ⟨hw, hh⟩ := hinv.no_wrap c.b hb
  rw [add32_eq hw, add32_eq hh, sub32_eq hfx (by omega), sub32_eq hfy (by omega)] at hfit
  have hbx : c.bx1 = (imageAt st.images c.b).x0 + (imageAt st.images c.b).w + st.padding := by
    have e : add32 f.x0 (imageAt st.images c.b).w = f.x0 + (imageAt st.images c.b).w :=
      add32_eq (by omega)
    rw [hbx1, e, add32_eq (by omega), hx0]
  have hby : c.by1 = (imageAt st.images c.b).y0 + (imageAt st.images c.b).h + st.padding := by
    have e : add32 f.y0 (imageAt st.images c.b).h = f.y0 + (imageAt st.images c.b).h :=
      add32_eq (by omega)
    rw [hby1, e, add32_eq (by omega), hy0]
  have hnew := h5 c.b (by
    show (imageAt (set_packed c.b st.images) c.b).packed = true
    rw [imageAt_set_packed_self hb])
  have hnew' : apart st.padding r (imageAt (set_packed c.b st.images) c.b) := hnew
  rw [imageAt_set_packed_self hb] at hnew'
  have hnew2 : apart st.padding r (imageAt st.images c.b) := hnew'
  simp only [apart] at hnew2
  have hold : ∃ g ∈ st.free_rects, contained r g := by
    apply hcov r
    refine ⟨h1, h2, h3, h4, fun j hj => ?_⟩
    by_cases hne : j = c.b
    · rw [hne]; exact hnew'
    · have := h5 j (by
        show (imageAt (set_packed c.b st.images) j).packed = true
        rw [imageAt_set_packed_ne hne]; exact hj)
      have this' : apart st.padding r (imageAt (set_packed c.b st.images) j) := this
      rw [imageAt_set_packed_ne hne] at this'
      exact this'
  exact split_rects_cover hmw hmh h1' h2' (by omega) st.free_rects []
    (fun g hg => by have := hinv.free_ok g hg; simp only [RectOK] at this; omega)
    (Or.inr hold)

/-- Source: `pack` returns with the packing invariant, with every placeable
rectangle inside a free rectangle, and with no unpacked image fitting a free
rectangle; it changes only origins, packed flags and the free list. -/
theorem pack_cover (st : State) (hsize : st.size < 4294967296) (hfree : FreeOK st)
    (hw : ∀ i ∈ st.images, i.w + st.padding < 4294967296 ∧ i.h + st.padding < 4294967296)
    (hmw : st.min_w + st.padding < 4294967296) (hmh : st.min_h + st.padding < 4294967296) :
    ∃ st', pack st = some st' ∧ PackInv st' ∧ Cover st' ∧ NoFit st' ∧
      st'.padding = st.padding ∧ st'.size = st.size ∧
      st'.min_w = st.min_w ∧ st'.min_h = st.min_h ∧
      st'.images.length = st.images.length ∧
      ∀ j, Placed (imageAt st.images j) (imageAt st'.images j) := by
  obtain ⟨st', h1, h2, h3, h4, h5, h6⟩ := pack_spec st hsize hfree hw
  obtain ⟨m1, m2⟩ := pack_loop_globals _ _ _ h1
  have hcn : Cover st' ∧ NoFit st' := by
    refine pack_loop_induct Cover (fun s => Cover s ∧ NoFit s) ?_ ?_ _ _ _
      (packInv_init hsize hfree hw) (cover_init hsize hfree hmw hmh) h1
    · intro s _ hq hc
      refine ⟨cover_scan hq, fun i hi hp f hf => ?_⟩
      obtain ⟨j, hj, e⟩ := mem_imageAt hi
      have hl := scan_images_length s.padding s.free_rects 0 s.images none
      have hs := (scan_images_same s.padding s.free_rects 0 s.images none j).1
      have hj' : j < s.images.length := by rw [← hl]; exact hj
      have e' : imageAt (scan_images s.padding s.free_rects 0 s.images none).1 j = i := e
      rw [e'] at hs
      rw [hs.same_w, hs.same_h]
      exact scan_none_no_fit hc _ (imageAt_mem hj') (by rw [← hs.same_packed]; exact hp) f hf
    · intro s c hinv hq _ hb _ hgood
      exact cover_commit (packInv_scan hinv) (cover_scan hq) hb hgood
  exact ⟨st', h1, h2, hcn.1, hcn.2, h3, h4, m1, m2, h5, h6⟩

theorem apart_of_disjoint {pad : Nat} {r : Rect} {i : Image}
    (hr : r.x0 < r.x1 ∧ r.y0 < r.y1) (hi : 1 ≤ i.w ∧ 1 ≤ i.h)
    (h : ∀ x y, inRect r x y → ¬ inBox pad i x y) : apart pad r i := by
  by_contra hc
  simp only [apart, not_or, not_le] at hc
  apply h (max r.x0 i.x0) (max r.y0 i.y0)
  · simp only [inRect]; omega
  · simp only [inBox]; omega

theorem contained_inRect {r f : Rect} (h : contained r f) {x y : Nat} (hr : inRect r x y) :
    inRect f x y := by
  simp only [contained, inRect] at *
  omega

/-- C13 as stated fails: after `pack` on the sprites 10x10, 10x10, 15x15 with
page side 20 and padding 0, the point (16,16) of the page lies in no free
rectangle and in no packed sprite's box. -/
theorem pack_area_counterexample :
    ∃ st', pack fixedExample = some st' ∧ 16 < st'.size ∧
      (∀ f ∈ st'.free_rects, ¬ inRect f 16 16) ∧
      (∀ i ∈ st'.images, i.packed = true → ¬ inBox st'.padding i 16 16) := by
  refine ⟨_, rfl, ?_, ?_, ?_⟩ <;> decide

/-- C13, amended: after `pack` returns, the free rectangles and the padded
boxes of the packed sprites lie within the page area `[0,size) x [0,size)`, no
free rectangle meets a padded box, and the free rectangles cover every
rectangle of at least `(min_w + padding) x (min_h + padding)` that lies in the
page apart from all padded boxes; what is left uncovered is too small for the
smallest sprite. -/
theorem pack_area (st : State)
    (hpad : st.padding < st.size) (hsize : st.size ≤ PNG_UINT_32_MAX) (hfree : FreeOK st)
    (hmin : st.min_w + st.padding ≤ PNG_UINT_32_MAX ∧ st.min_h + st.padding ≤ PNG_UINT_32_MAX)
    (hsp : ∀ i ∈ st.images, 1 ≤ i.w ∧ i.w ≤ st.size - st.padding ∧
      1 ≤ i.h ∧ i.h ≤ st.size - st.padding) :
    ∃ st', pack st = some st' ∧
      st'.padding = st.padding ∧ st'.size = st.size ∧
      st'.min_w = st.min_w ∧ st'.min_h = st.min_h ∧
      (∀ f ∈ st'.free_rects, ∀ x y, inRect f x y → x < st.size ∧ y < st.size) ∧
      (∀ j, (imageAt st'.images j).packed = true → ∀ x y,
        inBox st.padding (imageAt st'.images j) x y → x < st.size ∧ y < st.size) ∧
      (∀ j, (imageAt st'.images j).packed = true → ∀ f ∈ st'.free_rects, ∀ x y,
        inBox st.padding (imageAt st'.images j) x y → ¬ inRect f x y) ∧
      (∀ r, Placeable st' r → ∀ x y, inRect r x y → ∃ f ∈ st'.free_rects, inRect f x y) := by
  unfold PNG_UINT_32_MAX at hsize hmin
  obtain ⟨st', h1, h2, h3, -, h5, h6, h7, h8, -, -⟩ := pack_cover st (by omega) hfree
    (fun i hi => by have := hsp i hi; omega) (by omega) (by omega)
  refine ⟨st', h1, h5, h6, h7, h8, ?_, ?_, ?_, ?_⟩
  · intro f hf x y hxy
    obtain ⟨a, b, c, d⟩ := h2.free_ok f hf
    simp only [inRect] at hxy
    omega
  · intro j hj x y hxy
    have := h2.box_in j hj
    rw [← h5] at hxy
    simp only [inBox] at hxy
    omega
  · intro j hj f hf x y hxy
    rw [← h5] at hxy
    exact h2.box_free j hj f hf x y hxy
  · intro r hr x y hxy
    obtain ⟨f, hf, hc⟩ := h3.2.2 r hr
    exact ⟨f, hf, contained_inRect hc hxy⟩

theorem pack_area_witness :
    ∃ st', pack packExample = some st' ∧
      st'.padding = packExample.padding ∧ st'.size = packExample.size ∧
      st'.min_w = packExample.min_w ∧ st'.min_h = packExample.min_h ∧
      (∀ f ∈ st'.free_rects, ∀ x y, inRect f x y →
        x < packExample.size ∧ y < packExample.size) ∧
      (∀ j, (imageAt st'.images j).packed = true → ∀ x y,
        inBox packExample.padding (imageAt st'.images j) x y →
          x < packExample.size ∧ y < packExample.size) ∧
      (∀ j, (imageAt st'.images j).packed = true → ∀ f ∈ st'.free_rects, ∀ x y,
        inBox packExample.padding (imageAt st'.images j) x y → ¬ inRect f x y) ∧
      (∀ r, Placeable st' r → ∀ x y, inRect r x y → ∃ f ∈ st'.free_rects, inRect f x y) :=
  pack_area packExample (by decide) (by decide) (fun f hf => by simp [packExample] at hf)
    (by decide) (by decide)

/-! ## `add_rect` on covered input, the reset, and the antichain invariant -/

theorem add_rect_scan_sublist (x0 y0 x1 y1 : Nat) (fr : List Rect) :
    (add_rect_scan x0 y0 x1 y1 fr).1.Sublist fr := by
  induction fr with
  | nil => exact List.Sublist.refl _
  | cons f rest ih =>
    unfold add_rect_scan
    split
    · exact List.Sublist.refl _
    · split
      · exact List.Sublist.cons _ ih
      · exact List.Sublist.cons₂ _ ih

/-- When the walk of `add_rect` runs to the end, the candidate and the members
left are not within each other. -/
theorem add_rect_scan_apart {x0 y0 x1 y1 : Nat} {fr : List Rect}
    (h : (add_rect_scan x0 y0 x1 y1 fr).2 = true) :
    ∀ f ∈ (add_rect_scan x0 y0 x1 y1 fr).1,
      ¬ contained { x0 := x0, y0 := y0, x1 := x1, y1 := y1 } f ∧
      ¬ contained f { x0 := x0, y0 := y0, x1 := x1, y1 := y1 } := by
  induction fr with
  | nil => intro f hf; simp [add_rect_scan] at hf
  | cons g rest ih =>
    unfold add_rect_scan at h ⊢
    split
    · rename_i hc
      rw [if_pos hc] at h
      cases h
    · rename_i hc
      rw [if_neg hc] at h
      split
      · rename_i hd
        rw [if_pos hd] at h
        exact ih h
      · rename_i hd
        rw [if_neg hd] at h
        intro f hf
        rcases List.mem_cons.1 hf with e | hf'
        · rw [e]
          constructor
          · intro hin; exact hc ⟨hin.1, hin.2.1, hin.2.2.1, hin.2.2.2⟩
          · intro hin; exact hd ⟨hin.1, hin.2.1, hin.2.2.1, hin.2.2.2⟩
        · exact ih h f hf'

/-- Source: `add_rect` keeps the free list an antichain. -/
theorem add_rect_antichain (mw mh pad : Nat) {fr : List Rect} (x0 y0 x1 y1 : Nat)
    (h : Antichain fr) : Antichain (add_rect mw mh pad fr x0 y0 x1 y1) := by
  unfold add_rect
  split
  · exact h
  · have hsub : Antichain (add_rect_scan x0 y0 x1 y1 fr).1 :=
      List.Pairwise.sublist (add_rect_scan_sublist x0 y0 x1 y1 fr) h
    split
    · rename_i hflag
      exact List.pairwise_cons.2 ⟨add_rect_scan_apart hflag, hsub⟩
    · exact hsub

/-- On an antichain the walk of `add_rect` unlinks nothing before it meets a
member that holds the candidate. -/
theorem add_rect_scan_noop {x0 y0 x1 y1 : Nat} {fr : List Rect} (ha : Antichain fr)
    (h : ∃ f ∈ fr, contained { x0 := x0, y0 := y0, x1 := x1, y1 := y1 } f) :
    add_rect_scan x0 y0 x1 y1 fr = (fr, false) := by
  induction fr with
  | nil => obtain ⟨f, hf, -⟩ := h; cases hf
  | cons g rest ih =>
    obtain ⟨hg, hrest⟩ := List.pairwise_cons.1 ha
    unfold add_rect_scan
    split
    · rfl
    · rename_i hc
      obtain ⟨f, hf, hin⟩ := h
      have hf' : f ∈ rest := by
        rcases List.mem_cons.1 hf with e | hf'
        · rw [e] at hin
          exact absurd ⟨hin.1, hin.2.1, hin.2.2.1, hin.2.2.2⟩ hc
        · exact hf'
      split
      · rename_i hd
        exact absurd (contained_trans ⟨hd.1, hd.2.1, hd.2.2.1, hd.2.2.2⟩ hin) (hg f hf').1
      · rw [ih hrest ⟨f, hf', hin⟩]

/-- The walk of `add_rect` relies on the free list being an antichain: on the
list `nestedExample`, which `add_rect` never builds (`add_rect_antichain`),
the candidate (0,0,2,2) lies within the member (0,0,3,3), yet the walk would
unlink the member (0,0,1,1) before it reaches (0,0,3,3). -/
theorem add_rect_nested_unlinks :
    (∃ f ∈ nestedExample, contained { x0 := 0, y0 := 0, x1 := 2, y1 := 2 } f) ∧
    add_rect 1 1 0 nestedExample 0 0 2 2 = [{ x0 := 0, y0 := 0, x1 := 3, y1 := 3 }] ∧
    add_rect 1 1 0 nestedExample 0 0 2 2 ≠ nestedExample := by
  refine ⟨⟨{ x0 := 0, y0 := 0, x1 := 3, y1 := 3 }, by decide, ?_⟩, by decide, by decide⟩
  simp [contained]

/-- C14: `add_rect` is a no-op on covered input.  For every free set the
program holds, that is every free list in which no rectangle lies within
another (the invariant of every list `add_rect` builds, starting from the
empty list), and every rectangle that lies within a member of the list,
`add_rect` leaves the list unchanged: nothing is removed, nothing added. -/
theorem add_rect_covered_noop (mw mh pad : Nat) (fr : List Rect) (x0 y0 x1 y1 : Nat)
    (ha : Antichain fr)
    (h : ∃ f ∈ fr, contained { x0 := x0, y0 := y0, x1 := x1, y1 := y1 } f) :
    add_rect mw mh pad fr x0 y0 x1 y1 = fr := by
  unfold add_rect
  split
  · rfl
  · rw [add_rect_scan_noop ha h]
    rfl

theorem add_rect_covered_noop_witness :
    ¬ (0 > 2 ∨ sub32 2 0 < add32 1 0 ∨ 1 > 3 ∨ sub32 3 1 < add32 1 0) ∧
    ¬ contained { x0 := 0, y0 := 1, x1 := 2, y1 := 3 } { x0 := 2, y0 := 0, x1 := 4, y1 := 4 } ∧
    add_rect 1 1 0 crossExample 0 1 2 3 = crossExample :=
  ⟨by decide, by decide, add_rect_covered_noop 1 1 0 crossExample 0 1 2 3
    (by simp [Antichain, crossExample, contained])
    ⟨{ x0 := 0, y0 := 1, x1 := 4, y1 := 4 }, by decide, by simp [contained]⟩⟩

/-- The walk of `add_rect` over an antichain whose members all lie within the
candidate: everything is unlinked, or the list is the candidate alone. -/
theorem add_rect_scan_reset {x0 y0 x1 y1 : Nat} {fr : List Rect} (ha : Antichain fr)
    (h : ∀ f ∈ fr, contained f { x0 := x0, y0 := y0, x1 := x1, y1 := y1 }) :
    add_rect_scan x0 y0 x1 y1 fr = ([], true) ∨
    add_rect_scan x0 y0 x1 y1 fr = ([{ x0 := x0, y0 := y0, x1 := x1, y1 := y1 }], false) := by
  induction fr with
  | nil => exact Or.inl rfl
  | cons g rest ih =>
    obtain ⟨hg, hrest⟩ := List.pairwise_cons.1 ha
    have hgin := h g (List.mem_cons_self _ _)
    unfold add_rect_scan
    split
    · rename_i hc
      right
      have e : g = { x0 := x0, y0 := y0, x1 := x1, y1 := y1 } := by
        obtain ⟨a, b, c, d⟩ := g
        simp only [contained, Rect.mk.injEq] at *
        omega
      have hnil : rest = [] := by
        cases rest with
        | nil => rfl
        | cons f tl =>
          have hf := h f (List.mem_cons_of_mem _ (List.mem_cons_self _ _))
          rw [← e] at hf
          exact absurd hf (hg f (List.mem_cons_self _ _)).2
      rw [hnil, e]
    · rw [if_pos ⟨hgin.1, hgin.2.1, hgin.2.2.1, hgin.2.2.2⟩]
      exact ih hrest (fun f hf => h f (List.mem_cons_of_mem _ hf))

/-- C15 as stated fails: at the first pass of auto-size mode with one 2x2
sprite (`size = 1`, `min_w = min_h = 2`, empty free list) the call
`add_rect(0, 0, size, size)` returns at the size test and leaves the free list
empty, not equal to the page rectangle. -/
theorem pack_reset_counterexample :
    (∀ f ∈ smallPageExample.free_rects, RectOK smallPageExample.size f) ∧
    (pack_init smallPageExample).free_rects = [] := by
  decide

/-- C15, amended: the call `add_rect(0, 0, size, size)` at the start of
`pack`, applied to a prior free list whose rectangles lie within the page and
none of which lies within another, leaves the free list equal to the one
rectangle `[0,size) x [0,size)` when the page is at least
`(min_w + padding) x (min_h + padding)`, and leaves it as it was otherwise. -/
theorem pack_reset (st : State) (hsize : st.size ≤ PNG_UINT_32_MAX) (hfree : FreeOK st)
    (ha : Antichain st.free_rects)
    (hmin : st.min_w + st.padding ≤ PNG_UINT_32_MAX ∧ st.min_h + st.padding ≤ PNG_UINT_32_MAX) :
    (st.min_w + st.padding ≤ st.size ∧ st.min_h + st.padding ≤ st.size →
      (pack_init st).free_rects = [{ x0 := 0, y0 := 0, x1 := st.size, y1 := st.size }]) ∧
    (¬ (st.min_w + st.padding ≤ st.size ∧ st.min_h + st.padding ≤ st.size) →
      (pack_init st).free_rects = st.free_rects) := by
  unfold PNG_UINT_32_MAX at hsize hmin
  have e1 : sub32 st.size 0 = st.size := sub32_eq (Nat.zero_le _) (by omega)
  have e2 : add32 st.min_w st.padding = st.min_w + st.padding := add32_eq (by omega)
  have e3 : add32 st.min_h st.padding = st.min_h + st.padding := add32_eq (by omega)
  constructor
  · intro hfit
    show add_rect st.min_w st.min_h st.padding st.free_rects 0 0 st.size st.size = _
    unfold add_rect
    rw [if_neg (by rw [e1, e2, e3]; omega)]
    rcases @add_rect_scan_reset 0 0 st.size st.size _ ha
        (fun f hf => by
          obtain ⟨a, b, c, d⟩ := hfree f hf
          simp only [contained]
          omega) with h | h
    · rw [h]; rfl
    · rw [h]; rfl
  · intro hno
    show add_rect st.min_w st.min_h st.padding st.free_rects 0 0 st.size st.size = _
    unfold add_rect
    rw [if_pos (by rw [e1, e2, e3]; omega)]

theorem pack_reset_witness :
    (1 + 0 ≤ 4 ∧ 1 + 0 ≤ 4 →
      (pack_init { padding := 0, size := 4, images := [], min_w := 1, min_h := 1,
                   free_rects := crossExample }).free_rects
        = [{ x0 := 0, y0 := 0, x1 := 4, y1 := 4 }]) ∧
    (¬ (1 + 0 ≤ 4 ∧ 1 + 0 ≤ 4) →
      (pack_init { padding := 0, size := 4, images := [], min_w := 1, min_h := 1,
                   free_rects := crossExample }).free_rects = crossExample) :=
  pack_reset { padding := 0, size := 4, images := [], min_w := 1, min_h := 1,
               free_rects := crossExample } (by decide)
    (by simp [FreeOK, crossExample, RectOK]) (by simp [Antichain, crossExample, contained])
    (by decide)

/-! ## States reached inside `pack` -/

/-- Induction over the states reached inside `pack`, with the packing
invariant at hand. -/
theorem reach_induct {st0 : State} (Q : State → Prop) (hinv0 : PackInv (pack_init st0))
    (hq0 : Q (pack_init st0))
    (hstep : ∀ st c, PackInv st → Q st →
      (scan_images st.padding st.free_rects 0 st.images none).2 = some c →
      c.b < (scan_images st.padding st.free_rects 0 st.images none).1.length →
      (imageAt (scan_images st.padding st.free_rects 0 st.images none).1 c.b).packed = false →
      Good st.padding st.free_rects
        (imageAt (scan_images st.padding st.free_rects 0 st.images none).1 c.b) c →
      Q (commit st (scan_images st.padding st.free_rects 0 st.images none).1 c))
    (s : State) (h : PackReach st0 s) : PackInv s ∧ Q s := by
  induction h with
  | init => exact ⟨hinv0, hq0⟩
  | step s c _ hc ih =>
    obtain ⟨hinv, hq⟩ := ih
    have hl := scan_images_length s.padding s.free_rects 0 s.images none
    rcases scan_images_best s.padding s.free_rects 0 s.images none with hb | hb
    · rw [hc] at hb; cases hb
    · obtain ⟨c', hc', -, hb, hun, hgood⟩ := hb
      rw [hc] at hc'
      cases hc'
      have hb' : c.b < (scan_images s.padding s.free_rects 0 s.images none).1.length := by
        omega
      exact ⟨packInv_commit (packInv_scan hinv) hb' hgood, hstep s c hinv hq hc hb' hun hgood⟩

/-- The state `pack` returns is a reached state in which the scan found no
candidate, with the origins the scan left. -/
theorem pack_loop_reach {st0 : State} (n : Nat) (s0 st' : State) (hr : PackReach st0 s0)
    (h : pack_loop n s0 = some st') :
    ∃ s, PackReach st0 s ∧ (scan_images s.padding s.free_rects 0 s.images none).2 = none ∧
      st' = { s with images := (scan_images s.padding s.free_rects 0 s.images none).1 } := by
  induction n generalizing s0 with
  | zero => simp [pack_loop] at h
  | succ n ih =>
    unfold pack_loop at h
    cases hc : (scan_images s0.padding s0.free_rects 0 s0.images none).2 with
    | none =>
      simp only [hc, Option.some.injEq] at h
      exact ⟨s0, hr, hc, h.symm⟩
    | some c =>
      simp only [hc] at h
      exact ih _ (PackReach.step s0 c hr hc) h

theorem pack_reach {st st' : State} (h : pack st = some st') :
    ∃ s, PackReach st s ∧ (scan_images s.padding s.free_rects 0 s.images none).2 = none ∧
      st' = { s with images := (scan_images s.padding s.free_rects 0 s.images none).1 } :=
  pack_loop_reach _ _ _ PackReach.init h

theorem add_rect_wide {mw mh pad x0 y0 x1 y1 : Nat} {fr : List Rect}
    (hmw : mw + pad < 4294967296) (hmh : mh + pad < 4294967296)
    (hx : x1 < 4294967296) (hy : y1 < 4294967296)
    (hfr : ∀ f ∈ fr, f.x0 + (mw + pad) ≤ f.x1 ∧ f.y0 + (mh + pad) ≤ f.y1) :
    ∀ f ∈ add_rect mw mh pad fr x0 y0 x1 y1,
      f.x0 + (mw + pad) ≤ f.x1 ∧ f.y0 + (mh + pad) ≤ f.y1 := by
  intro f hf
  unfold add_rect at hf
  split at hf
  · exact hfr f hf
  · rename_i hc
    have hnew : x0 + (mw + pad) ≤ x1 ∧ y0 + (mh + pad) ≤ y1 := by
      simp only [not_or, not_lt] at hc
      obtain ⟨c1, c2, c3, c4⟩ := hc
      rw [add32_eq hmw, sub32_eq (by omega) hx] at c2
      rw [add32_eq hmh, sub32_eq (by omega) hy] at c4
      omega
    split at hf
    · rcases List.mem_cons.1 hf with e | hf'
      · rw [e]; exact hnew
      · exact hfr f (add_rect_scan_mem hf')
    · exact hfr f (add_rect_scan_mem hf)

theorem split_rects_wide {mw mh pad bx1 by1 bx0 by0 : Nat}
    (hmw : mw + pad < 4294967296) (hmh : mh + pad < 4294967296)
    (old acc : List Rect) (hold : ∀ f ∈ old, f.x1 < 4294967296 ∧ f.y1 < 4294967296)
    (hacc : ∀ f ∈ acc, f.x0 + (mw + pad) ≤ f.x1 ∧ f.y0 + (mh + pad) ≤ f.y1) :
    ∀ f ∈ split_rects mw mh pad bx1 by1 bx0 by0 old acc,
      f.x0 + (mw + pad) ≤ f.x1 ∧ f.y0 + (mh + pad) ≤ f.y1 := by
  induction old generalizing acc with
  | nil => exact hacc
  | cons f fs ih =>
    obtain ⟨hfx, hfy⟩ := hold f (List.mem_cons_self _ _)
    simp only [split_rects]
    apply ih _ (fun g hg => hold g (List.mem_cons_of_mem _ hg))
    exact add_rect_wide hmw hmh hfx (by rw [imin_eq]; omega)
      (add_rect_wide hmw hmh (by rw [imin_eq]; omega) hfy
        (add_rect_wide hmw hmh hfx hfy (add_rect_wide hmw hmh hfx hfy hacc)))

theorem split_rects_antichain {mw mh pad bx1 by1 bx0 by0 : Nat} (old acc : List Rect)
    (hacc : Antichain acc) :
    Antichain (split_rects mw mh pad bx1 by1 bx0 by0 old acc) := by
  induction old generalizing acc with
  | nil => exact hacc
  | cons f fs ih =>
    simp only [split_rects]
    exact ih _ (add_rect_antichain _ _ _ _ _ _ _ (add_rect_antichain _ _ _ _ _ _ _
      (add_rect_antichain _ _ _ _ _ _ _ (add_rect_antichain _ _ _ _ _ _ _ hacc))))

/-- C19: the free-list antichain invariant.  A call of `add_rect` on a free
list in which no rectangle lies within another (equal ones included) gives
such a list again; hence, when `pack` is called with such a free list whose
rectangles are at least `(min_w + padding) x (min_h + padding)`, every free
list reached inside `pack`, and the one `pack` returns with, is such a list
and all its rectangles are at least `(min_w + padding) x (min_h + padding)`. -/
theorem free_list_antichain (st : State)
    (hsize : st.size ≤ PNG_UINT_32_MAX) (hfree : FreeOK st)
    (hsp : ∀ i ∈ st.images, i.w + st.padding ≤ PNG_UINT_32_MAX ∧
      i.h + st.padding ≤ PNG_UINT_32_MAX)
    (hmin : st.min_w + st.padding ≤ PNG_UINT_32_MAX ∧ st.min_h + st.padding ≤ PNG_UINT_32_MAX)
    (ha : Antichain st.free_rects) (hwide : Wide st) :
    (∀ (fr : List Rect) (x0 y0 x1 y1 : Nat), Antichain fr →
      Antichain (add_rect st.min_w st.min_h st.padding fr x0 y0 x1 y1)) ∧
    (∀ s, PackReach st s → Antichain s.free_rects ∧ ∀ f ∈ s.free_rects,
      f.x0 + (st.min_w + st.padding) ≤ f.x1 ∧ f.y0 + (st.min_h + st.padding) ≤ f.y1) ∧
    ∃ st', pack st = some st' ∧ Antichain st'.free_rects ∧ ∀ f ∈ st'.free_rects,
      f.x0 + (st.min_w + st.padding) ≤ f.x1 ∧ f.y0 + (st.min_h + st.padding) ≤ f.y1 := by
  unfold PNG_UINT_32_MAX at hsize hsp hmin
  have hw : ∀ i ∈ st.images, i.w + st.padding < 4294967296 ∧ i.h + st.padding < 4294967296 :=
    fun i hi => by have := hsp i hi; omega
  have hreach : ∀ s, PackReach st s → PackInv s ∧
      (s.min_w = st.min_w ∧ s.min_h = st.min_h ∧ s.padding = st.padding ∧
        Antichain s.free_rects ∧ ∀ f ∈ s.free_rects,
          f.x0 + (st.min_w + st.padding) ≤ f.x1 ∧ f.y0 + (st.min_h + st.padding) ≤ f.y1) := by
    refine reach_induct _ (packInv_init (by omega) hfree hw) ?_ ?_
    · refine ⟨rfl, rfl, rfl, add_rect_antichain _ _ _ _ _ _ _ ha, ?_⟩
      exact add_rect_wide (by omega) (by omega) (by omega) (by omega) hwide
    · intro s c hinv hq _ _ _ _
      obtain ⟨q1, q2, q3, -, -⟩ := hq
      refine ⟨q1, q2, q3, split_rects_antichain _ _ List.Pairwise.nil, ?_⟩
      show ∀ f ∈ split_rects s.min_w s.min_h s.padding _ _ _ _ s.free_rects [], _
      rw [q1, q2, q3]
      refine split_rects_wide (by omega) (by omega) _ _ (fun g hg => ?_)
        (fun g hg => by cases hg)
      have := hinv.free_ok g hg
      have := hinv.size_lt
      simp only [RectOK] at *
      omega
  refine ⟨fun fr x0 y0 x1 y1 h => add_rect_antichain _ _ _ _ _ _ _ h,
    fun s hs => ⟨(hreach s hs).2.2.2.2.1, (hreach s hs).2.2.2.2.2⟩, ?_⟩
  obtain ⟨st', h1, -⟩ := pack_spec st (by omega) hfree hw
  obtain ⟨s, hs, -, e⟩ := pack_reach h1
  refine ⟨st', h1, ?_⟩
  rw [e]
  exact ⟨(hreach s hs).2.2.2.2.1, (hreach s hs).2.2.2.2.2⟩

theorem free_list_antichain_witness :
    pairExample.free_rects
      = [{ x0 := 2, y0 := 0, x1 := 4, y1 := 4 }, { x0 := 0, y0 := 1, x1 := 4, y1 := 4 }] ∧
    (∃ s, PackReach pairExample s ∧
      s.free_rects = [{ x0 := 0, y0 := 2, x1 := 8, y1 := 8 },
                      { x0 := 3, y0 := 0, x1 := 8, y1 := 8 }]) ∧
    (∃ st', pack pairExample = some st' ∧
      st'.free_rects = [{ x0 := 5, y0 := 0, x1 := 8, y1 := 8 },
                        { x0 := 0, y0 := 2, x1 := 3, y1 := 8 },
                        { x0 := 0, y0 := 3, x1 := 8, y1 := 8 }]) ∧
    (∀ (fr : List Rect) (x0 y0 x1 y1 : Nat), Antichain fr →
      Antichain (add_rect pairExample.min_w pairExample.min_h pairExample.padding fr
        x0 y0 x1 y1)) ∧
    (∀ s, PackReach pairExample s → Antichain s.free_rects ∧ ∀ f ∈ s.free_rects,
      f.x0 + (pairExample.min_w + pairExample.padding) ≤ f.x1 ∧
      f.y0 + (pairExample.min_h + pairExample.padding) ≤ f.y1) ∧
    ∃ st', pack pairExample = some st' ∧ Antichain st'.free_rects ∧ ∀ f ∈ st'.free_rects,
      f.x0 + (pairExample.min_w + pairExample.padding) ≤ f.x1 ∧
      f.y0 + (pairExample.min_h + pairExample.padding) ≤ f.y1 :=
  ⟨rfl,
   ⟨_, PackReach.step (pack_init pairExample) pairExampleBest PackReach.init (by decide),
     by decide⟩,
   ⟨_, rfl, by decide⟩,
   free_list_antichain pairExample (by decide) (by unfold FreeOK; decide)
    (by decide) (by decide) (by simp [Antichain, pairExample, crossExample, contained])
    (by unfold Wide; decide)⟩

/-! ## Each commit takes a pair with a least key -/

theorem fits32_iff {padding size : Nat} {i : Image} {g : Rect} (hg : RectOK size g)
    (hsize : size < 4294967296) (hw : i.w + padding < 4294967296)
    (hh : i.h + padding < 4294967296) :
    fits32 padding i.w i.h g ↔ fits padding i g := by
  obtain ⟨a, b, c, d⟩ := hg
  unfold fits32 fits
  rw [add32_eq hw, add32_eq hh, sub32_eq a (by omega), sub32_eq b (by omega)]
  omega

/-- For a pair that passes the size test the key the code computes is the key
in exact arithmetic. -/
theorem cand_key_exact {padding size : Nat} {i : Image} {g : Rect} (hg : RectOK size g)
    (hsize : size < 4294967296) (hfit : fits padding i g) :
    cand_key padding i.w i.h g = pair_key padding i g := by
  obtain ⟨a, b, c, d⟩ := hg
  obtain ⟨f1, f2⟩ := hfit
  have e1 : add32 g.x0 i.w = g.x0 + i.w := add32_eq (by omega)
  have e2 : add32 g.y0 i.h = g.y0 + i.h := add32_eq (by omega)
  have e3 : add32 (g.x0 + i.w) padding = g.x0 + i.w + padding := add32_eq (by omega)
  have e4 : add32 (g.y0 + i.h) padding = g.y0 + i.h + padding := add32_eq (by omega)
  unfold cand_key pair_key
  rw [e1, e2, e3, e4, sub32_eq f1 (by omega), sub32_eq f2 (by omega), imin_eq, imax_eq,
    imin_eq, imax_eq]

/-- C17: each pass of the loop of `pack` that finds a candidate commits a pair
with a least key.  In every state reached inside `pack`, when the scan ends
with candidate `c`: the image at position `c.b` was not packed and is marked
packed by the commit; some free rectangle `f` is at least
`(w + padding) x (h + padding)` for it and gives it its origin
`(x0, y0) = (f.x0, f.y0)`; and no pair of an unpacked image and a free
rectangle at least `(w + padding) x (h + padding)` for it has a key below the
key of the committed pair in the lexicographic order on (ssf, lsf,
max(farX, farY), min(farX, farY), farX < farY with false before true). -/
theorem pack_commits_least (st s : State) (c : Best)
    (hsize : st.size ≤ PNG_UINT_32_MAX) (hfree : FreeOK st)
    (hsp : ∀ i ∈ st.images, i.w + st.padding ≤ PNG_UINT_32_MAX ∧
      i.h + st.padding ≤ PNG_UINT_32_MAX)
    (hr : PackReach st s)
    (hc : (scan_images s.padding s.free_rects 0 s.images none).2 = some c) :
    (imageAt (scan_images s.padding s.free_rects 0 s.images none).1 c.b).packed = false ∧
    imageAt (commit s (scan_images s.padding s.free_rects 0 s.images none).1 c).images c.b
      = { imageAt (scan_images s.padding s.free_rects 0 s.images none).1 c.b with
          packed := true } ∧
    ∃ f ∈ s.free_rects,
      fits s.padding (imageAt (scan_images s.padding s.free_rects 0 s.images none).1 c.b) f ∧
      (imageAt (scan_images s.padding s.free_rects 0 s.images none).1 c.b).x0 = f.x0 ∧
      (imageAt (scan_images s.padding s.free_rects 0 s.images none).1 c.b).y0 = f.y0 ∧
      ∀ i ∈ s.images, i.packed = false → ∀ g ∈ s.free_rects, fits s.padding i g →
        ¬ key_lt (pair_key s.padding i g) (pair_key s.padding
          (imageAt (scan_images s.padding s.free_rects 0 s.images none).1 c.b) f) := by
  unfold PNG_UINT_32_MAX at hsize hsp
  have hw : ∀ i ∈ st.images, i.w + st.padding < 4294967296 ∧ i.h + st.padding < 4294967296 :=
    fun i hi => by have := hsp i hi; omega
  have hinv : PackInv s :=
    (reach_induct (fun _ => True) (packInv_init (by omega) hfree hw) trivial
      (fun _ _ _ _ _ _ _ _ => trivial) s hr).1
  have hl := scan_images_length s.padding s.free_rects 0 s.images none
  have hsame := scan_images_same s.padding s.free_rects 0 s.images none c.b
  rcases scan_images_best s.padding s.free_rects 0 s.images none with hb | hb
  · rw [hc] at hb; cases hb
  · obtain ⟨c', hc', -, hb, hun, hgood⟩ := hb
    rw [hc] at hc'
    cases hc'
    simp only [Nat.sub_zero] at hun hgood
    have hb' : c.b < (scan_images s.padding s.free_rects 0 s.images none).1.length := by
      omega
    have hbs : c.b < s.images.length := by omega
    refine ⟨hun, imageAt_set_packed_self hb', ?_⟩
    obtain ⟨f, hf, hfit, hx0, hy0, hbx1, hby1, hssf, hlsf⟩ := hgood
    have hfok := hinv.free_ok f hf
    have hsz := hinv.size_lt
    obtain ⟨nw, nh⟩ := hinv.no_wrap c.b hbs
    rw [← hsame.1.same_w] at nw
    rw [← hsame.1.same_h] at nh
    have hfit' := (fits32_iff hfok hsz nw nh).1 hfit
    refine ⟨f, hf, hfit', hx0, hy0, fun i hi hp g hg hgfit => ?_⟩
    have hkey : best_key c = pair_key s.padding
        (imageAt (scan_images s.padding s.free_rects 0 s.images none).1 c.b) f := by
      rw [← cand_key_exact hfok hsz hfit']
      unfold best_key cand_key
      rw [hssf, hlsf, hbx1, hby1]
    obtain ⟨j, hj, e⟩ := mem_imageAt hi
    obtain ⟨iw, ih⟩ := hinv.no_wrap j hj
    rw [e] at iw ih
    have hgok := hinv.free_ok g hg
    have := scan_some_min hc i hi hp g hg ((fits32_iff hgok hsz iw ih).2 hgfit)
    rw [cand_key_exact hgok hsz hgfit, hkey] at this
    exact this

theorem pack_commits_least_witness :
    (imageAt (scan_images (pack_init packExample).padding (pack_init packExample).free_rects 0
      (pack_init packExample).images none).1 packExampleBest.b).packed = false ∧
    imageAt (commit (pack_init packExample)
        (scan_images (pack_init packExample).padding (pack_init packExample).free_rects 0
          (pack_init packExample).images none).1 packExampleBest).images packExampleBest.b
      = { imageAt (scan_images (pack_init packExample).padding
            (pack_init packExample).free_rects 0 (pack_init packExample).images none).1
            packExampleBest.b with packed := true } ∧
    ∃ f ∈ (pack_init packExample).free_rects,
      fits (pack_init packExample).padding
        (imageAt (scan_images (pack_init packExample).padding
          (pack_init packExample).free_rects 0 (pack_init packExample).images none).1
          packExampleBest.b) f ∧
      (imageAt (scan_images (pack_init packExample).padding (pack_init packExample).free_rects 0
        (pack_init packExample).images none).1 packExampleBest.b).x0 = f.x0 ∧
      (imageAt (scan_images (pack_init packExample).padding (pack_init packExample).free_rects 0
        (pack_init packExample).images none).1 packExampleBest.b).y0 = f.y0 ∧
      ∀ i ∈ (pack_init packExample).images, i.packed = false →
        ∀ g ∈ (pack_init packExample).free_rects, fits (pack_init packExample).padding i g →
        ¬ key_lt (pair_key (pack_init packExample).padding i g)
          (pair_key (pack_init packExample).padding
            (imageAt (scan_images (pack_init packExample).padding
              (pack_init packExample).free_rects 0 (pack_init packExample).images none).1
              packExampleBest.b) f) :=
  pack_commits_least packExample (pack_init packExample) packExampleBest (by decide)
    (fun f hf => by simp [packExample] at hf) (by decide) PackReach.init (by decide)

/-! ## A full page is full -/

/-- C18: page-full is real.  Let `min_w`, `min_h` be lower bounds on the
sprites' widths and heights (and the sprites pass the load-time checks).  In
every state reached inside `pack`, every rectangle of at least
`(min_w + padding) x (min_h + padding)` that lies in the page apart from the
padded boxes of all packed sprites lies within a rectangle of the free list;
and when `pack` returns, for every sprite left unpacked there is no position
`(x, y)` at which its padded box lies inside the page and shares no point with
the padded box of any packed sprite. -/
theorem page_full_is_real (st : State)
    (hsize : st.size ≤ PNG_UINT_32_MAX) (hfree : FreeOK st)
    (hmin : st.min_w + st.padding ≤ PNG_UINT_32_MAX ∧ st.min_h + st.padding ≤ PNG_UINT_32_MAX)
    (hsp : ∀ i ∈ st.images, 1 ≤ i.w ∧ 1 ≤ i.h ∧ st.min_w ≤ i.w ∧ st.min_h ≤ i.h ∧
      i.w + st.padding ≤ PNG_UINT_32_MAX ∧ i.h + st.padding ≤ PNG_UINT_32_MAX) :
    (∀ s, PackReach st s → ∀ r, Placeable s r → ∃ f ∈ s.free_rects, contained r f) ∧
    ∃ st', pack st = some st' ∧
      ∀ j, j < st'.images.length → (imageAt st'.images j).packed = false → ∀ x y,
        ¬ (x + (imageAt st'.images j).w + st.padding ≤ st.size ∧
           y + (imageAt st'.images j).h + st.padding ≤ st.size ∧
           ∀ l, (imageAt st'.images l).packed = true → ∀ px py,
             inBox st.padding { imageAt st'.images j with x0 := x, y0 := y } px py →
             ¬ inBox st.padding (imageAt st'.images l) px py) := by
  unfold PNG_UINT_32_MAX at hsize hmin hsp
  have hw : ∀ i ∈ st.images, i.w + st.padding < 4294967296 ∧ i.h + st.padding < 4294967296 :=
    fun i hi => by have := hsp i hi; omega
  constructor
  · intro s hs
    have := (reach_induct Cover (packInv_init (by omega) hfree hw)
      (cover_init (by omega) hfree (by omega) (by omega))
      (fun s c hinv hq _ hb _ hgood => cover_commit (packInv_scan hinv) (cover_scan hq) hb hgood)
      s hs).2
    exact this.2.2
  · obtain ⟨st', h1, h2, h3, h4, h5, h6, h7, h8, h9, h10⟩ := pack_cover st (by omega) hfree hw
      (by omega) (by omega)
    refine ⟨st', h1, fun j hj hp x y hxy => ?_⟩
    obtain ⟨hx, hy, hdis⟩ := hxy
    have hj' : j < st.images.length := by rw [← h9]; exact hj
    obtain ⟨s1, s2, s3, s4, s5, s6⟩ := hsp _ (imageAt_mem hj')
    have ew := (h10 j).placed_w
    have eh := (h10 j).placed_h
    have hplace : Placeable st'
        { x0 := x, y0 := y, x1 := x + (imageAt st'.images j).w + st.padding,
          y1 := y + (imageAt st'.images j).h + st.padding } := by
      refine ⟨?_, ?_, ?_, ?_, fun l hl => ?_⟩
      · show x + (st'.min_w + st'.padding) ≤ x + (imageAt st'.images j).w + st.padding
        rw [h7, h5]; omega
      · show y + (st'.min_h + st'.padding) ≤ y + (imageAt st'.images j).h + st.padding
        rw [h8, h5]; omega
      · show x + (imageAt st'.images j).w + st.padding ≤ st'.size
        rw [h6]; exact hx
      · show y + (imageAt st'.images j).h + st.padding ≤ st'.size
        rw [h6]; exact hy
      · have hl' : l < st.images.length := by rw [← h9]; exact imageAt_packed_lt hl
        obtain ⟨t1, t2, -⟩ := hsp _ (imageAt_mem hl')
        have fw := (h10 l).placed_w
        have fh := (h10 l).placed_h
        rw [h5]
        refine apart_of_disjoint ⟨by show x < x + _ + _; omega, by show y < y + _ + _; omega⟩
          ⟨by omega, by omega⟩ (fun px py hin => hdis l hl px py ?_)
        simp only [inRect] at hin
        simp only [inBox]
        omega
    obtain ⟨f, hf, hc⟩ := h3.2.2 _ hplace
    have hfok := h2.free_ok f hf
    refine h4 _ (imageAt_mem hj) hp f hf ?_
    rw [fits32_iff hfok h2.size_lt (by rw [h5]; omega) (by rw [h5]; omega)]
    simp only [contained] at hc
    simp only [fits]
    rw [h5]
    omega

theorem page_full_is_real_witness :
    (∀ s, PackReach fixedExample s → ∀ r, Placeable s r →
      ∃ f ∈ s.free_rects, contained r f) ∧
    ∃ st', pack fixedExample = some st' ∧
      ∀ j, j < st'.images.length → (imageAt st'.images j).packed = false → ∀ x y,
        ¬ (x + (imageAt st'.images j).w + fixedExample.padding ≤ fixedExample.size ∧
           y + (imageAt st'.images j).h + fixedExample.padding ≤ fixedExample.size ∧
           ∀ l, (imageAt st'.images l).packed = true → ∀ px py,
             inBox fixedExample.padding { imageAt st'.images j with x0 := x, y0 := y } px py →
             ¬ inBox fixedExample.padding (imageAt st'.images l) px py) :=
  page_full_is_real fixedExample (by decide) (fun f hf => by simp [fixedExample] at hf)
    (by decide) (by decide)

/-! ## Metadata blocks follow the image list -/

theorem pack_loop_order_fst (n : Nat) (st : State) :
    (pack_loop_order n st).map Prod.fst = pack_loop n st := by
  induction n generalizing st with
  | zero => rfl
  | succ n ih =>
    unfold pack_loop_order pack_loop
    cases hc : (scan_images st.padding st.free_rects 0 st.images none).2 with
    | none => rfl
    | some c =>
      simp only [Option.map_map]
      rw [← ih]
      rfl

/-- The commits of the instrumented loop: each position committed was not
packed before and is packed at the end, no position is committed twice, and
each commit lowers the number of unpacked images by one. -/
theorem pack_loop_order_spec (n : Nat) (st st' : State) (ord : List Nat)
    (h : pack_loop_order n st = some (st', ord)) :
    unpacked st'.images + ord.length = unpacked st.images ∧ ord.Nodup ∧
    ∀ j ∈ ord, (imageAt st.images j).packed = false ∧ (imageAt st'.images j).packed = true := by
  induction n generalizing st ord with
  | zero => simp [pack_loop_order] at h
  | succ n ih =>
    have hu := scan_images_unpacked st.padding st.free_rects 0 st.images none
    have hl := scan_images_length st.padding st.free_rects 0 st.images none
    unfold pack_loop_order at h
    cases hc : (scan_images st.padding st.free_rects 0 st.images none).2 with
    | none =>
      simp only [hc, Option.some.injEq, Prod.mk.injEq] at h
      obtain ⟨e1, e2⟩ := h
      rw [← e1, ← e2]
      exact ⟨by simpa using hu, List.nodup_nil, fun j hj => by cases hj⟩
    | some c =>
      simp only [hc, Option.map_eq_some', Prod.mk.injEq] at h
      obtain ⟨⟨s2, ord2⟩, h2, e1, e2⟩ := h
      simp only at e1 e2
      subst e1 e2
      obtain ⟨g1, g2, g3⟩ := ih _ _ h2
      rcases scan_images_best st.padding st.free_rects 0 st.images none with hb | hb
      · rw [hc] at hb; cases hb
      · obtain ⟨c', hc', -, hb, hun, -⟩ := hb
        rw [hc] at hc'
        cases hc'
        simp only [Nat.sub_zero] at hun
        have hb' : c.b < (scan_images st.padding st.free_rects 0 st.images none).1.length := by
          omega
        have hcount := unpacked_set_packed hb' hun
        have hg1 : unpacked s2.images + ord2.length
            = unpacked (set_packed c.b
                (scan_images st.padding st.free_rects 0 st.images none).1) := g1
        have hself : (imageAt (set_packed c.b
            (scan_images st.padding st.free_rects 0 st.images none).1) c.b).packed = true := by
          rw [imageAt_set_packed_self hb']
        have hmono := pack_loop_mono n _ s2 (by rw [← pack_loop_order_fst, h2]; rfl) c.b hself
        have hsame := scan_images_same st.padding st.free_rects 0 st.images none
        refine ⟨by simp only [List.length_cons]; omega, List.nodup_cons.2 ⟨fun hin => ?_, g2⟩,
          fun j hj => ?_⟩
        · have := (g3 c.b hin).1
          have this' : (imageAt (set_packed c.b
              (scan_images st.padding st.free_rects 0 st.images none).1) c.b).packed
              = false := this
          rw [hself] at this'
          cases this'
        · rcases List.mem_cons.1 hj with e | hj'
          · rw [e]
            refine ⟨?_, hmono⟩
            rw [← (hsame c.b).1.same_packed]
            exact hun
          · obtain ⟨k1, k2⟩ := g3 j hj'
            refine ⟨?_, k2⟩
            have k1' : (imageAt (set_packed c.b
                (scan_images st.padding st.free_rects 0 st.images none).1) j).packed
                = false := k1
            have hne : j ≠ c.b := by
              intro e
              rw [e, hself] at k1'
              cases k1'
            rw [imageAt_set_packed_ne hne] at k1'
            rw [← (hsame j).1.same_packed]
            exact k1'

theorem write_png_chunks_eq (l : List Image) :
    write_png_chunks l = (page_images l).map atls_payload := by
  induction l with
  | nil => rfl
  | cons i rest ih =>
    unfold write_png_chunks page_images
    rw [List.filter_cons]
    split
    · rw [List.map_cons, ih]; rfl
    · exact ih

theorem page_images_count (l : List Image) :
    (page_images l).length + unpacked l = l.length := by
  induction l with
  | nil => rfl
  | cons i rest ih =>
    unfold page_images unpacked at *
    rw [List.filter_cons, List.filter_cons]
    cases hp : i.packed <;> simp <;> omega

/-- C16 as stated fails: in `blockOrderExample` (a 1x1 sprite listed before a
4x3 sprite, page side 4) `pack` commits the 4x3 sprite (position 1) first and
the 1x1 sprite (position 0) second, yet the first block `write_png` writes is
the one of the 1x1 sprite. -/
theorem block_order_counterexample :
    ∃ st', pack_order blockOrderExample = some (st', [1, 0]) ∧
      write_png_chunks st'.images
        = [atls_payload (imageAt st'.images 0), atls_payload (imageAt st'.images 1)] ∧
      (write_png_chunks st'.images).getD 0 [] ≠ atls_payload (imageAt st'.images 1) := by
  refine ⟨_, rfl, ?_, ?_⟩ <;> decide

/-- C16, amended: on each output page `write_png` emits exactly one metadata
block per packed sprite, as many blocks as `pack` made commits (no sprite is
committed twice, and every committed sprite is packed), and the blocks appear
in the order of the image list, not in the order of the commits. -/
theorem block_order (st : State)
    (hsize : st.size ≤ PNG_UINT_32_MAX) (hfree : FreeOK st)
    (hsp : ∀ i ∈ st.images, i.w + st.padding ≤ PNG_UINT_32_MAX ∧
      i.h + st.padding ≤ PNG_UINT_32_MAX) :
    ∃ st' ord, pack_order st = some (st', ord) ∧ pack st = some st' ∧ ord.Nodup ∧
      (∀ j ∈ ord, (imageAt st'.images j).packed = true) ∧
      (write_png_chunks st'.images).length = ord.length ∧
      write_png_chunks st'.images = (page_images st'.images).map atls_payload := by
  unfold PNG_UINT_32_MAX at hsize hsp
  obtain ⟨st', h1, -, -, -, h5, -⟩ := pack_spec st (by omega) hfree
    (fun i hi => by have := hsp i hi; omega)
  have hfst := pack_loop_order_fst (st.images.length + 1) (pack_init st)
  have h1' : pack_loop (st.images.length + 1) (pack_init st) = some st' := h1
  rw [h1'] at hfst
  obtain ⟨⟨s2, ord⟩, h2, e⟩ := Option.map_eq_some'.1 hfst
  simp only at e
  subst e
  obtain ⟨g1, g2, g3⟩ := pack_loop_order_spec _ _ _ _ h2
  refine ⟨s2, ord, h2, h1, g2, fun j hj => (g3 j hj).2, ?_, write_png_chunks_eq _⟩
  have hinit : unpacked (pack_init st).images = st.images.length := by
    have : ∀ l : List Image, unpacked (l.map (fun i => { i with packed := false }))
        = l.length := by
      intro l
      induction l with
      | nil => rfl
      | cons a rest ih =>
        simp only [unpacked, List.map_cons, List.filter_cons, Bool.not_false, if_true,
          List.length_cons] at ih ⊢
        rw [ih]
    exact this st.images
  have hcount := page_images_count s2.images
  rw [write_png_chunks_eq, List.length_map]
  omega

theorem block_order_witness :
    ∃ st' ord, pack_order blockOrderExample = some (st', ord) ∧
      pack blockOrderExample = some st' ∧ ord.Nodup ∧
      (∀ j ∈ ord, (imageAt st'.images j).packed = true) ∧
      (write_png_chunks st'.images).length = ord.length ∧
      write_png_chunks st'.images = (page_images st'.images).map atls_payload :=
  block_order blockOrderExample (by decide)
    (fun f hf => by simp [blockOrderExample] at hf) (by decide)

/-! ## Restorable size of decoded blocks -/

/-- The horizontal half of the test of lines 138-139 does what its comment
says: when the test lets a decoded image through, `w + tl + tr` fits 32
bits. -/
theorem restore_overflow_width (i : Image) (hw : i.w ≤ PNG_UINT_32_MAX)
    (h : restore_overflow i = false) : i.w + i.tl + i.tr ≤ PNG_UINT_32_MAX := by
  unfold PNG_UINT_32_MAX at *
  simp only [restore_overflow, Bool.or_eq_false_iff, decide_eq_false_iff_not, not_lt,
    PNG_UINT_32_MAX] at h
  obtain ⟨⟨⟨h1, h2⟩, -⟩, -⟩ := h
  have e1 : sub32 4294967295 i.w = 4294967295 - i.w := sub32_eq hw (by omega)
  rw [e1] at h1 h2
  rw [sub32_eq (by omega) (by omega)] at h2
  omega

/-- C20 fails on the code: `read_chunk_callback` accepts the payload that
describes a 1x2 sprite with bottom margin `2^32 - 2` (it returns 1 and adds
the sprite), although `h + tt + tb` is `2^32`, above `2^32 - 1`; the restored
height `write_png` computes in 32 bits is 0. -/
theorem accepted_payload_overflows :
    read_chunk_callback [] atLS (atls_payload tallExample)
      = (1, [{ tallExample with packed := false }]) ∧
    ¬ (tallExample.h + tallExample.tt + tallExample.tb ≤ PNG_UINT_32_MAX) ∧
    add32 (add32 tallExample.h tallExample.tt) tallExample.tb = 0 := by
  decide

/-! ## The auto-size driver stops at the least page that holds every sprite -/

theorem SameBut.same_symm {i j : Image} (h : SameBut i j) : SameBut j i := by
  unfold SameBut at *
  rw [h]

theorem SameBut.same_trans {i j k : Image} (h1 : SameBut i j) (h2 : SameBut j k) :
    SameBut i k := by
  unfold SameBut at *
  rw [h2, h1]

theorem scan_rects_snd_congr (padding k : Nat) (fs : List Rect) (i j : Image)
    (hw : j.w = i.w) (hh : j.h = i.h) (best : Option Best) :
    (scan_rects padding k j best fs).2 = (scan_rects padding k i best fs).2 := by
  induction fs generalizing i j best with
  | nil => rfl
  | cons f fs ih =>
    simp only [scan_rects, hw, hh]
    split
    · exact ih i j hw hh best
    · split
      · exact ih _ _ (by rfl) (by rfl) _
      · exact ih i j hw hh best

theorem scan_images_snd_congr (padding : Nat) (fr : List Rect) (l1 l2 : List Image)
    (h : List.Forall₂ (fun i j => j.w = i.w ∧ j.h = i.h ∧ j.packed = i.packed) l1 l2)
    (k : Nat) (best : Option Best) :
    (scan_images padding fr k l2 best).2 = (scan_images padding fr k l1 best).2 := by
  induction h generalizing k best with
  | nil => rfl
  | @cons i j r1 r2 hij _ ih =>
    obtain ⟨hw, hh, hp⟩ := hij
    simp only [scan_images, hp]
    split
    · exact ih _ _
    · rw [scan_rects_snd_congr padding k fr i j hw hh best]
      exact ih _ _

theorem SameImages.forall2 {l1 l2 : List Image} (h : SameImages l1 l2) :
    List.Forall₂ (fun i j => j.w = i.w ∧ j.h = i.h ∧ j.packed = i.packed) l1 l2 := by
  induction l1 generalizing l2 with
  | nil =>
    cases l2 with
    | nil => exact List.Forall₂.nil
    | cons b r2 => have := h.1; simp at this
  | cons a r ih =>
    cases l2 with
    | nil => have := h.1; simp at this
    | cons b r2 =>
      have h0 : SameBut a b := (h.2 0).1
      refine List.Forall₂.cons ⟨h0.same_w, h0.same_h, h0.same_packed⟩ (ih ⟨?_, fun j => h.2 (j + 1)⟩)
      have := h.1
      simpa using this

theorem forall2_all_packed {l1 l2 : List Image}
    (h : List.Forall₂ (fun i j => j.w = i.w ∧ j.h = i.h ∧ j.packed = i.packed) l1 l2) :
    all_packed l2 = all_packed l1 := by
  induction h with
  | nil => rfl
  | cons hij _ ih =>
    simp only [all_packed, List.all_cons] at ih ⊢
    rw [hij.2.2, ih]

theorem imageAt_ext {l1 l2 : List Image} (hl : l2.length = l1.length)
    (h : ∀ j, j < l1.length → imageAt l2 j = imageAt l1 j) : l2 = l1 := by
  apply List.ext_getElem hl
  intro j h1 h2
  have := h j h2
  unfold imageAt at this
  rw [List.getD_eq_getElem _ _ h1, List.getD_eq_getElem _ _ h2] at this
  exact this

theorem SameRun.all_packed_eq {s t : State} (h : SameRun s t) :
    all_packed t.images = all_packed s.images :=
  forall2_all_packed h.2.2.2.2.2.forall2

theorem SameRun.eq_of_all_packed {s t : State} (h : SameRun s t)
    (ha : all_packed s.images = true) : t = s := by
  obtain ⟨h1, h2, h3, h4, h5, h6⟩ := h
  have him : t.images = s.images :=
    imageAt_ext h6.1 (fun j hj => (h6.2 j).2 (all_packed_imageAt ha j hj))
  cases s
  cases t
  simp only [State.mk.injEq] at *
  exact ⟨h1, h2, him, h3, h4, h5⟩

/-- The scan finds the same candidate in two image lists that agree up to the
origins of images not packed, and leaves them in agreement. -/
theorem sameImages_scan (padding : Nat) (fr : List Rect) {l1 l2 : List Image}
    (h : SameImages l1 l2) :
    (scan_images padding fr 0 l2 none).2 = (scan_images padding fr 0 l1 none).2 ∧
    SameImages (scan_images padding fr 0 l1 none).1 (scan_images padding fr 0 l2 none).1 := by
  refine ⟨scan_images_snd_congr padding fr l1 l2 h.forall2 0 none, ?_, fun j => ?_⟩
  · rw [scan_images_length, scan_images_length]; exact h.1
  · have s1 := scan_images_same padding fr 0 l1 none j
    have s2 := scan_images_same padding fr 0 l2 none j
    have hj := h.2 j
    refine ⟨(s1.1.same_symm.same_trans hj.1).same_trans s2.1, fun hp => ?_⟩
    have hp1 : (imageAt l1 j).packed = true := by rw [← s1.1.same_packed]; exact hp
    have e1 := s1.2 hp1
    have e2 := hj.2 hp1
    have hp2 : (imageAt l2 j).packed = true := by rw [e2]; exact hp1
    rw [s2.2 hp2, e2, e1]

/-- Under the packing invariant the candidate's far corner fixes the origin of
the image it points to. -/
theorem good_origin {st : State} (hinv : PackInv st) {c : Best} (hb : c.b < st.images.length)
    (hgood : Good st.padding st.free_rects (imageAt st.images c.b) c) :
    c.bx1 = (imageAt st.images c.b).x0 + (imageAt st.images c.b).w + st.padding ∧
    c.by1 = (imageAt st.images c.b).y0 + (imageAt st.images c.b).h + st.padding := by
  obtain ⟨f, hf, hfit, hx0, hy0, hbx1, hby1, -, -⟩ := hgood
  obtain ⟨hfx, hfy, hfx1, hfy1⟩ := hinv.free_ok f hf
  have hsz := hinv.size_lt
  obtain ⟨hw, hh⟩ := hinv.no_wrap c.b hb
  rw [add32_eq hw, add32_eq hh, sub32_eq hfx (by omega), sub32_eq hfy (by omega)] at hfit
  constructor
  · have e : add32 f.x0 (imageAt st.images c.b).w = f.x0 + (imageAt st.images c.b).w :=
      add32_eq (by omega)
    rw [hbx1, e, add32_eq (by omega), hx0]
  · have e : add32 f.y0 (imageAt st.images c.b).h = f.y0 + (imageAt st.images c.b).h :=
      add32_eq (by omega)
    rw [hby1, e, add32_eq (by omega), hy0]

/-- A commit of the same candidate keeps two states in agreement. -/
theorem sameRun_commit {s t : State} (h : SameRun s t) (hs : PackInv s) (ht : PackInv t)
    {c : Best} (hb : c.b < s.images.length)
    (gs : Good s.padding s.free_rects (imageAt s.images c.b) c)
    (gt : Good t.padding t.free_rects (imageAt t.images c.b) c) :
    SameRun (commit s s.images c) (commit t t.images c) := by
  obtain ⟨h1, h2, h3, h4, h5, h6⟩ := h
  have hbt : c.b < t.images.length := by rw [h6.1]; exact hb
  obtain ⟨a1, a2⟩ := good_origin hs hb gs
  obtain ⟨b1, b2⟩ := good_origin ht hbt gt
  have hsb := (h6.2 c.b).1
  have ew := hsb.same_w
  have eh := hsb.same_h
  have ex : (imageAt t.images c.b).x0 = (imageAt s.images c.b).x0 := by omega
  have ey : (imageAt t.images c.b).y0 = (imageAt s.images c.b).y0 := by omega
  have eq : imageAt t.images c.b = imageAt s.images c.b := by
    unfold SameBut at hsb
    rw [hsb, ex, ey]
  refine ⟨h1, h2, h3, h4, ?_, ?_, fun j => ?_⟩
  · show split_rects t.min_w t.min_h t.padding c.bx1 c.by1 _ _ t.free_rects []
      = split_rects s.min_w s.min_h s.padding c.bx1 c.by1 _ _ s.free_rects []
    rw [h1, h3, h4, h5, eq]
  · show (set_packed c.b t.images).length = (set_packed c.b s.images).length
    rw [set_packed_length, set_packed_length]; exact h6.1
  · show SameBut (imageAt (set_packed c.b s.images) j) (imageAt (set_packed c.b t.images) j) ∧
      ((imageAt (set_packed c.b s.images) j).packed = true →
        imageAt (set_packed c.b t.images) j = imageAt (set_packed c.b s.images) j)
    by_cases e : j = c.b
    · subst e
      rw [imageAt_set_packed_self hb, imageAt_set_packed_self hbt, eq]
      exact ⟨SameBut.same_refl _, fun _ => rfl⟩
    · rw [imageAt_set_packed_ne e, imageAt_set_packed_ne e]
      exact h6.2 j

/-- The loop of `pack` keeps two states in agreement: it returns on both, with
results in agreement. -/
theorem pack_loop_same (n : Nat) (s t : State) (h : SameRun s t) (hs : PackInv s)
    (ht : PackInv t) (s' : State) (hr : pack_loop n s = some s') :
    ∃ t', pack_loop n t = some t' ∧ SameRun s' t' := by
  induction n generalizing s t with
  | zero => simp [pack_loop] at hr
  | succ n ih =>
    obtain ⟨sp, ss, si, smw, smh, sf⟩ := s
    obtain ⟨tp, ts, ti, tmw, tmh, tf⟩ := t
    obtain ⟨h1, h2, h3, h4, h5, h6⟩ := h
    simp only at h1 h2 h3 h4 h5 h6
    subst h1 h2 h3 h4 h5
    obtain ⟨e2, e6⟩ := sameImages_scan tp tf h6
    unfold pack_loop at hr ⊢
    simp only [] at hr ⊢
    rw [e2]
    cases hc : (scan_images tp tf 0 si none).2 with
    | none =>
      simp only [hc, Option.some.injEq] at hr
      refine ⟨_, rfl, ?_⟩
      rw [← hr]
      exact ⟨rfl, rfl, rfl, rfl, rfl, e6⟩
    | some c =>
      simp only [hc] at hr ⊢
      have hs1 := packInv_scan hs
      have ht1 := packInv_scan ht
      simp only [] at hs1 ht1
      have hl := scan_images_length tp tf 0 si none
      have hlt := scan_images_length tp tf 0 ti none
      have gs : c.b < (scan_images tp tf 0 si none).1.length ∧
          Good tp tf (imageAt (scan_images tp tf 0 si none).1 c.b) c := by
        rcases scan_images_best tp tf 0 si none with hb | hb
        · rw [hc] at hb; cases hb
        · obtain ⟨c', hc', -, hb, -, hgood⟩ := hb
          rw [hc] at hc'
          cases hc'
          exact ⟨by omega, hgood⟩
      have gt : Good tp tf (imageAt (scan_images tp tf 0 ti none).1 c.b) c := by
        rcases scan_images_best tp tf 0 ti none with hb | hb
        · rw [e2, hc] at hb; cases hb
        · obtain ⟨c', hc', -, hb, -, hgood⟩ := hb
          rw [e2, hc] at hc'
          cases hc'
          exact hgood
      have hsame : SameRun
          { padding := tp, size := ts, images := (scan_images tp tf 0 si none).1,
            min_w := tmw, min_h := tmh, free_rects := tf }
          { padding := tp, size := ts, images := (scan_images tp tf 0 ti none).1,
            min_w := tmw, min_h := tmh, free_rects := tf } :=
        ⟨rfl, rfl, rfl, rfl, rfl, e6⟩
      have hbt : c.b < (scan_images tp tf 0 ti none).1.length := by
        rw [hlt, h6.1, ← hl]; exact gs.1
      exact ih _ _ (sameRun_commit hsame hs1 ht1 gs.1 gs.2 gt)
        (packInv_commit hs1 gs.1 gs.2) (packInv_commit ht1 hbt gt) hr
/-- `pack` gives results in agreement on two states that differ only in the
origins and packed flags of their images, once lines 456-458 leave the same
free list on both. -/
theorem pack_same (s t : State) (hp : t.padding = s.padding) (hsz : t.size = s.size)
    (hmw : t.min_w = s.min_w) (hmh : t.min_h = s.min_h)
    (hfr : (pack_init t).free_rects = (pack_init s).free_rects)
    (hl : t.images.length = s.images.length)
    (him : ∀ j, Placed (imageAt t.images j) (imageAt s.images j))
    (hs : PackInv (pack_init s)) (ht : PackInv (pack_init t))
    (s' : State) (hr : pack s = some s') : ∃ t', pack t = some t' ∧ SameRun s' t' := by
  unfold pack at hr ⊢
  rw [hl]
  refine pack_loop_same _ (pack_init s) (pack_init t)
    ⟨hp, hsz, hmw, hmh, hfr, ?_, fun j => ?_⟩ hs ht s' hr
  · simp only [pack_init, List.length_map]; exact hl
  · simp only [pack_init, imageAt_pack_init]
    have h := him j
    unfold Placed at h
    refine ⟨?_, fun hp => by cases hp⟩
    unfold SameBut
    rw [h]

theorem pack_loop_nil (n : Nat) (s s' : State) (hf : s.free_rects = [])
    (hr : pack_loop n s = some s') : s'.free_rects = [] := by
  cases n with
  | zero => simp [pack_loop] at hr
  | succ n =>
    unfold pack_loop at hr
    have hnone : (scan_images s.padding s.free_rects 0 s.images none).2 = none := by
      rcases scan_images_best s.padding s.free_rects 0 s.images none with
        h | ⟨c, -, -, -, -, f, hfm, -⟩
      · exact h
      · rw [hf] at hfm; cases hfm
    simp only [hnone, Option.some.injEq] at hr
    rw [← hr]
    exact hf

theorem pack_antichain (s s' : State) (hinv : PackInv (pack_init s))
    (ha : Antichain s.free_rects) (hr : pack s = some s') : Antichain s'.free_rects := by
  obtain ⟨r, hreach, -, e⟩ := pack_reach hr
  have h := (reach_induct (fun x => Antichain x.free_rects) hinv
    (add_rect_antichain _ _ _ _ _ _ _ ha)
    (fun st c _ _ _ _ _ _ => split_rects_antichain _ _ List.Pairwise.nil) r hreach).2
  rw [e]
  exact h

/-- Lines 456-458 leave the free list they would leave from the empty list,
when the earlier list is an antichain within the page and is empty whenever
the page fails the size test of `add_rect`. -/
theorem pack_init_free (s : State) (hfree : FreeOK s) (ha : Antichain s.free_rects)
    (hfail : (0 > s.size ∨ sub32 s.size 0 < add32 s.min_w s.padding ∨
        0 > s.size ∨ sub32 s.size 0 < add32 s.min_h s.padding) → s.free_rects = []) :
    (pack_init s).free_rects = add_rect s.min_w s.min_h s.padding [] 0 0 s.size s.size := by
  show add_rect s.min_w s.min_h s.padding s.free_rects 0 0 s.size s.size = _
  unfold add_rect
  by_cases hc : 0 > s.size ∨ sub32 s.size 0 < add32 s.min_w s.padding ∨
      0 > s.size ∨ sub32 s.size 0 < add32 s.min_h s.padding
  · rw [if_pos hc, if_pos hc]
    exact hfail hc
  · rw [if_neg hc, if_neg hc]
    rcases @add_rect_scan_reset 0 0 s.size s.size _ ha
        (fun f hf => by
          obtain ⟨a, b, c, d⟩ := hfree f hf
          simp only [contained]
          omega) with h | h
    · rw [h]; rfl
    · rw [h]; rfl

theorem Placed.placed_symm {i j : Image} (h : Placed i j) : Placed j i := by
  unfold Placed at *
  rw [h]

/-- The auto-size loop from a page of side `2^k`, entered after the passes at
the smaller sides left a sprite unpacked: it ends at the least side `2^m`,
`k ≤ m ≤ 31`, at which `pack`, run on the loaded sprite set, packs every
sprite, with the state that run of `pack` returns; it ends in "too big" when
there is no such side. -/
theorem auto_loop_least (st : State) (hfr0 : st.free_rects = [])
    (hw : ∀ i ∈ st.images, i.w + st.padding < 4294967296 ∧ i.h + st.padding < 4294967296)
    (n k : Nat) (s : State) (hk : k ≤ 31) (hn : 32 ≤ n + k)
    (hsize : s.size = 2 ^ k) (hp : s.padding = st.padding)
    (hmw : s.min_w = st.min_w) (hmh : s.min_h = st.min_h)
    (hl : s.images.length = st.images.length)
    (him : ∀ j, Placed (imageAt st.images j) (imageAt s.images j))
    (hfree : FreeOK s) (ha : Antichain s.free_rects)
    (hfail : (0 > s.size ∨ sub32 s.size 0 < add32 s.min_w s.padding ∨
        0 > s.size ∨ sub32 s.size 0 < add32 s.min_h s.padding) → s.free_rects = []) :
    (auto_loop n s = some AutoResult.too_big ∧
      ∀ m, k ≤ m → m ≤ 31 →
        ∃ r, pack { st with size := 2 ^ m } = some r ∧ all_packed r.images = false) ∨
    ∃ st' m, auto_loop n s = some (AutoResult.done st') ∧ k ≤ m ∧ m ≤ 31 ∧
      pack { st with size := 2 ^ m } = some st' ∧ all_packed st'.images = true ∧
      ∀ j, k ≤ j → j < m →
        ∃ r, pack { st with size := 2 ^ j } = some r ∧ all_packed r.images = false := by
  induction n generalizing k s with
  | zero => omega
  | succ n ih =>
    have hpow : (2 : Nat) ^ k ≤ 2 ^ 31 := Nat.pow_le_pow_right (by decide) hk
    have hlt : s.size < 4294967296 := by rw [hsize]; omega
    have hws : ∀ i ∈ s.images,
        i.w + s.padding < 4294967296 ∧ i.h + s.padding < 4294967296 := by
      intro i hi
      obtain ⟨j, hj, e⟩ := mem_imageAt hi
      have hj' : j < st.images.length := by rw [← hl]; exact hj
      have := hw _ (imageAt_mem hj')
      rw [← e, (him j).placed_w, (him j).placed_h, hp]
      exact this
    obtain ⟨s', h1, h2, h3, h4, h5, h6⟩ := pack_spec s hlt hfree hws
    have hinvS := packInv_init hlt hfree hws
    have hinvF : PackInv (pack_init { st with size := 2 ^ k }) :=
      packInv_init (by show 2 ^ k < 4294967296; omega)
        (fun f hf => by
          have hf' : f ∈ st.free_rects := hf
          rw [hfr0] at hf'
          cases hf') hw
    have hfrEq : (pack_init { st with size := 2 ^ k }).free_rects
        = (pack_init s).free_rects := by
      rw [pack_init_free s hfree ha hfail]
      show add_rect st.min_w st.min_h st.padding st.free_rects 0 0 (2 ^ k) (2 ^ k) = _
      rw [hfr0, hmw, hmh, hp, hsize]
    obtain ⟨t', ht1, hsim⟩ := pack_same s { st with size := 2 ^ k } hp.symm hsize.symm
      hmw.symm hmh.symm hfrEq hl.symm him hinvS hinvF s' h1
    unfold auto_loop
    rw [h1]
    simp only []
    split
    · rename_i hall
      have e := hsim.eq_of_all_packed hall
      rw [e] at ht1
      exact Or.inr ⟨s', k, rfl, Nat.le_refl _, hk, ht1, hall, fun j j1 j2 => by omega⟩
    · rename_i hall
      have hallF : all_packed t'.images = false := by
        rw [hsim.all_packed_eq]; simpa using hall
      split
      · rename_i hbig
        refine Or.inl ⟨rfl, fun m hm1 hm2 => ?_⟩
        have hk31 : k = 31 := by
          by_contra hc
          have hp30 : (2 : Nat) ^ k ≤ 2 ^ 30 := Nat.pow_le_pow_right (by decide) (by omega)
          rw [h4, hsize] at hbig
          unfold PNG_UINT_32_MAX at hbig
          omega
        have em : m = k := by omega
        rw [em]
        exact ⟨t', ht1, hallF⟩
      · rename_i hbig
        have hk30 : k ≤ 30 := by
          by_contra hc
          have e : k = 31 := by omega
          rw [h4, hsize, e] at hbig
          exact hbig (by decide)
        have hpow2 : (2 : Nat) ^ (k + 1) ≤ 2 ^ 31 :=
          Nat.pow_le_pow_right (by decide) (by omega)
        have hnew : mul32 s'.size 2 = 2 ^ (k + 1) := by
          rw [h4, hsize]
          unfold mul32
          rw [← Nat.pow_succ]
          exact Nat.mod_eq_of_lt (by omega)
        have hle : s'.size ≤ mul32 s'.size 2 := by
          rw [hnew, h4, hsize, Nat.pow_succ]; omega
        have hg := pack_loop_globals _ _ _ h1
        have hg1 : s'.min_w = s.min_w := hg.1
        have hg2 : s'.min_h = s.min_h := hg.2
        rcases ih (k + 1) { s' with size := mul32 s'.size 2 } (by omega) (by omega) hnew
            (h3.trans hp) (hg1.trans hmw) (hg2.trans hmh) (h5.trans hl)
            (fun j => (him j).placed_trans (h6 j))
            (fun f hf => by
              obtain ⟨a, b, c, d⟩ := h2.free_ok f hf
              exact ⟨a, b, Nat.le_trans c hle, Nat.le_trans d hle⟩)
            (pack_antichain s s' hinvS ha h1)
            (fun hc => by
              have hc' : 0 > mul32 s'.size 2 ∨
                  sub32 (mul32 s'.size 2) 0 < add32 s'.min_w s'.padding ∨
                  0 > mul32 s'.size 2 ∨
                  sub32 (mul32 s'.size 2) 0 < add32 s'.min_h s'.padding := hc
              have e1 : sub32 (mul32 s'.size 2) 0 = mul32 s'.size 2 :=
                sub32_eq (Nat.zero_le _) (by rw [hnew]; omega)
              have e0 : sub32 s.size 0 = s.size := sub32_eq (Nat.zero_le _) hlt
              have hlt2 : s.size ≤ mul32 s'.size 2 := by rw [← h4]; exact hle
              rw [hg1, hg2, h3, e1] at hc'
              have hcs : 0 > s.size ∨ sub32 s.size 0 < add32 s.min_w s.padding ∨
                  0 > s.size ∨ sub32 s.size 0 < add32 s.min_h s.padding := by
                rw [e0]
                omega
              have hnil : (pack_init s).free_rects = [] := by
                show add_rect s.min_w s.min_h s.padding s.free_rects 0 0 s.size s.size = []
                unfold add_rect
                rw [if_pos hcs]
                exact hfail hcs
              show s'.free_rects = []
              exact pack_loop_nil _ _ s' hnil h1)
          with ⟨g1, g2⟩ | ⟨r, m, g1, g2, g3, g4, g5, g6⟩
        · refine Or.inl ⟨g1, fun m hm1 hm2 => ?_⟩
          by_cases em : m = k
          · rw [em]; exact ⟨t', ht1, hallF⟩
          · exact g2 m (by omega) hm2
        · refine Or.inr ⟨r, m, g1, by omega, g3, g4, g5, fun j j1 j2 => ?_⟩
          by_cases ej : j = k
          · rw [ej]; exact ⟨t', ht1, hallF⟩
          · exact g6 j (by omega) j2

/-- C11, amended: for every non-empty sprite set accepted in auto-size mode
(sides between 1 and `2^32 - 1 - padding`), with the free list empty as it is
when `main` reaches the loop, the doubling loop started at side 1 terminates.
It ends through `errx(1, "too big")` only when at every side `2^m`, `m ≤ 31`,
`pack` leaves a sprite unpacked; otherwise it ends with the state `pack`
returns at the least side `2^m` at which it packs every sprite: every sprite
is packed on that single page, whose side is a power of two and at least every
sprite's width plus padding and height plus padding. -/
theorem auto_driver_outcome (st : State) (hne : st.images ≠ [])
    (hpad : st.padding < PNG_UINT_32_MAX) (hfree : st.free_rects = [])
    (hsp : ∀ i ∈ st.images, 1 ≤ i.w ∧ i.w ≤ PNG_UINT_32_MAX - st.padding ∧
      1 ≤ i.h ∧ i.h ≤ PNG_UINT_32_MAX - st.padding) :
    (auto_driver st = some AutoResult.too_big ∧
      ∀ m, m ≤ 31 →
        ∃ r, pack { st with size := 2 ^ m } = some r ∧ all_packed r.images = false) ∨
    ∃ st' m, auto_driver st = some (AutoResult.done st') ∧ m ≤ 31 ∧ st'.size = 2 ^ m ∧
      pack { st with size := 2 ^ m } = some st' ∧
      (∀ k, k < m →
        ∃ r, pack { st with size := 2 ^ k } = some r ∧ all_packed r.images = false) ∧
      st'.images.length = st.images.length ∧
      (∀ j, Placed (imageAt st.images j) (imageAt st'.images j)) ∧
      ∀ j, j < st'.images.length → (imageAt st'.images j).packed = true ∧
        (imageAt st'.images j).w + st.padding ≤ st'.size ∧
        (imageAt st'.images j).h + st.padding ≤ st'.size := by
  have _ := hne
  unfold PNG_UINT_32_MAX at hpad hsp
  have hw : ∀ i ∈ st.images,
      i.w + st.padding < 4294967296 ∧ i.h + st.padding < 4294967296 :=
    fun i hi => by have := hsp i hi; omega
  rcases auto_loop_least st hfree hw 33 0 { st with size := 1 } (by omega) (by omega) rfl rfl
      rfl rfl rfl (fun j => Placed.placed_refl _)
      (fun f hf => by
        have hf' : f ∈ st.free_rects := hf
        rw [hfree] at hf'
        cases hf')
      (by show Antichain st.free_rects; rw [hfree]; exact List.Pairwise.nil)
      (fun _ => hfree)
    with ⟨g1, g2⟩ | ⟨s, m, g1, -, g3, g4, g5, g6⟩
  · exact Or.inl ⟨g1, fun m hm => g2 m (Nat.zero_le _) hm⟩
  · have hpow : (2 : Nat) ^ m ≤ 2 ^ 31 := Nat.pow_le_pow_right (by decide) g3
    obtain ⟨s2, p1, p2, p3, p4, p5, p6⟩ := pack_spec { st with size := 2 ^ m }
      (by show 2 ^ m < 4294967296; omega)
      (fun f hf => by
        have hf' : f ∈ st.free_rects := hf
        rw [hfree] at hf'
        cases hf') hw
    rw [g4] at p1
    cases p1
    refine Or.inr ⟨s, m, g1, g3, p4, g4, fun k hk => g6 k (Nat.zero_le _) hk, p5, p6,
      fun j hj => ?_⟩
    have hp := all_packed_imageAt g5 j hj
    obtain ⟨b1, b2⟩ := p2.box_in j hp
    have e3 : s.padding = st.padding := p3
    have e4 : s.size = 2 ^ m := p4
    rw [e3] at b1 b2
    exact ⟨hp, by omega, by omega⟩

theorem auto_driver_outcome_witness :
    (∃ st', auto_driver autoExample = some (AutoResult.done st') ∧ st'.size = 8 ∧
      all_packed st'.images = true ∧
      (imageAt st'.images 0).x0 = 0 ∧ (imageAt st'.images 1).x0 = 3) ∧
    ((auto_driver autoExample = some AutoResult.too_big ∧
      ∀ m, m ≤ 31 →
        ∃ r, pack { autoExample with size := 2 ^ m } = some r ∧
          all_packed r.images = false) ∨
    ∃ st' m, auto_driver autoExample = some (AutoResult.done st') ∧ m ≤ 31 ∧
      st'.size = 2 ^ m ∧
      pack { autoExample with size := 2 ^ m } = some st' ∧
      (∀ k, k < m →
        ∃ r, pack { autoExample with size := 2 ^ k } = some r ∧
          all_packed r.images = false) ∧
      st'.images.length = autoExample.images.length ∧
      (∀ j, Placed (imageAt autoExample.images j) (imageAt st'.images j)) ∧
      ∀ j, j < st'.images.length → (imageAt st'.images j).packed = true ∧
        (imageAt st'.images j).w + autoExample.padding ≤ st'.size ∧
        (imageAt st'.images j).h + autoExample.padding ≤ st'.size) :=
  ⟨⟨_, rfl, by decide⟩,
   auto_driver_outcome autoExample (by decide) (by decide) rfl (by decide)⟩

end Pngatls
